import Mathlib

/-!
A verification development for the cms-embedded-utils string engine.

Strings and buffers are shallowly embedded as lists of byte values
(`List Nat`); a C character buffer of capacity maxLen is a list whose
first maxLen entries model the array, reads use `List.getD` with
default 0 (reads past the allocation yield 0) and writes use
`List.set` / sequential byte stores.  C strings (null-terminated byte
runs) are modelled as zero-free lists of their content bytes; the
terminator is the first out-of-range read.  `unsigned long` / `long`
follow the 32-bit embedded targets the library is written for
(static digit tables cap at 10 decimal digits).
-/

namespace cms

/-- Write the bytes of data sequentially starting at index pos
(the semantics of memcpy from a non-overlapping source). -/
def writeAt : List Nat → Nat → List Nat → List Nat
  | buf, _, [] => buf
  | buf, pos, b :: bs => writeAt (buf.set pos b) (pos + 1) bs

/-- The bytes of buf in index range [a, b). -/
def sliceL (buf : List Nat) (a b : Nat) : List Nat :=
  (buf.take b).drop a

/-- UTF-8 byte classifier of validateUtf8: the four bytes at the cursor
either begin a valid sequence of the returned length, or fail.
Each branch mirrors one branch of the validateUtf8 source. -/
def utf8SeqLen (b0 b1 b2 b3 : Nat) : Option Nat :=
  if b0 ≤ 0x7F then some 1
  else if 0xC2 ≤ b0 ∧ b0 ≤ 0xDF then
    (if b1 &&& 0xC0 = 0x80 then some 2 else none)
  else if b0 = 0xE0 then
    (if 0xA0 ≤ b1 ∧ b1 ≤ 0xBF ∧ b2 &&& 0xC0 = 0x80 then some 3 else none)
  else if 0xE1 ≤ b0 ∧ b0 ≤ 0xEC then
    (if b1 &&& 0xC0 = 0x80 ∧ b2 &&& 0xC0 = 0x80 then some 3 else none)
  else if b0 = 0xED then
    (if 0x80 ≤ b1 ∧ b1 ≤ 0x9F ∧ b2 &&& 0xC0 = 0x80 then some 3 else none)
  else if 0xEE ≤ b0 ∧ b0 ≤ 0xEF then
    (if b1 &&& 0xC0 = 0x80 ∧ b2 &&& 0xC0 = 0x80 then some 3 else none)
  else if b0 = 0xF0 then
    (if 0x90 ≤ b1 ∧ b1 ≤ 0xBF ∧ b2 &&& 0xC0 = 0x80 ∧ b3 &&& 0xC0 = 0x80 then some 4 else none)
  else if 0xF1 ≤ b0 ∧ b0 ≤ 0xF3 then
    (if b1 &&& 0xC0 = 0x80 ∧ b2 &&& 0xC0 = 0x80 ∧ b3 &&& 0xC0 = 0x80 then some 4 else none)
  else if b0 = 0xF4 then
    (if 0x80 ≤ b1 ∧ b1 ≤ 0x8F ∧ b2 &&& 0xC0 = 0x80 ∧ b3 &&& 0xC0 = 0x80 then some 4 else none)
  else none

/-- UTF-8 byte classifier of sanitizeUtf8: identical branch ranges, but the
valid-sequence tests additionally require the trailing bytes to be nonzero
(the source checks src[1], src[2], src[3] before their bit patterns). -/
def sanSeqLen (b0 b1 b2 b3 : Nat) : Option Nat :=
  if b0 ≤ 0x7F then some 1
  else if 0xC2 ≤ b0 ∧ b0 ≤ 0xDF then
    (if b1 ≠ 0 ∧ b1 &&& 0xC0 = 0x80 then some 2 else none)
  else if b0 = 0xE0 then
    (if b1 ≠ 0 ∧ b2 ≠ 0 ∧ 0xA0 ≤ b1 ∧ b1 ≤ 0xBF ∧ b2 &&& 0xC0 = 0x80 then some 3 else none)
  else if 0xE1 ≤ b0 ∧ b0 ≤ 0xEC then
    (if b1 ≠ 0 ∧ b2 ≠ 0 ∧ b1 &&& 0xC0 = 0x80 ∧ b2 &&& 0xC0 = 0x80 then some 3 else none)
  else if b0 = 0xED then
    (if b1 ≠ 0 ∧ b2 ≠ 0 ∧ 0x80 ≤ b1 ∧ b1 ≤ 0x9F ∧ b2 &&& 0xC0 = 0x80 then some 3 else none)
  else if 0xEE ≤ b0 ∧ b0 ≤ 0xEF then
    (if b1 ≠ 0 ∧ b2 ≠ 0 ∧ b1 &&& 0xC0 = 0x80 ∧ b2 &&& 0xC0 = 0x80 then some 3 else none)
  else if b0 = 0xF0 then
    (if b1 ≠ 0 ∧ b2 ≠ 0 ∧ b3 ≠ 0 ∧ 0x90 ≤ b1 ∧ b1 ≤ 0xBF ∧ b2 &&& 0xC0 = 0x80 ∧
       b3 &&& 0xC0 = 0x80 then some 4 else none)
  else if 0xF1 ≤ b0 ∧ b0 ≤ 0xF3 then
    (if b1 ≠ 0 ∧ b2 ≠ 0 ∧ b3 ≠ 0 ∧ b1 &&& 0xC0 = 0x80 ∧ b2 &&& 0xC0 = 0x80 ∧
       b3 &&& 0xC0 = 0x80 then some 4 else none)
  else if b0 = 0xF4 then
    (if b1 ≠ 0 ∧ b2 ≠ 0 ∧ b3 ≠ 0 ∧ 0x80 ≤ b1 ∧ b1 ≤ 0x8F ∧ b2 &&& 0xC0 = 0x80 ∧
       b3 &&& 0xC0 = 0x80 then some 4 else none)
  else none

/-- The scanning loop of validateUtf8 over the buffer, from byte index i. -/
def validateLoop (buf : List Nat) (i : Nat) : Bool :=
  if _hz : buf.getD i 0 = 0 then true
  else
    match utf8SeqLen (buf.getD i 0) (buf.getD (i+1) 0) (buf.getD (i+2) 0)
        (buf.getD (i+3) 0) with
    | some (Nat.succ k) => validateLoop buf (i + (k + 1))
    | some 0 => true
    | none => false
termination_by buf.length - i
decreasing_by
  have hi : i < buf.length := by
    by_contra hcon
    exact _hz (List.getD_eq_default _ _ (Nat.le_of_not_lt hcon))
  omega

/-- cms::string::validateUtf8 on a buffer (null pointer excluded; the C
function walks the bytes until the first 0). -/
def validateUtf8 (buf : List Nat) : Bool :=
  validateLoop buf 0

/-- One byte-by-byte copy of k bytes (the repeated statement
star-dst-plus-plus gets star-src-plus-plus of the sanitizeUtf8 source). -/
def copyBytes : List Nat → Nat → Nat → Nat → List Nat
  | buf, _, _, 0 => buf
  | buf, src, dst, Nat.succ k => copyBytes (buf.set dst (buf.getD src 0)) (src+1) (dst+1) k

/-- memcpy of the fixed 3-byte replacement marker U+FFFD at dst. -/
def writeRepl (buf : List Nat) (dst : Nat) : List Nat :=
  ((buf.set dst 0xEF).set (dst+1) 0xBF).set (dst+2) 0xBD

/-- Final null-termination step of sanitizeUtf8 (after the scan loop). -/
def sanFin (maxLen : Nat) (buf : List Nat) (dst : Nat) : List Nat × Nat :=
  if dst < maxLen then (buf.set dst 0, dst)
  else ((buf.set (maxLen - 1) 0), maxLen - 1)

/-- The rewriting loop of sanitizeUtf8: src is the read cursor, dst the
write cursor into the same buffer.  A valid k-byte sequence is copied
byte-by-byte when it fits (the ASCII capacity test dst at least maxLen-1
is the k = 1 instance of maxLen at most dst + k); an invalid byte becomes
the 3-byte marker, a single placeholder 0x3F when only that fits,
and the loop stops when not even that fits. -/
def sanLoop (maxLen : Nat) (buf : List Nat) (src dst : Nat) : List Nat × Nat :=
  if _hz : buf.getD src 0 = 0 then sanFin maxLen buf dst
  else
    match sanSeqLen (buf.getD src 0) (buf.getD (src+1) 0) (buf.getD (src+2) 0)
        (buf.getD (src+3) 0) with
    | some (Nat.succ k) =>
      if maxLen ≤ dst + (k + 1) then sanFin maxLen buf dst
      else sanLoop maxLen (copyBytes buf src dst (k + 1)) (src + (k + 1)) (dst + (k + 1))
    | some 0 => sanFin maxLen buf dst
    | none =>
      if dst + 3 < maxLen then sanLoop maxLen (writeRepl buf dst) (src + 1) (dst + 3)
      else if dst < maxLen - 1 then sanLoop maxLen (buf.set dst 0x3F) (src + 1) (dst + 1)
      else sanFin maxLen buf dst
termination_by maxLen - dst
decreasing_by
  · omega
  · omega
  · omega

/-- cms::string::sanitizeUtf8: returns the rewritten buffer and the final
length (the C function rewrites in place and returns the length). -/
def sanitizeUtf8 (str : List Nat) (maxLen : Nat) : List Nat × Nat :=
  if maxLen = 0 then (str, 0) else sanLoop maxLen str 0 0

/-- Modelled from the spec: cms::string::toLower, the per-byte case fold
(declared in the cmsStringUtil.h header, absent from the sources): it folds
the ASCII uppercase range only, leaving every other byte unchanged so that
multi-byte characters are not corrupted. -/
def toLower (c : Nat) : Nat :=
  if 65 ≤ c ∧ c ≤ 90 then c + 32 else c

/-- Modelled from the spec: cms::string::isSpace (declared in the missing
header): the classified-whitespace/control test used by trim and the
whitespace-tolerant conversions; the standard C whitespace class. -/
def isSpace (b : Nat) : Bool :=
  b = 32 ∨ (9 ≤ b ∧ b ≤ 13)

/-- Modelled from the spec: the per-byte decimal-digit test used by toInt
(declared in the missing header). -/
def isDigitChar (b : Nat) : Bool :=
  48 ≤ b ∧ b ≤ 57

/-- The while loop of computeLPS, with explicit fuel (the loop performs at
most 2*m iterations; computeLPS supplies that much fuel). State: the lps
table under construction, the current border length len, the scan index i. -/
def computeLPSLoop (pat : List Nat) (m : Nat) : Nat → List Nat → Nat → Nat → List Nat
  | 0, lps, _, _ => lps
  | Nat.succ fuel, lps, len, i =>
    if i < m then
      if toLower (pat.getD i 0) = toLower (pat.getD len 0) then
        computeLPSLoop pat m fuel (lps.set i (len + 1)) (len + 1) (i + 1)
      else if len ≠ 0 then
        computeLPSLoop pat m fuel lps (lps.getD (len - 1) 0) i
      else
        computeLPSLoop pat m fuel (lps.set i 0) len (i + 1)
    else lps

/-- computeLPS of the source: the KMP failure table over the folded
pattern (lps[0] = 0 is the explicit first store of the source). -/
def computeLPS (pat : List Nat) (m : Nat) : List Nat :=
  computeLPSLoop pat m (2 * m) ((List.replicate m 0).set 0 0) 0 1

/-- The KMP scan loop of strcasestr, with explicit fuel (each iteration
raises 2i - j by at least one, so 2*length+1 iterations always suffice;
strcasestr supplies that much fuel). -/
def kmpLoop (hay pat : List Nat) (m : Nat) (lps : List Nat) :
    Nat → Nat → Nat → Option Nat
  | 0, _, _ => none
  | Nat.succ fuel, i, j =>
    if hay.getD i 0 ≠ 0 then
      let p := if toLower (hay.getD i 0) = toLower (pat.getD j 0) then (i+1, j+1) else (i, j)
      if p.2 = m then some (p.1 - m)
      else if hay.getD p.1 0 ≠ 0 ∧ toLower (hay.getD p.1 0) ≠ toLower (pat.getD p.2 0) then
        if p.2 ≠ 0 then kmpLoop hay pat m lps fuel p.1 (lps.getD (p.2 - 1) 0)
        else kmpLoop hay pat m lps fuel (p.1 + 1) p.2
      else kmpLoop hay pat m lps fuel p.1 p.2
    else none

/-- The inner comparison loop of the naive fallback of strcasestr: advances
while both strings continue and fold-match; returns the final needle index. -/
def naiveInner (hay pat : List Nat) (hi ni : Nat) : Nat :=
  if hay.getD hi 0 ≠ 0 ∧ pat.getD ni 0 ≠ 0 ∧
      toLower (hay.getD hi 0) = toLower (pat.getD ni 0) then
    naiveInner hay pat (hi + 1) (ni + 1)
  else ni
termination_by hay.length - hi
decreasing_by
  rename_i hg
  have hi2 : hi < hay.length := by
    by_contra hcon
    exact hg.1 (List.getD_eq_default _ _ (Nat.le_of_not_lt hcon))
  omega

/-- The outer scan of the naive fallback of strcasestr: first-byte filtered
case-insensitive scan over every haystack position. -/
def naiveLoop (hay pat : List Nat) (s : Nat) : Option Nat :=
  if hay.getD s 0 ≠ 0 then
    if toLower (hay.getD s 0) = toLower (pat.getD 0 0) then
      let ni := naiveInner hay pat (s + 1) 1
      if pat.getD ni 0 = 0 then some s else naiveLoop hay pat (s + 1)
    else naiveLoop hay pat (s + 1)
  else none
termination_by hay.length - s
decreasing_by
  · rename_i hg _ _
    have hs : s < hay.length := by
      by_contra hcon
      exact hg (List.getD_eq_default _ _ (Nat.le_of_not_lt hcon))
    omega
  · rename_i hg _
    have hs : s < hay.length := by
      by_contra hcon
      exact hg (List.getD_eq_default _ _ (Nat.le_of_not_lt hcon))
    omega

/-- cms::string::strcasestr: case-insensitive substring search returning
the byte offset of the first match (the source returns a pointer).  A
pattern of at most 64 bytes goes through the KMP path, longer patterns
through the naive fallback.  Strings are zero-free content lists, so
strlen(needle) is the list length. -/
def strcasestr (hay pat : List Nat) : Option Nat :=
  if pat.getD 0 0 = 0 then some 0
  else
    let m := pat.length
    if m ≤ 64 then kmpLoop hay pat m (computeLPS pat m) (2 * hay.length + 1) 0 0
    else naiveLoop hay pat 0

/-- libc strstr, an external collaborator, modelled by its contract: the
least offset where pat occurs (scanned left to right). -/
def strstrLoop (hay pat : List Nat) (s : Nat) : Option Nat :=
  if s + pat.length ≤ hay.length then
    (if pat.isPrefixOf (hay.drop s) then some s else strstrLoop hay pat (s + 1))
  else none
termination_by hay.length + 1 - s
decreasing_by
  rename_i hle _
  omega

/-- libc strstr on content lists (empty pattern matches immediately,
as in the C contract). -/
def strstrM (hay pat : List Nat) : Option Nat :=
  strstrLoop hay pat 0

/-- cms::string::contains on non-null strings with explicit lengths
(the length-taking overload of the source). -/
def containsLen (str : List Nat) (strLen : Nat) (target : List Nat) (targetLen : Nat)
    (ignoreCase : Bool) : Bool :=
  if strLen < targetLen then false
  else if targetLen = 0 then true
  else (if ignoreCase then strcasestr str target else strstrM str target).isSome

/-- cms::string::contains with nullable pointers, as in the C entry point:
either null argument yields false, otherwise the length overload runs on
strlen of each. -/
def contains (str target : Option (List Nat)) (ignoreCase : Bool) : Bool :=
  match str, target with
  | some s, some t => containsLen s s.length t t.length ignoreCase
  | _, _ => false

/-- The first scanning loop of findUtf8CharStart: advance while the byte is
nonzero and fewer than charIdx characters (non-continuation bytes) have
been counted. -/
def fucsLoop (buf : List Nat) (p count charIdx : Nat) : Nat :=
  if buf.getD p 0 ≠ 0 ∧ count < charIdx then
    (if (buf.getD p 0) &&& 0xC0 ≠ 0x80 then fucsLoop buf (p + 1) (count + 1) charIdx
     else fucsLoop buf (p + 1) count charIdx)
  else p
termination_by buf.length - p
decreasing_by
  · rename_i hg _
    have hp : p < buf.length := by
      by_contra hcon
      exact hg.1 (List.getD_eq_default _ _ (Nat.le_of_not_lt hcon))
    omega
  · rename_i hg _
    have hp : p < buf.length := by
      by_contra hcon
      exact hg.1 (List.getD_eq_default _ _ (Nat.le_of_not_lt hcon))
    omega

/-- The second loop of findUtf8CharStart: skip continuation bytes so the
returned offset never lands inside a multi-byte sequence. -/
def fucsSkip (buf : List Nat) (p : Nat) : Nat :=
  if buf.getD p 0 ≠ 0 ∧ (buf.getD p 0) &&& 0xC0 = 0x80 then fucsSkip buf (p + 1) else p
termination_by buf.length - p
decreasing_by
  rename_i hg
  have hp : p < buf.length := by
    by_contra hcon
    exact hg.1 (List.getD_eq_default _ _ (Nat.le_of_not_lt hcon))
  omega

/-- findUtf8CharStart of the source (null pointer excluded): the byte
offset where the charIdx-th logical character begins. -/
def findUtf8CharStart (buf : List Nat) (charIdx : Nat) : Nat :=
  fucsSkip buf (fucsLoop buf 0 0 charIdx)

/-- cms::string::insert: splice src at the byte offset of logical index
charIdx, truncating src to what fits below capacity; the tail (terminator
included) is block-moved right, then src is copied in.  Null pointers
excluded; the *src == 0 guard is the empty-content test of the zero-free
model. -/
def insert (buf : List Nat) (maxLen curLen charIdx : Nat) (src : List Nat) :
    List Nat × Nat :=
  if src.getD 0 0 = 0 then (buf, curLen)
  else
    let byteOffset := findUtf8CharStart buf charIdx
    let srcLen0 := src.length
    let srcLen := if maxLen ≤ curLen + srcLen0 then
        (if curLen + 1 < maxLen then maxLen - curLen - 1 else 0)
      else srcLen0
    if srcLen = 0 then (buf, curLen)
    else
      let buf1 := if byteOffset < curLen then
          writeAt buf (byteOffset + srcLen) (sliceL buf byteOffset (curLen + 1))
        else buf.set (curLen + srcLen) 0
      (writeAt buf1 byteOffset (src.take srcLen), curLen + srcLen)

/-- cms::string::append: copy up to the available capacity (one byte
reserved for the terminator) and re-terminate.  The maxLen - 1 guard is
size_t arithmetic; capacities are at least 1 by the String class
static_assert. -/
def append (buf : List Nat) (maxLen curLen : Nat) (src : List Nat) (srcLen : Nat) :
    List Nat × Nat :=
  if srcLen = 0 ∨ maxLen - 1 ≤ curLen then (buf, curLen)
  else
    let available := maxLen - 1 - curLen
    let toCopy := if srcLen < available then srcLen else available
    if 0 < toCopy then
      ((writeAt buf curLen (src.take toCopy)).set (curLen + toCopy) 0, curLen + toCopy)
    else (buf, curLen)

/-- The scan loop of the non-destructive (Token) split: tokens are
(byte offset, byte length) views; count mirrors the source counter and
always equals the number of tokens accumulated so far. -/
def splitTokLoop (str : List Nat) (delim maxTokens : Nat)
    (acc : List (Nat × Nat)) (count start p : Nat) : List (Nat × Nat) :=
  if str.getD p 0 ≠ 0 then
    if str.getD p 0 = delim then
      if count < maxTokens - 1 then
        splitTokLoop str delim maxTokens (acc ++ [(start, p - start)]) (count + 1) (p + 1) (p + 1)
      else acc ++ [(start, p - start)]
    else splitTokLoop str delim maxTokens acc count start (p + 1)
  else acc ++ [(start, p - start)]
termination_by str.length - p
decreasing_by
  · rename_i hg _ _
    have hp : p < str.length := by
      by_contra hcon
      exact hg (List.getD_eq_default _ _ (Nat.le_of_not_lt hcon))
    omega
  · rename_i hg _
    have hp : p < str.length := by
      by_contra hcon
      exact hg (List.getD_eq_default _ _ (Nat.le_of_not_lt hcon))
    omega

/-- cms::string::split, the non-destructive Token overload: null pointers
and a zero slot count yield no tokens. -/
def splitToken (str : List Nat) (delim maxTokens : Nat) : List (Nat × Nat) :=
  if maxTokens = 0 then [] else splitTokLoop str delim maxTokens [] 0 0 0

/-- The two-characters-per-division lookup table of appendUIntInternal. -/
def digitsTable : List Nat :=
  ("0001020304050607080910111213141516171819"
    ++ "2021222324252627282930313233343536373839"
    ++ "4041424344454647484950515253545556575859"
    ++ "6061626364656667686970717273747576777879"
    ++ "8081828384858687888990919293949596979899").toList.map Char.toNat

/-- The branch-table digit count of appendUIntInternal (unsigned long is
32 bits wide on the library's targets, hence the cap at ten digits). -/
def digitsCountU (uval : Nat) : Nat :=
  if uval < 10 then 1
  else if uval < 100 then 2
  else if uval < 1000 then 3
  else if uval < 10000 then 4
  else if uval < 100000 then 5
  else if uval < 1000000 then 6
  else if uval < 10000000 then 7
  else if uval < 100000000 then 8
  else if uval < 1000000000 then 9
  else 10

/-- The two-digits-at-a-time write loop of appendUIntInternal; returns the
buffer, the write cursor, and the remaining value (below 100). -/
def uintPairLoop (buf : List Nat) (writeIdx v : Nat) : List Nat × Nat × Nat :=
  if 100 ≤ v then
    let i := (v % 100) * 2
    uintPairLoop
      ((buf.set (writeIdx - 1) (digitsTable.getD (i + 1) 0)).set (writeIdx - 2)
        (digitsTable.getD i 0))
      (writeIdx - 2) (v / 100)
  else (buf, writeIdx, v)
termination_by v
decreasing_by
  exact Nat.div_lt_self (by omega) (by omega)

/-- The left-padding loop shared by appendUIntInternal and
appendHexInternal. -/
def padLoop (buf : List Nat) (writeIdx startIdx pad : Nat) : List Nat :=
  if startIdx < writeIdx then padLoop (buf.set (writeIdx - 1) pad) (writeIdx - 1) startIdx pad
  else buf
termination_by writeIdx
decreasing_by
  omega

/-- appendUIntInternal of the source: digit count, capacity check, reverse
fill from the end, remaining one or two digits, then padding. -/
def appendUIntInternal (buf : List Nat) (maxLen curLen uval width padChar : Nat) :
    List Nat × Nat :=
  let digitsCount := digitsCountU uval
  let totalLen := if width < digitsCount then digitsCount else width
  if maxLen ≤ curLen + totalLen then (buf, curLen)
  else
    let startIdx := curLen
    let writeIdx := curLen + totalLen
    let buf0 := buf.set writeIdx 0
    let r := uintPairLoop buf0 writeIdx uval
    let r2 : List Nat × Nat :=
      if 10 ≤ r.2.2 then
        let i := r.2.2 * 2
        (((r.1.set (r.2.1 - 1) (digitsTable.getD (i + 1) 0)).set (r.2.1 - 2)
          (digitsTable.getD i 0)), r.2.1 - 2)
      else (r.1.set (r.2.1 - 1) (r.2.2 + 48), r.2.1 - 1)
    (padLoop r2.1 r2.2 startIdx padChar, curLen + totalLen)

/-- cms::string::appendInt: sign byte first for negatives, then the
unsigned path on the overflow-free magnitude (-(val+1)) + 1; long is the
32-bit type of the library's targets, so the unsigned casts reduce values
modulo 2^32. -/
def appendInt (buf : List Nat) (maxLen curLen : Nat) (val : Int) (width padChar : Nat) :
    List Nat × Nat :=
  if maxLen - 1 ≤ curLen then (buf, curLen)
  else if val < 0 then
    let uval := ((-(val + 1)).toNat % 2 ^ 32 + 1) % 2 ^ 32
    appendUIntInternal (buf.set curLen 45) maxLen (curLen + 1) uval
      (if 0 < width then width - 1 else 0) padChar
  else appendUIntInternal buf maxLen curLen (val.toNat % 2 ^ 32) width padChar

/-- The nibble-counting loop of appendHexInternal. -/
def hexCountLoop (temp : Nat) : Nat :=
  if 0 < temp then hexCountLoop (temp >>> 4) + 1 else 0
termination_by temp
decreasing_by
  simp only [Nat.shiftRight_eq_div_pow]
  exact Nat.div_lt_self (by omega) (by norm_num)

/-- The hex digit tables of appendHexInternal. -/
def hexCharsUpper : List Nat := "0123456789ABCDEF".toList.map Char.toNat

/-- Lowercase variant of the hex digit table. -/
def hexCharsLower : List Nat := "0123456789abcdef".toList.map Char.toNat

/-- The reverse nibble-write loop of appendHexInternal (runs digitsCount
times). -/
def hexWriteLoop (hexChars buf : List Nat) (writeIdx v : Nat) : Nat → List Nat × Nat
  | 0 => (buf, writeIdx)
  | Nat.succ n =>
    hexWriteLoop hexChars (buf.set (writeIdx - 1) (hexChars.getD (v &&& 0xF) 0))
      (writeIdx - 1) (v >>> 4) n

/-- appendHexInternal of the source: nibble count, capacity check, reverse
fill, padding. -/
def appendHexInternal (buf : List Nat) (maxLen curLen uval width padChar : Nat)
    (uppercase : Bool) : List Nat × Nat :=
  let digitsCount := if uval = 0 then 1 else hexCountLoop uval
  let totalLen := if width < digitsCount then digitsCount else width
  if maxLen ≤ curLen + totalLen then (buf, curLen)
  else
    let startIdx := curLen
    let writeIdx := curLen + totalLen
    let buf0 := buf.set writeIdx 0
    let hexChars := if uppercase then hexCharsUpper else hexCharsLower
    let r := hexWriteLoop hexChars buf0 writeIdx uval digitsCount
    (padLoop r.1 r.2 startIdx padChar, curLen + totalLen)

/-- The leading-whitespace skip of toInt. -/
def toIntSkip (str : List Nat) (len i : Nat) : Nat :=
  if i < len ∧ isSpace (str.getD i 0) then toIntSkip str len (i + 1) else i
termination_by len - i
decreasing_by
  rename_i hg
  omega

/-- The digit-accumulation loop of toInt (val is the long long
accumulator). -/
def toIntDigits (str : List Nat) (len i : Nat) (val : Int) : Int :=
  if i < len ∧ isDigitChar (str.getD i 0) then
    toIntDigits str len (i + 1) (val * 10 + ((str.getD i 0 : Int) - 48))
  else val
termination_by len - i
decreasing_by
  rename_i hg
  omega

/-- Reduction of the final static_cast to int (32-bit two's complement). -/
def wrap32 (v : Int) : Int :=
  (v + 2 ^ 31) % 2 ^ 32 - 2 ^ 31

/-- cms::string::toInt, the (str, len) overload: skip whitespace, read an
optional sign, accumulate digits, narrow to int. -/
def toIntLen (str : List Nat) (len : Nat) : Int :=
  if len = 0 then 0
  else
    let i := toIntSkip str len 0
    if i = len then 0
    else
      let s : Int × Nat :=
        if str.getD i 0 = 45 then (-1, i + 1)
        else if str.getD i 0 = 43 then (1, i + 1)
        else (1, i)
      wrap32 (toIntDigits str len s.2 0 * s.1)

/-- cms::string::toInt on a nullable C string: null and empty yield 0,
otherwise the length overload runs on strlen. -/
def toInt (str : Option (List Nat)) : Int :=
  match str with
  | none => 0
  | some s => if s.getD 0 0 = 0 then 0 else toIntLen s s.length

/-- cms::string::find, the length-taking overload: returns the logical
character index of the first match at or after logical index startChar,
or -1.  The search runs over the suffix at the byte offset of startChar,
and the byte offset of a hit is converted back by counting
non-continuation bytes. -/
def findLen (str : List Nat) (strLen : Nat) (target : List Nat) (targetLen startChar : Nat)
    (ignoreCase : Bool) : Int :=
  if targetLen = 0 ∨ strLen < targetLen then -1
  else
    let sp := findUtf8CharStart str startChar
    if str.getD sp 0 = 0 then -1
    else
      match (if ignoreCase then strcasestr (str.drop sp) target
             else strstrM (str.drop sp) target) with
      | none => -1
      | some off =>
        (startChar : Int) +
          ((sliceL str sp (sp + off)).filter (fun b => b &&& 0xC0 ≠ 0x80)).length

/-- cms::string::find with nullable pointers: either null yields -1,
otherwise the length overload runs on strlen of each. -/
def find (str target : Option (List Nat)) (startChar : Nat) (ignoreCase : Bool) : Int :=
  match str, target with
  | some s, some t => findLen s s.length t t.length startChar ignoreCase
  | _, _ => -1

/-- Modelled from the spec: StringBase::utilization (the StringBase class
lives in the missing cmsStringBase.h): the current length over the usable
capacity (one byte of the physical capacity N is reserved for the
terminator), as a percentage. -/
def utilization (N len : Nat) : Rat :=
  (len : Rat) / ((N : Rat) - 1) * 100

/-- The scan of libc strchr, an external collaborator, modelled by its
contract: the least offset at or after s holding byte c (replace only
calls it with c nonzero on zero-free content). -/
def strchrLoop (hay : List Nat) (c s : Nat) : Option Nat :=
  if s < hay.length then
    (if hay.getD s 0 = c then some s else strchrLoop hay c (s + 1))
  else none
termination_by hay.length - s
decreasing_by
  rename_i hlt _
  omega

/-- libc strchr on a content list: the least offset holding byte c. -/
def strchrM (hay : List Nat) (c : Nat) : Option Nat :=
  strchrLoop hay c 0

/-- The rewriting loop of cms::string::replace over the buffer array.
The cursor pos is the pointer p as an offset; each search runs over the
C string at p, which under the terminator invariant is the content slice
[pos, len).  A found occurrence at absolute offset q is replaced by first
block-moving the tail (terminator included) when lengths differ, then
copying to in; the loop aborts with the truncated flag when a growing
replacement would exceed capacity.  Fuel: each iteration lowers len - pos,
so curLen + 1 iterations always suffice (replace supplies that much). -/
def replaceLoop (maxLen : Nat) (fromStr toStr : List Nat) (ignoreCase : Bool) :
    Nat → List Nat → Nat → Nat → List Nat × Nat × Bool
  | 0, arr, len, _ => (arr, len, false)
  | Nat.succ fuel, arr, len, pos =>
    let fromLen := fromStr.length
    let toLen := toStr.length
    match (if ignoreCase then strcasestr (sliceL arr pos len) fromStr
           else if fromLen = 1 then strchrM (sliceL arr pos len) (fromStr.getD 0 0)
           else strstrM (sliceL arr pos len) fromStr) with
    | none => (arr, len, false)
    | some off =>
      let q := pos + off
      if fromLen < toLen then
        let diff := toLen - fromLen
        if maxLen ≤ len + diff then (arr, len, true)
        else
          let arr1 := writeAt arr (q + toLen) (sliceL arr (q + fromLen) (len + 1))
          replaceLoop maxLen fromStr toStr ignoreCase fuel (writeAt arr1 q toStr)
            (len + diff) (q + toLen)
      else if toLen < fromLen then
        let arr1 := writeAt arr (q + toLen) (sliceL arr (q + fromLen) (len + 1))
        replaceLoop maxLen fromStr toStr ignoreCase fuel (writeAt arr1 q toStr)
          (len - (fromLen - toLen)) (q + toLen)
      else
        replaceLoop maxLen fromStr toStr ignoreCase fuel (writeAt arr q toStr) len (q + toLen)

/-- cms::string::replace: all occurrences of fromStr become toStr, and the
result is re-sanitized exactly when a growing replacement was cut off by
capacity.  Null pointers excluded; the *from == 0 guard is the
empty-content test. -/
def replace (arr : List Nat) (maxLen curLen : Nat) (fromStr toStr : List Nat)
    (ignoreCase : Bool) : List Nat × Nat :=
  if fromStr.getD 0 0 = 0 then (arr, curLen)
  else
    let r := replaceLoop maxLen fromStr toStr ignoreCase (curLen + 1) arr curLen 0
    if r.2.2 then sanitizeUtf8 r.1 maxLen else (r.1, r.2.1)

/-- Written from the spec text, for the refinement claims: the leftmost
occurrence of pat in hay at offset at least pos, byte-exact or folded per
byte when ignoreCase. -/
def specSearch (ignoreCase : Bool) (hay pat : List Nat) (pos : Nat) : Option Nat :=
  if pos + pat.length ≤ hay.length then
    (if (if ignoreCase then ((hay.drop pos).take pat.length).map toLower = pat.map toLower
         else (hay.drop pos).take pat.length = pat)
     then some pos else specSearch ignoreCase hay pat (pos + 1))
  else none
termination_by hay.length + 1 - pos
decreasing_by
  rename_i hle _
  omega

/-- Written from the spec text, for the refinement claim on replace: the
content-level replacement loop.  It repeatedly takes the leftmost
occurrence of fromStr starting at the previous replacement's end, splices
toStr in its place, and — when toStr is longer and the new length would
reach capacity — stops, keeping the replacements already made and
reporting truncation.  Fuel as in replaceLoop. -/
def replaceSpecLoop (maxLen : Nat) (fromStr toStr : List Nat) (ignoreCase : Bool) :
    Nat → List Nat → Nat → List Nat × Bool
  | 0, content, _ => (content, false)
  | Nat.succ fuel, content, pos =>
    match specSearch ignoreCase content fromStr pos with
    | none => (content, false)
    | some q =>
      if fromStr.length < toStr.length ∧
          maxLen ≤ content.length + (toStr.length - fromStr.length) then (content, true)
      else
        replaceSpecLoop maxLen fromStr toStr ignoreCase fuel
          (content.take q ++ toStr ++ content.drop (q + fromStr.length))
          (q + toStr.length)

/-- Written from the spec text: replace substitutes occurrences left to
right resuming at each replacement's end, keeps completed replacements on
capacity abort, and reports whether it was truncated. -/
def replaceSpec (content : List Nat) (maxLen : Nat) (fromStr toStr : List Nat)
    (ignoreCase : Bool) : List Nat × Bool :=
  if fromStr = [] then (content, false)
  else replaceSpecLoop maxLen fromStr toStr ignoreCase (content.length + 1) content 0

/-- A single valid UTF-8 byte sequence with a nonzero first byte: the nine
accepting shapes of the validateUtf8 grammar table. -/
inductive IsSeq : List Nat → Prop where
  | one {b : Nat} : 1 ≤ b → b ≤ 0x7F → IsSeq [b]
  | two {b0 b1 : Nat} : 0xC2 ≤ b0 → b0 ≤ 0xDF → b1 &&& 0xC0 = 0x80 → IsSeq [b0, b1]
  | threeE0 {b1 b2 : Nat} : 0xA0 ≤ b1 → b1 ≤ 0xBF → b2 &&& 0xC0 = 0x80 →
      IsSeq [0xE0, b1, b2]
  | threeMid {b0 b1 b2 : Nat} : 0xE1 ≤ b0 → b0 ≤ 0xEC → b1 &&& 0xC0 = 0x80 →
      b2 &&& 0xC0 = 0x80 → IsSeq [b0, b1, b2]
  | threeED {b1 b2 : Nat} : 0x80 ≤ b1 → b1 ≤ 0x9F → b2 &&& 0xC0 = 0x80 →
      IsSeq [0xED, b1, b2]
  | threeEE {b0 b1 b2 : Nat} : 0xEE ≤ b0 → b0 ≤ 0xEF → b1 &&& 0xC0 = 0x80 →
      b2 &&& 0xC0 = 0x80 → IsSeq [b0, b1, b2]
  | fourF0 {b1 b2 b3 : Nat} : 0x90 ≤ b1 → b1 ≤ 0xBF → b2 &&& 0xC0 = 0x80 →
      b3 &&& 0xC0 = 0x80 → IsSeq [0xF0, b1, b2, b3]
  | fourMid {b0 b1 b2 b3 : Nat} : 0xF1 ≤ b0 → b0 ≤ 0xF3 → b1 &&& 0xC0 = 0x80 →
      b2 &&& 0xC0 = 0x80 → b3 &&& 0xC0 = 0x80 → IsSeq [b0, b1, b2, b3]
  | fourF4 {b1 b2 b3 : Nat} : 0x80 ≤ b1 → b1 ≤ 0x8F → b2 &&& 0xC0 = 0x80 →
      b3 &&& 0xC0 = 0x80 → IsSeq [0xF4, b1, b2, b3]

/-- A concatenation of valid UTF-8 sequences (the shape of every
sanitizeUtf8 output region and of every valid buffer content). -/
inductive Chunks : List Nat → Prop where
  | nil : Chunks []
  | cons {s t : List Nat} : IsSeq s → Chunks t → Chunks (s ++ t)

/-- Decimal digit characters of n, most significant first (reference
for the digit-writing loops). -/
def decDigits (n : Nat) : List Nat :=
  if n < 10 then [n + 48] else decDigits (n / 10) ++ [n % 10 + 48]
termination_by n
decreasing_by
  exact Nat.div_lt_self (by omega) (by omega)

/-- A case-folded match of the whole pattern at haystack offset t (the
property both search paths of strcasestr decide). -/
def matchAt (hay pat : List Nat) (t : Nat) : Prop :=
  ∀ x, x < pat.length → toLower (hay.getD (t + x) 0) = toLower (pat.getD x 0)

/-- What a leftmost search from offset s returns: the first fold-match
position at or after s, or none when no position matches. -/
def searchSpecP (hay pat : List Nat) (s : Nat) : Option Nat → Prop
  | some r => s ≤ r ∧ matchAt hay pat r ∧ ∀ t, s ≤ t → t < r → ¬ matchAt hay pat t
  | none => ∀ t, s ≤ t → ¬ matchAt hay pat t

/-- A byte-exact match of the whole pattern at haystack offset t (the
property the case-sensitive search paths decide); the bound conjunct is
the reach of the C scan, which stops at the terminator. -/
def matchAtE (hay pat : List Nat) (t : Nat) : Prop :=
  t + pat.length ≤ hay.length ∧ ∀ x, x < pat.length → hay.getD (t + x) 0 = pat.getD x 0

/-- What a leftmost byte-exact search from offset s returns. -/
def searchSpecE (hay pat : List Nat) (s : Nat) : Option Nat → Prop
  | some r => s ≤ r ∧ matchAtE hay pat r ∧ ∀ t, s ≤ t → t < r → ¬ matchAtE hay pat t
  | none => ∀ t, s ≤ t → ¬ matchAtE hay pat t

/-- A proper case-folded border of the pattern prefix of length q: the
first l bytes fold-equal the last l bytes of that prefix. -/
def borderP (pat : List Nat) (q l : Nat) : Prop :=
  l < q ∧ ∀ x, x < l → toLower (pat.getD x 0) = toLower (pat.getD (q - l + x) 0)

/-- L is the longest proper case-folded border of the prefix of length q
(the value computeLPS stores for that prefix). -/
def isLB (pat : List Nat) (q L : Nat) : Prop :=
  borderP pat q L ∧ ∀ l, borderP pat q l → l ≤ L

/- ------------------------------------------------------------------ -/
/- Theorems.                                                           -/
/- ------------------------------------------------------------------ -/

/-- C10: the unsigned-decimal and hex append primitives are each
all-or-nothing: whenever the primitive's own padded digit string does not
fit the remaining capacity, that primitive returns the buffer and the
tracked length unchanged (the two conditions are independent: a decimal
string can overflow while the shorter hex string of the same value
fits). -/
theorem appendNum_all_or_nothing
    (buf : List Nat) (maxLen curLen uval width padChar : Nat) (uppercase : Bool) :
    (maxLen ≤ curLen +
        (if width < digitsCountU uval then digitsCountU uval else width) →
      appendUIntInternal buf maxLen curLen uval width padChar = (buf, curLen)) ∧
    (maxLen ≤ curLen +
        (if width < (if uval = 0 then 1 else hexCountLoop uval)
         then (if uval = 0 then 1 else hexCountLoop uval) else width) →
      appendHexInternal buf maxLen curLen uval width padChar uppercase = (buf, curLen)) := by
  constructor
  · intro hdec
    unfold appendUIntInternal
    simp only [if_pos hdec]
  · intro hhex
    unfold appendHexInternal
    simp only [if_pos hhex]

/-- C10 witness at concrete inputs covering each side on its own:
1000000 needs seven decimal digits against capacity six although its five
hex nibbles would fit, so the decimal append changes nothing; 1234 needs
three hex nibbles against capacity three, so the hex append changes
nothing. -/
theorem appendNum_all_or_nothing_witness :
    (6 ≤ 0 + (if 0 < digitsCountU 1000000 then digitsCountU 1000000 else 0)) ∧
    appendUIntInternal [9, 9, 9, 9, 9, 9] 6 0 1000000 0 32 = ([9, 9, 9, 9, 9, 9], 0) ∧
    (3 ≤ 0 + (if 0 < (if (1234 : Nat) = 0 then 1 else hexCountLoop 1234)
      then (if (1234 : Nat) = 0 then 1 else hexCountLoop 1234) else 0)) ∧
    appendHexInternal [9, 9, 9] 3 0 1234 0 32 true = ([9, 9, 9], 0) := by
  refine ⟨by decide, ?_, ?_, ?_⟩
  · exact (appendNum_all_or_nothing [9, 9, 9, 9, 9, 9] 6 0 1000000 0 32 true).1 (by decide)
  · simp [hexCountLoop, Nat.shiftRight_eq_div_pow]
  · exact (appendNum_all_or_nothing [9, 9, 9] 3 0 1234 0 32 true).2
      (by simp [hexCountLoop, Nat.shiftRight_eq_div_pow])

/-- C3: the code violates the terminator invariant.  appendInt(-5) into a
buffer with one free byte writes the sign byte, advances the length, and
then appendUIntInternal bails out on capacity without re-terminating: the
byte at the new length is the old garbage byte 55, not 0. -/
theorem appendInt_negative_drops_terminator :
    appendInt [65, 0, 55] 3 1 (-5) 0 32 = ([65, 45, 55], 2) ∧
    (appendInt [65, 0, 55] 3 1 (-5) 0 32).1.getD (appendInt [65, 0, 55] 3 1 (-5) 0 32).2 0
      = 55 := by
  constructor <;> decide

/-- C6 counterexample: with capacity 16 the two appends are not truncated
at all — the final length is 13, not the 11 bytes the claim expects. -/
theorem append_scenario_len_not_eleven :
    (append (append (List.replicate 16 0) 16 0 [72, 101, 108, 108, 111] 5).1 16
        (append (List.replicate 16 0) 16 0 [72, 101, 108, 108, 111] 5).2
        [44, 32, 87, 111, 114, 108, 100, 33] 8).2 = 13 ∧ (13 : Nat) ≠ 11 := by
  constructor <;> decide

/-- C6 as amended: append("Hello") then append(", World!") at capacity 16
leaves the full 13-byte content "Hello, World!" (13 + terminator fits the
15 usable bytes, nothing is truncated), and utilization reports
(13/15)*100. -/
theorem append_scenario_full_content :
    append (append (List.replicate 16 0) 16 0 [72, 101, 108, 108, 111] 5).1 16
        (append (List.replicate 16 0) 16 0 [72, 101, 108, 108, 111] 5).2
        [44, 32, 87, 111, 114, 108, 100, 33] 8 =
      ([72, 101, 108, 108, 111, 44, 32, 87, 111, 114, 108, 100, 33, 0, 0, 0], 13) ∧
    utilization 16 13 = 260 / 3 := by
  constructor
  · decide
  · norm_num [utilization]

/-- A nonzero read is a read inside the list. -/
theorem getD_ne_zero_lt {s : List Nat} {p : Nat} (h : s.getD p 0 ≠ 0) : p < s.length := by
  by_contra hcon
  exact h (List.getD_eq_default _ _ (Nat.le_of_not_lt hcon))

/-- fucsSkip runs to the terminator when every remaining byte is a
continuation byte. -/
theorem fucsSkip_all_cont (s : List Nat) (h0 : ∀ b ∈ s, b ≠ 0) :
    ∀ n p, s.length - p ≤ n → p ≤ s.length →
      (∀ b ∈ s.drop p, b &&& 0xC0 = 0x80) → fucsSkip s p = s.length := by
  intro n
  induction n with
  | zero =>
    intro p hn hp _
    have hpe : p = s.length := by omega
    subst hpe
    rw [fucsSkip]
    simp
  | succ n ih =>
    intro p hn hp hc
    by_cases hpe : p = s.length
    · subst hpe
      rw [fucsSkip]
      simp
    · have hplt : p < s.length := by omega
      have hmem : s.getD p 0 ∈ s := by
        rw [List.getD_eq_getElem _ _ hplt]
        exact List.getElem_mem _
      have hcont : s.getD p 0 &&& 0xC0 = 0x80 := by
        apply hc
        rw [List.getD_eq_getElem _ _ hplt]
        have := List.drop_eq_getElem_cons hplt
        rw [this]
        exact List.mem_cons_self _ _
      have hdrop : s.drop p = s.getD p 0 :: s.drop (p + 1) := by
        rw [List.getD_eq_getElem _ _ hplt]
        exact List.drop_eq_getElem_cons hplt
      rw [fucsSkip]
      rw [if_pos ⟨h0 _ hmem, hcont⟩]
      apply ih
      · omega
      · omega
      · intro b hb
        apply hc
        rw [hdrop]
        exact List.mem_cons_of_mem _ hb

/-- When charIdx is at least the number of logical characters, the scan of
findUtf8CharStart runs to the terminator. -/
theorem fucs_out_of_range (s : List Nat) (h0 : ∀ b ∈ s, b ≠ 0) (k : Nat) :
    ∀ n p c, s.length - p ≤ n → p ≤ s.length →
      c + ((s.drop p).filter (fun b => b &&& 0xC0 ≠ 0x80)).length ≤ k →
      fucsSkip s (fucsLoop s p c k) = s.length := by
  intro n
  induction n with
  | zero =>
    intro p c hn hp _
    have hpe : p = s.length := by omega
    subst hpe
    have hg0 : s.getD s.length 0 = 0 := List.getD_eq_default _ _ (le_refl _)
    rw [fucsLoop, if_neg (by simp [hg0]), fucsSkip, if_neg (by simp [hg0])]
  | succ n ih =>
    intro p c hn hp hc
    by_cases hpe : p = s.length
    · subst hpe
      have hg0 : s.getD s.length 0 = 0 := List.getD_eq_default _ _ (le_refl _)
      rw [fucsLoop, if_neg (by simp [hg0]), fucsSkip, if_neg (by simp [hg0])]
    · have hplt : p < s.length := by omega
      have hmem : s.getD p 0 ∈ s := by
        rw [List.getD_eq_getElem _ _ hplt]
        exact List.getElem_mem _
      have hdrop : s.drop p = s.getD p 0 :: s.drop (p + 1) := by
        rw [List.getD_eq_getElem _ _ hplt]
        exact List.drop_eq_getElem_cons hplt
      by_cases hck : c < k
      · rw [fucsLoop, if_pos ⟨h0 _ hmem, hck⟩]
        by_cases hnc : (s.getD p 0) &&& 0xC0 ≠ 0x80
        · rw [if_pos hnc]
          apply ih (p + 1) (c + 1) (by omega) (by omega)
          rw [hdrop] at hc
          rw [List.filter_cons_of_pos (by simpa using hnc)] at hc
          simp only [List.length_cons] at hc
          omega
        · rw [if_neg hnc]
          apply ih (p + 1) c (by omega) (by omega)
          rw [hdrop] at hc
          rw [List.filter_cons_of_neg (by simpa using hnc)] at hc
          omega
      · rw [fucsLoop, if_neg (by tauto)]
        have hz : ((s.drop p).filter (fun b => b &&& 0xC0 ≠ 0x80)).length = 0 := by omega
        apply fucsSkip_all_cont s h0 (s.length - p) p (le_refl _) hp
        intro b hb
        by_contra hbc
        have : b ∈ (s.drop p).filter (fun b => b &&& 0xC0 ≠ 0x80) := by
          rw [List.mem_filter]
          exact ⟨hb, by simpa using hbc⟩
        rw [List.length_eq_zero] at hz
        rw [hz] at this
        exact List.not_mem_nil _ this

/-- C7 counterexample: contains with an empty (non-null) target returns
true, where the claim demands the neutral value false. -/
theorem contains_empty_target_true :
    contains (some [97]) (some ([] : List Nat)) false = true := by
  decide

/-- C7 as amended: null pointers, empty patterns and out-of-range indices
are checked and produce neutral results without any failure path — false
for contains on null arguments, -1 for find on null arguments, an empty
pattern, or a start index at or past the character count, 0 for toInt on
null or empty input — except that contains with an empty (non-null) target
returns true (an empty pattern is vacuously contained), not false. -/
theorem malformed_inputs_neutral :
    (∀ t ic, contains none t ic = false) ∧
    (∀ s ic, contains s none ic = false) ∧
    (∀ s ic, contains (some s) (some []) ic = true) ∧
    (∀ t k ic, find none t k ic = -1) ∧
    (∀ s k ic, find s none k ic = -1) ∧
    (∀ s k ic, find (some s) (some []) k ic = -1) ∧
    (toInt none = 0 ∧ toInt (some []) = 0) ∧
    (∀ s t k ic, (∀ b ∈ s, b ≠ 0) →
      (s.filter (fun b => b &&& 0xC0 ≠ 0x80)).length ≤ k →
      find (some s) (some t) k ic = -1) := by
  refine ⟨?_, ?_, ?_, ?_, ?_, ?_, ⟨rfl, by decide⟩, ?_⟩
  · intro t ic
    cases t <;> rfl
  · intro s ic
    cases s <;> rfl
  · intro s ic
    simp [contains, containsLen]
  · intro t k ic
    cases t <;> rfl
  · intro s k ic
    cases s <;> rfl
  · intro s k ic
    simp [find, findLen]
  · intro s t k ic h0 hk
    simp only [find, findLen]
    by_cases hg : t.length = 0 ∨ s.length < t.length
    · rw [if_pos hg]
    · rw [if_neg hg]
      have hsp : findUtf8CharStart s k = s.length := by
        unfold findUtf8CharStart
        exact fucs_out_of_range s h0 k s.length 0 0 (by omega) (by omega) (by simpa using hk)
      rw [hsp]
      simp

/-- C7 witness: a two-byte character counts as one logical character, so
searching from character index 5 of a one-character string is out of
range and find returns -1. -/
theorem malformed_inputs_neutral_witness :
    (∀ b ∈ [0xC3, 0x80], b ≠ 0) ∧
    (([0xC3, 0x80].filter (fun b => b &&& 0xC0 ≠ 0x80)).length ≤ 5) ∧
    find (some [0xC3, 0x80]) (some [97]) 5 false = -1 :=
  ⟨by decide, by decide,
    malformed_inputs_neutral.2.2.2.2.2.2.2 [0xC3, 0x80] [97] 5 false (by decide) (by decide)⟩

/-- writeAt distributes over list append. -/
theorem writeAt_append : ∀ (a b buf : List Nat) (p : Nat),
    writeAt buf p (a ++ b) = writeAt (writeAt buf p a) (p + a.length) b := by
  intro a
  induction a with
  | nil => intro b buf p; simp [writeAt]
  | cons x xs ih =>
    intro b buf p
    show writeAt (buf.set p x) (p + 1) (xs ++ b) = _
    rw [ih]
    simp [writeAt]
    ring_nf

/-- A store outside the written range commutes with writeAt. -/
theorem writeAt_set_comm : ∀ (data buf : List Nat) (p j x : Nat),
    (j < p ∨ p + data.length ≤ j) →
    writeAt (buf.set j x) p data = (writeAt buf p data).set j x := by
  intro data
  induction data with
  | nil => intro buf p j x _; rfl
  | cons b bs ih =>
    intro buf p j x hj
    show writeAt ((buf.set j x).set p b) (p + 1) bs = _
    rw [List.set_comm _ _ _ (by simp at hj; omega)]
    rw [ih _ (p + 1) j x (by simp at hj ⊢; omega)]
    rfl

/-- writeAt preserves the length. -/
theorem writeAt_length : ∀ (data buf : List Nat) (p : Nat),
    (writeAt buf p data).length = buf.length := by
  intro data
  induction data with
  | nil => intro buf p; rfl
  | cons b bs ih =>
    intro buf p
    show (writeAt (buf.set p b) (p + 1) bs).length = buf.length
    rw [ih]
    exact List.length_set buf p b

/-- The stopped form of the pair loop. -/
theorem uintPairLoop_stop (buf : List Nat) (W v : Nat) (h : v < 100) :
    uintPairLoop buf W v = (buf, W, v) := by
  rw [uintPairLoop, if_neg (by omega)]

/-- One unfolding of the pair loop. -/
theorem uintPairLoop_step (buf : List Nat) (W v : Nat) (h : 100 ≤ v) :
    uintPairLoop buf W v =
      uintPairLoop ((buf.set (W - 1) (digitsTable.getD ((v % 100) * 2 + 1) 0)).set (W - 2)
        (digitsTable.getD ((v % 100) * 2) 0)) (W - 2) (v / 100) := by
  conv =>
    lhs
    rw [uintPairLoop]
  rw [if_pos h]

/-- The two-character table holds the two decimal digits of each value
below one hundred. -/
theorem digitsTable_spec : ∀ v : Nat, v < 100 → digitsTable.getD (v * 2) 0 = v / 10 + 48 ∧
    digitsTable.getD (v * 2 + 1) 0 = v % 10 + 48 := by decide

/-- Base form of decDigits. -/
theorem decDigits_lt10 {n : Nat} (h : n < 10) : decDigits n = [n + 48] := by
  rw [decDigits, if_pos h]

/-- Step form of decDigits. -/
theorem decDigits_ge10 {n : Nat} (h : 10 ≤ n) :
    decDigits n = decDigits (n / 10) ++ [n % 10 + 48] := by
  rw [decDigits, if_neg (by omega)]

/-- Two-step form of decDigits, matching one pair-loop iteration. -/
theorem decDigits_ge100 {n : Nat} (h : 100 ≤ n) :
    decDigits n = decDigits (n / 100) ++ [(n % 100) / 10 + 48, (n % 100) % 10 + 48] := by
  rw [decDigits_ge10 (by omega), decDigits_ge10 (by omega : 10 ≤ n / 10)]
  have h1 : n / 10 / 10 = n / 100 := by omega
  have h2 : n / 10 % 10 = (n % 100) / 10 := by omega
  have h3 : n % 10 = (n % 100) % 10 := by omega
  rw [h1, h2, h3]
  simp

/-- decDigits is never empty. -/
theorem decDigits_pos (n : Nat) : 1 ≤ (decDigits n).length := by
  by_cases h : n < 10
  · rw [decDigits_lt10 h]; simp
  · rw [decDigits_ge10 (by omega)]; simp

/-- The pair loop followed by the final one-or-two-digit write lays down
exactly the decimal digits of v, right-aligned at W. -/
theorem uintCore : ∀ (N v : Nat), v ≤ N → ∀ (buf : List Nat) (W : Nat),
    (decDigits v).length ≤ W →
    (if 10 ≤ (uintPairLoop buf W v).2.2 then
        (((uintPairLoop buf W v).1.set ((uintPairLoop buf W v).2.1 - 1)
            (digitsTable.getD ((uintPairLoop buf W v).2.2 * 2 + 1) 0)).set
          ((uintPairLoop buf W v).2.1 - 2)
            (digitsTable.getD ((uintPairLoop buf W v).2.2 * 2) 0),
          (uintPairLoop buf W v).2.1 - 2)
      else ((uintPairLoop buf W v).1.set ((uintPairLoop buf W v).2.1 - 1)
          ((uintPairLoop buf W v).2.2 + 48), (uintPairLoop buf W v).2.1 - 1)) =
    (writeAt buf (W - (decDigits v).length) (decDigits v), W - (decDigits v).length) := by
  intro N
  induction N with
  | zero =>
    intro v hv buf W hW
    have hv0 : v = 0 := by omega
    subst hv0
    rw [uintPairLoop_stop _ _ _ (by omega)]
    simp only [decDigits_lt10 (by omega : (0:Nat) < 10)] at hW ⊢
    rw [if_neg (by omega)]
    simp [writeAt]
  | succ N ih =>
    intro v hv buf W hW
    by_cases h10 : v < 10
    · rw [uintPairLoop_stop _ _ _ (by omega)]
      simp only [decDigits_lt10 h10] at hW ⊢
      rw [if_neg (by omega)]
      simp [writeAt]
    · by_cases h100 : v < 100
      · rw [uintPairLoop_stop _ _ _ h100]
        have hd : decDigits v = [v / 10 + 48, v % 10 + 48] := by
          rw [decDigits_ge10 (by omega), decDigits_lt10 (by omega : v / 10 < 10)]
          rfl
        simp only [hd, List.length_cons, List.length_nil] at hW ⊢
        rw [if_pos (by omega)]
        have ht := digitsTable_spec v h100
        show _ = (writeAt (buf.set (W - (0+1+1)) (v / 10 + 48)) (W - (0+1+1) + 1)
          [v % 10 + 48], W - (0+1+1))
        have hW1 : W - (0+1+1) + 1 = W - 1 := by omega
        have hW2 : W - (0+1+1) = W - 2 := by omega

        rw [hW1, hW2]
        show _ = ((buf.set (W - 2) (v / 10 + 48)).set (W - 1) (v % 10 + 48), W - 2)
        rw [ht.1, ht.2]
        simp only [Prod.mk.injEq]
        refine ⟨List.set_comm _ _ _ (by omega), trivial⟩
      · have hstep := uintPairLoop_step buf W v (by omega)
        rw [hstep]
        have hd := decDigits_ge100 (by omega : 100 ≤ v)
        have hlen : (decDigits v).length = (decDigits (v / 100)).length + 2 := by
          rw [hd]; simp
        have hlb : (decDigits (v / 100)).length + 2 ≤ W := by omega
        have hrec := ih (v / 100) (by omega)
          ((buf.set (W - 1) (digitsTable.getD ((v % 100) * 2 + 1) 0)).set (W - 2)
            (digitsTable.getD ((v % 100) * 2) 0)) (W - 2) (by omega)
        rw [hrec]
        have ht := digitsTable_spec (v % 100) (by omega)
        rw [hlen]
        have hX : W - 2 - (decDigits (v / 100)).length =
            W - ((decDigits (v / 100)).length + 2) := by omega
        rw [hX]
        simp only [Prod.mk.injEq]
        refine ⟨?_, trivial⟩
        rw [writeAt_set_comm _ _ _ _ _ (by omega)]
        rw [writeAt_set_comm _ _ _ _ _ (by omega)]
        conv =>
          rhs
          rw [hd, writeAt_append]
        have hP2 : W - ((decDigits (v / 100)).length + 2) + (decDigits (v / 100)).length =
            W - 2 := by omega
        rw [hP2]
        show _ = ((writeAt buf (W - ((decDigits (v / 100)).length + 2))
            (decDigits (v / 100))).set (W - 2) ((v % 100) / 10 + 48)).set (W - 2 + 1)
            ((v % 100) % 10 + 48)
        have hW1 : W - 2 + 1 = W - 1 := by omega
        rw [hW1, ht.1, ht.2]
        rw [List.set_comm _ _ _ (by omega)]

/-- Digit-string length of values in a decade. -/
theorem dlen_pow : ∀ (k n : Nat), 10 ^ k ≤ n → n < 10 ^ (k + 1) →
    (decDigits n).length = k + 1 := by
  intro k
  induction k with
  | zero =>
    intro n _ h2
    rw [decDigits_lt10 (by norm_num at h2 ⊢; omega)]
    rfl
  | succ k ih =>
    intro n h1 h2
    have h10 : 10 ≤ n := by
      calc (10 : Nat) = 10 ^ 1 := by norm_num
        _ ≤ 10 ^ (k + 1) := Nat.pow_le_pow_right (by norm_num) (by omega)
        _ ≤ n := h1
    rw [decDigits_ge10 h10]
    have ha : 10 ^ k ≤ n / 10 := by
      rw [Nat.le_div_iff_mul_le (by norm_num)]
      rw [← pow_succ]
      exact h1
    have hb : n / 10 < 10 ^ (k + 1) := by
      rw [Nat.div_lt_iff_lt_mul (by norm_num)]
      rw [← pow_succ]
      exact h2
    rw [List.length_append, ih (n / 10) ha hb]
    rfl

/-- The branch-table digit count agrees with the digit-string length for
every value an unsigned long can hold. -/
theorem digitsCountU_len (n : Nat) (hn : n < 10 ^ 10) :
    digitsCountU n = (decDigits n).length := by
  unfold digitsCountU
  split_ifs with h1 h2 h3 h4 h5 h6 h7 h8 h9
  · rw [decDigits_lt10 h1]
    rfl
  · have := dlen_pow 1 n (by norm_num; omega) (by norm_num; omega)
    omega
  · have := dlen_pow 2 n (by norm_num; omega) (by norm_num; omega)
    omega
  · have := dlen_pow 3 n (by norm_num; omega) (by norm_num; omega)
    omega
  · have := dlen_pow 4 n (by norm_num; omega) (by norm_num; omega)
    omega
  · have := dlen_pow 5 n (by norm_num; omega) (by norm_num; omega)
    omega
  · have := dlen_pow 6 n (by norm_num; omega) (by norm_num; omega)
    omega
  · have := dlen_pow 7 n (by norm_num; omega) (by norm_num; omega)
    omega
  · have := dlen_pow 8 n (by norm_num; omega) (by norm_num; omega)
    omega
  · have := dlen_pow 9 n (by norm_num; omega) (by norm_num at hn ⊢; omega)
    omega

/-- appendUIntInternal with no minimum width writes exactly the decimal
digits followed by the terminator, when they fit. -/
theorem appendUIntInternal_exact (buf : List Nat) (maxLen curLen v padChar : Nat)
    (hv : v < 10 ^ 10) (hfit : curLen + (decDigits v).length < maxLen) :
    appendUIntInternal buf maxLen curLen v 0 padChar =
      (writeAt buf curLen (decDigits v ++ [0]), curLen + (decDigits v).length) := by
  have hdc := digitsCountU_len v hv
  have hdp := decDigits_pos v
  unfold appendUIntInternal
  rw [hdc]
  simp only []
  rw [if_pos (show 0 < (decDigits v).length from hdp)]
  rw [if_neg (show ¬ maxLen ≤ curLen + (decDigits v).length by omega)]
  rw [uintCore v v le_rfl (buf.set (curLen + (decDigits v).length) 0)
    (curLen + (decDigits v).length) (by omega)]
  have hc : curLen + (decDigits v).length - (decDigits v).length = curLen := by omega
  rw [hc]
  rw [padLoop, if_neg (by omega)]
  rw [writeAt_set_comm _ _ _ _ _ (by omega)]
  rw [writeAt_append]
  rfl

/-- C9: for every negative long (down to the minimum), appendInt writes
the sign byte and then the exact decimal digits of the magnitude; the
magnitude (-(val+1))+1 is computed inside the long range, with no signed
overflow. -/
theorem appendInt_negative_exact (buf : List Nat) (maxLen curLen : Nat) (val : Int)
    (padChar : Nat) (hlo : -(2 ^ 31) ≤ val) (hneg : val < 0)
    (hfit : curLen + 1 + (decDigits val.natAbs).length < maxLen) :
    -(val + 1) < 2 ^ 31 ∧
    appendInt buf maxLen curLen val 0 padChar =
      (writeAt buf curLen (45 :: (decDigits val.natAbs ++ [0])),
        curLen + 1 + (decDigits val.natAbs).length) := by
  have hdp := decDigits_pos val.natAbs
  constructor
  · omega
  unfold appendInt
  rw [if_neg (by omega), if_pos hneg]
  have huval : ((-(val + 1)).toNat % 2 ^ 32 + 1) % 2 ^ 32 = val.natAbs := by
    have h1 : (-(val + 1)).toNat = val.natAbs - 1 := by omega
    have h2 : val.natAbs ≤ 2 ^ 31 := by omega
    have h3 : 1 ≤ val.natAbs := by omega
    rw [h1]
    rw [Nat.mod_eq_of_lt (by omega)]
    rw [Nat.mod_eq_of_lt (by omega)]
    omega
  show appendUIntInternal (buf.set curLen 45) maxLen (curLen + 1)
    (((-(val + 1)).toNat % 2 ^ 32 + 1) % 2 ^ 32) (if 0 < 0 then 0 - 1 else 0) padChar = _
  rw [huval, if_neg (Nat.lt_irrefl 0)]
  have hna : val.natAbs < 10 ^ 10 := by
    have : val.natAbs ≤ 2 ^ 31 := by omega
    norm_num at this ⊢
    omega
  rw [appendUIntInternal_exact _ _ _ _ _ hna (by omega)]
  show (writeAt (buf.set curLen 45) (curLen + 1) (decDigits val.natAbs ++ [0]),
    curLen + 1 + (decDigits val.natAbs).length) = _
  rfl

/-- C9 witness: appendInt(-5) at curLen 1 of a 5-byte buffer. -/
theorem appendInt_negative_exact_witness :
    (-(2 ^ 31) ≤ (-5 : Int)) ∧ ((-5 : Int) < 0) ∧
    (1 + 1 + (decDigits (Int.natAbs (-5))).length < 5) ∧
    appendInt [65, 0, 9, 9, 9] 5 1 (-5) 0 32 =
      (writeAt [65, 0, 9, 9, 9] 1 (45 :: (decDigits (Int.natAbs (-5)) ++ [0])),
        1 + 1 + (decDigits (Int.natAbs (-5))).length) := by
  have h5 : Int.natAbs (-5) = 5 := by decide
  have hd : decDigits 5 = [53] := by rw [decDigits_lt10 (by norm_num)]
  refine ⟨by norm_num, by norm_num, ?_, ?_⟩
  · rw [h5, hd]
    norm_num
  · exact (appendInt_negative_exact [65, 0, 9, 9, 9] 5 1 (-5) 32 (by norm_num)
      (by norm_num) (by rw [h5, hd]; norm_num)).2

/-- Bytes in the continuation range have the 10 top-bit pattern. -/
theorem cont_of_range {b : Nat} (h1 : 0x80 ≤ b) (h2 : b ≤ 0xBF) : b &&& 0xC0 = 0x80 := by
  interval_cases b <;> rfl

/-- A continuation byte is nonzero. -/
theorem cont_ne_zero {b : Nat} (h : b &&& 0xC0 = 0x80) : b ≠ 0 := by
  intro hb
  subst hb
  simp at h

/-- A continuation byte is not in a lead range: its classification fails. -/
theorem cont_not_lead {b : Nat} (h : b &&& 0xC0 = 0x80) :
    ¬ (0xC2 ≤ b ∧ b ≤ 0xF4) := by
  rintro ⟨h1, h2⟩
  have hall : ∀ v : Nat, v < 256 → 0xC2 ≤ v → v ≤ 0xF4 → ¬ (v &&& 0xC0 = 0x80) := by
    set_option maxRecDepth 4096 in decide
  exact hall b (by omega) h1 h2 h

/-- Valid sequences have one to four bytes. -/
theorem isSeq_length {s : List Nat} (hs : IsSeq s) : 1 ≤ s.length ∧ s.length ≤ 4 := by
  cases hs <;> simp

/-- Every byte of a valid sequence is nonzero. -/
theorem isSeq_ne_zero {s : List Nat} (hs : IsSeq s) : ∀ b ∈ s, b ≠ 0 := by
  cases hs with
  | one h1 h2 =>
    intro b hb
    simp at hb
    omega
  | two h1 h2 h3 =>
    intro b hb
    simp at hb
    rcases hb with h | h <;> subst h
    · omega
    · exact cont_ne_zero h3
  | threeE0 h1 h2 h3 =>
    intro b hb
    simp at hb
    rcases hb with h | h | h <;> subst h
    · omega
    · omega
    · exact cont_ne_zero h3
  | threeMid h1 h2 h3 h4 =>
    intro b hb
    simp at hb
    rcases hb with h | h | h <;> subst h
    · omega
    · exact cont_ne_zero h3
    · exact cont_ne_zero h4
  | threeED h1 h2 h3 =>
    intro b hb
    simp at hb
    rcases hb with h | h | h <;> subst h
    · omega
    · omega
    · exact cont_ne_zero h3
  | threeEE h1 h2 h3 h4 =>
    intro b hb
    simp at hb
    rcases hb with h | h | h <;> subst h
    · omega
    · exact cont_ne_zero h3
    · exact cont_ne_zero h4
  | fourF0 h1 h2 h3 h4 =>
    intro b hb
    simp at hb
    rcases hb with h | h | h | h <;> subst h
    · omega
    · omega
    · exact cont_ne_zero h3
    · exact cont_ne_zero h4
  | fourMid h1 h2 h3 h4 h5 =>
    intro b hb
    simp at hb
    rcases hb with h | h | h | h <;> subst h
    · omega
    · exact cont_ne_zero h3
    · exact cont_ne_zero h4
    · exact cont_ne_zero h5
  | fourF4 h1 h2 h3 h4 =>
    intro b hb
    simp at hb
    rcases hb with h | h | h | h <;> subst h
    · omega
    · omega
    · exact cont_ne_zero h3
    · exact cont_ne_zero h4

/-- Every byte of a valid sequence after the first is a continuation
byte. -/
theorem isSeq_tail_cont {s : List Nat} (hs : IsSeq s) :
    ∀ j, 1 ≤ j → j < s.length → s.getD j 0 &&& 0xC0 = 0x80 := by
  cases hs with
  | one h1 h2 =>
    intro j hj1 hj2
    simp at hj2
    omega
  | two h1 h2 h3 =>
    intro j hj1 hj2
    simp at hj2
    have : j = 1 := by omega
    subst this
    simp only [List.getD_cons_succ, List.getD_cons_zero]
    exact h3
  | threeE0 h1 h2 h3 =>
    intro j hj1 hj2
    simp at hj2
    rcases (by omega : j = 1 ∨ j = 2) with h | h <;> subst h <;> simp only [List.getD_cons_succ, List.getD_cons_zero]
    · exact cont_of_range (by omega) h2
    · exact h3
  | threeMid h1 h2 h3 h4 =>
    intro j hj1 hj2
    simp at hj2
    rcases (by omega : j = 1 ∨ j = 2) with h | h <;> subst h <;> simp only [List.getD_cons_succ, List.getD_cons_zero]
    · exact h3
    · exact h4
  | threeED h1 h2 h3 =>
    intro j hj1 hj2
    simp at hj2
    rcases (by omega : j = 1 ∨ j = 2) with h | h <;> subst h <;> simp only [List.getD_cons_succ, List.getD_cons_zero]
    · exact cont_of_range h1 (by omega)
    · exact h3
  | threeEE h1 h2 h3 h4 =>
    intro j hj1 hj2
    simp at hj2
    rcases (by omega : j = 1 ∨ j = 2) with h | h <;> subst h <;> simp only [List.getD_cons_succ, List.getD_cons_zero]
    · exact h3
    · exact h4
  | fourF0 h1 h2 h3 h4 =>
    intro j hj1 hj2
    simp at hj2
    rcases (by omega : j = 1 ∨ j = 2 ∨ j = 3) with h | h | h <;> subst h <;> simp only [List.getD_cons_succ, List.getD_cons_zero]
    · exact cont_of_range (by omega) h2
    · exact h3
    · exact h4
  | fourMid h1 h2 h3 h4 h5 =>
    intro j hj1 hj2
    simp at hj2
    rcases (by omega : j = 1 ∨ j = 2 ∨ j = 3) with h | h | h <;> subst h <;> simp only [List.getD_cons_succ, List.getD_cons_zero]
    · exact h3
    · exact h4
    · exact h5
  | fourF4 h1 h2 h3 h4 =>
    intro j hj1 hj2
    simp at hj2
    rcases (by omega : j = 1 ∨ j = 2 ∨ j = 3) with h | h | h <;> subst h <;> simp only [List.getD_cons_succ, List.getD_cons_zero]
    · exact cont_of_range h1 (by omega)
    · exact h3
    · exact h4

/-- Every byte of a chunk run is nonzero. -/
theorem chunks_ne_zero {c : List Nat} (hc : Chunks c) : ∀ b ∈ c, b ≠ 0 := by
  induction hc with
  | nil => simp
  | cons hs _ ih =>
    intro b hb
    rcases List.mem_append.mp hb with h | h
    · exact isSeq_ne_zero hs b h
    · exact ih b h

/-- Chunk runs are closed under concatenation. -/
theorem chunks_append {a b : List Nat} (ha : Chunks a) (hb : Chunks b) :
    Chunks (a ++ b) := by
  induction ha with
  | nil => simpa using hb
  | cons hs _ ih =>
    rw [List.append_assoc]
    exact Chunks.cons hs ih

/-- A single valid sequence is a chunk run. -/
theorem chunks_single {s : List Nat} (hs : IsSeq s) : Chunks s := by
  have := Chunks.cons hs Chunks.nil
  simpa using this

/-- The validate classifier accepts the head of a valid sequence with its
own bytes, whatever the lookahead beyond the sequence holds. -/
theorem isSeq_utf8SeqLen {s : List Nat} (hs : IsSeq s) (x1 x2 x3 : Nat) :
    utf8SeqLen (s.getD 0 0) (s.getD 1 x1) (s.getD 2 x2) (s.getD 3 x3) = some s.length := by
  cases hs with
  | @one b h1 h2 =>
    show utf8SeqLen b x1 x2 x3 = some 1
    rw [utf8SeqLen, if_pos h2]
  | @two b0 b1 h1 h2 h3 =>
    show utf8SeqLen b0 b1 x2 x3 = some 2
    rw [utf8SeqLen]
    repeat rw [if_neg (by omega)]
    rw [if_pos ⟨h1, h2⟩, if_pos h3]
  | @threeE0 b1 b2 h1 h2 h3 =>
    show utf8SeqLen 0xE0 b1 b2 x3 = some 3
    rw [utf8SeqLen]
    repeat rw [if_neg (by omega)]
    rw [if_pos rfl, if_pos ⟨h1, h2, h3⟩]
  | @threeMid b0 b1 b2 h1 h2 h3 h4 =>
    show utf8SeqLen b0 b1 b2 x3 = some 3
    rw [utf8SeqLen]
    repeat rw [if_neg (by omega)]
    rw [if_pos ⟨h1, h2⟩, if_pos ⟨h3, h4⟩]
  | @threeED b1 b2 h1 h2 h3 =>
    show utf8SeqLen 0xED b1 b2 x3 = some 3
    rw [utf8SeqLen]
    repeat rw [if_neg (by omega)]
    rw [if_pos rfl, if_pos ⟨h1, h2, h3⟩]
  | @threeEE b0 b1 b2 h1 h2 h3 h4 =>
    show utf8SeqLen b0 b1 b2 x3 = some 3
    rw [utf8SeqLen]
    repeat rw [if_neg (by omega)]
    rw [if_pos ⟨h1, h2⟩, if_pos ⟨h3, h4⟩]
  | @fourF0 b1 b2 b3 h1 h2 h3 h4 =>
    show utf8SeqLen 0xF0 b1 b2 b3 = some 4
    rw [utf8SeqLen]
    repeat rw [if_neg (by omega)]
    rw [if_pos rfl,
      if_pos ⟨h1, h2, h3, h4⟩]
  | @fourMid b0 b1 b2 b3 h1 h2 h3 h4 h5 =>
    show utf8SeqLen b0 b1 b2 b3 = some 4
    rw [utf8SeqLen]
    repeat rw [if_neg (by omega)]
    rw [if_pos ⟨h1, h2⟩, if_pos ⟨h3, h4, h5⟩]
  | @fourF4 b1 b2 b3 h1 h2 h3 h4 =>
    show utf8SeqLen 0xF4 b1 b2 b3 = some 4
    rw [utf8SeqLen]
    repeat rw [if_neg (by omega)]
    rw [if_pos rfl, if_pos ⟨h1, h2, h3, h4⟩]

/-- Over a region holding a chunk run followed by a terminator, the
validateUtf8 scan accepts. -/
theorem validateLoop_chunks : ∀ {c : List Nat}, Chunks c → ∀ (buf : List Nat) (i : Nat),
    (∀ j, j < c.length → buf.getD (i + j) 0 = c.getD j 0) →
    buf.getD (i + c.length) 0 = 0 → validateLoop buf i = true := by
  intro c hc
  induction hc with
  | nil =>
    intro buf i _ hz
    rw [validateLoop, dif_pos (by simpa using hz)]
  | @cons s t hs ht ih =>
    intro buf i hpt hz
    have hsl := isSeq_length hs
    have hcl : (s ++ t).length = s.length + t.length := List.length_append s t
    have g0 : buf.getD i 0 = s.getD 0 0 := by
      have h1 := hpt 0 (by omega)
      rw [show i + 0 = i from rfl] at h1
      rw [h1, List.getD_append _ _ _ _ (by omega)]
    have gj : ∀ j, 1 ≤ j → j ≤ 3 →
        buf.getD (i + j) 0 = s.getD j (buf.getD (i + j) 0) := by
      intro j _ _
      by_cases hjs : j < s.length
      · have h1 := hpt j (by omega)
        rw [h1, List.getD_append _ _ _ _ hjs]
        rw [List.getD_eq_getElem _ _ hjs, List.getD_eq_getElem _ _ hjs]
      · rw [List.getD_eq_default _ _ (Nat.le_of_not_lt hjs)]
    have hne : buf.getD i 0 ≠ 0 := by
      rw [g0]
      have hmem : s.getD 0 0 ∈ s := by
        rw [List.getD_eq_getElem _ _ (by omega)]
        exact List.getElem_mem _
      exact isSeq_ne_zero hs _ hmem
    have hcls : utf8SeqLen (buf.getD i 0) (buf.getD (i+1) 0) (buf.getD (i+2) 0)
        (buf.getD (i+3) 0) = some s.length := by
      rw [gj 1 (by omega) (by omega), gj 2 (by omega) (by omega), gj 3 (by omega) (by omega), g0]
      exact isSeq_utf8SeqLen hs _ _ _
    obtain ⟨k, hk⟩ : ∃ k, s.length = k + 1 := ⟨s.length - 1, by omega⟩
    rw [validateLoop, dif_neg hne, hcls, hk]
    show validateLoop buf (i + (k + 1)) = true
    rw [← hk]
    apply ih buf (i + s.length)
    · intro j hj
      have h1 := hpt (s.length + j) (by omega)
      rw [List.getD_append_right _ _ _ _ (by omega)] at h1
      rw [show s.length + j - s.length = j by omega] at h1
      rw [← h1]
      congr 1
      omega
    · rw [show i + s.length + t.length = i + (s ++ t).length by rw [hcl]; omega]
      exact hz

/-- A store at or past the taken prefix leaves the prefix unchanged. -/
theorem take_set_of_le (a : Nat) (l : List Nat) {n i : Nat} (h : n ≤ i) :
    (l.set i a).take n = l.take n := by
  apply List.ext_getElem
  · simp
  · intro j hj1 hj2
    rw [List.length_take] at hj2
    have hjn : j < n := lt_of_lt_of_le hj2 (min_le_left _ _)
    simp only [List.getElem_take]
    exact List.getElem_set_ne (by omega) _

/-- writeAt with the target range in bounds is a list splice. -/
theorem writeAt_eq : ∀ (data buf : List Nat) (p : Nat), p + data.length ≤ buf.length →
    writeAt buf p data = buf.take p ++ data ++ buf.drop (p + data.length) := by
  intro data
  induction data with
  | nil =>
    intro buf p _
    show buf = _
    rw [List.append_nil]
    exact (List.take_append_drop p buf).symm
  | cons b bs ih =>
    intro buf p hb
    simp only [List.length_cons] at hb
    have hp : p < buf.length := by omega
    show writeAt (buf.set p b) (p + 1) bs = _
    rw [ih (buf.set p b) (p + 1) (by simp only [List.length_set]; omega)]
    rw [List.drop_set_of_lt b buf (by omega : p < p + 1 + bs.length)]
    have htake : (buf.set p b).take (p + 1) = buf.take p ++ [b] := by
      rw [List.set_eq_take_cons_drop b hp]
      rw [List.take_append_eq_append_take]
      rw [List.take_of_length_le (by rw [List.length_take]; omega)]
      congr 1
      rw [show p + 1 - (buf.take p).length = 1 by rw [List.length_take]; omega]
      rfl
    rw [htake]
    simp only [List.append_assoc, List.singleton_append, List.length_cons]
    congr 2
    rw [show p + 1 + bs.length = p + (bs.length + 1) by omega]

/-- A chunk run splits into chunk runs at any offset that is the end or a
non-continuation byte. -/
theorem chunks_split : ∀ {c : List Nat}, Chunks c → ∀ p, p ≤ c.length →
    (p = c.length ∨ (c.getD p 0) &&& 0xC0 ≠ 0x80) →
    Chunks (c.take p) ∧ Chunks (c.drop p) := by
  intro c hc
  induction hc with
  | nil =>
    intro p hp _
    simp at hp
    subst hp
    exact ⟨Chunks.nil, Chunks.nil⟩
  | @cons s t hs ht ih =>
    intro p hp hb
    have hsl := isSeq_length hs
    by_cases hp0 : p = 0
    · subst hp0
      exact ⟨Chunks.nil, Chunks.cons hs ht⟩
    · by_cases hps : p < s.length
      · exfalso
        have hcont : (s ++ t).getD p 0 &&& 0xC0 = 0x80 := by
          rw [List.getD_append _ _ _ _ hps]
          exact isSeq_tail_cont hs p (by omega) hps
        rcases hb with h | h
        · rw [List.length_append] at h
          omega
        · exact h hcont
      · have hps2 : s.length ≤ p := by omega
        have hrec := ih (p - s.length) (by rw [List.length_append] at hp; omega)
          (by
            rcases hb with h | h
            · left
              rw [List.length_append] at h
              omega
            · right
              rw [List.getD_append_right _ _ _ _ hps2] at h
              exact h)
        constructor
        · rw [List.take_append_eq_append_take]
          rw [List.take_of_length_le (by omega)]
          exact chunks_append (chunks_single hs) hrec.1
        · rw [List.drop_append_eq_append_drop]
          rw [List.drop_of_length_le (by omega)]
          simpa using hrec.2

/-- Setting the element right after a prefix. -/
theorem set_append_len : ∀ (A B : List Nat) (v : Nat),
    (A ++ B).set A.length v = A ++ B.set 0 v := by
  intro A
  induction A with
  | nil => intro B v; rfl
  | cons a A ih =>
    intro B v
    show (a :: (A ++ B)).set (A.length + 1) v = _
    rw [List.set_cons_succ, ih]
    rfl

/-- getD inside a taken prefix. -/
theorem getD_take {l : List Nat} {n j : Nat} (h : j < n) :
    (l.take n).getD j 0 = l.getD j 0 := by
  by_cases hj : j < l.length
  · rw [List.getD_eq_getElem _ _ (by rw [List.length_take]; omega),
      List.getD_eq_getElem _ _ hj]
    simp [List.getElem_take]
  · rw [List.getD_eq_default _ _ (by rw [List.length_take]; omega),
      List.getD_eq_default _ _ (by omega)]

/-- A chunk run followed by a terminator byte validates. -/
theorem validate_concat {cp tail : List Nat} (hc : Chunks cp) :
    validateUtf8 (cp ++ 0 :: tail) = true := by
  apply validateLoop_chunks hc _ 0
  · intro j hj
    show (cp ++ 0 :: tail).getD (0 + j) 0 = _
    rw [Nat.zero_add]
    exact List.getD_append _ _ _ _ hj
  · show (cp ++ 0 :: tail).getD (0 + cp.length) 0 = 0
    rw [Nat.zero_add]
    rw [List.getD_append_right _ _ _ _ (le_refl _)]
    simp

/-- The scan loop of findUtf8CharStart stays inside the terminated
content. -/
theorem fucsLoop_bound (buf : List Nat) (n : Nat) (hterm : buf.getD n 0 = 0) (k : Nat) :
    ∀ m p c, n - p ≤ m → p ≤ n → fucsLoop buf p c k ≤ n := by
  intro m
  induction m with
  | zero =>
    intro p c hm hp
    have hpe : p = n := by omega
    subst hpe
    rw [fucsLoop, if_neg (fun h => h.1 hterm)]
  | succ m ih =>
    intro p c hm hp
    by_cases hpe : p = n
    · subst hpe
      rw [fucsLoop, if_neg (fun h => h.1 hterm)]
    · rw [fucsLoop]
      by_cases hg : buf.getD p 0 ≠ 0 ∧ c < k
      · rw [if_pos hg]
        by_cases hnc : (buf.getD p 0) &&& 0xC0 ≠ 0x80
        · rw [if_pos hnc]
          exact ih (p + 1) (c + 1) (by omega) (by omega)
        · rw [if_neg hnc]
          exact ih (p + 1) c (by omega) (by omega)
      · rw [if_neg hg]
        omega

/-- The continuation-skip loop stops at the content end or at a
non-continuation byte. -/
theorem fucsSkip_bound (buf : List Nat) (n : Nat) (hterm : buf.getD n 0 = 0)
    (hnz : ∀ j, j < n → buf.getD j 0 ≠ 0) :
    ∀ m p, n - p ≤ m → p ≤ n → fucsSkip buf p ≤ n ∧
      (fucsSkip buf p = n ∨ (buf.getD (fucsSkip buf p) 0) &&& 0xC0 ≠ 0x80) := by
  intro m
  induction m with
  | zero =>
    intro p hm hp
    have hpe : p = n := by omega
    subst hpe
    rw [fucsSkip, if_neg (fun h => h.1 hterm)]
    exact ⟨le_refl _, Or.inl rfl⟩
  | succ m ih =>
    intro p hm hp
    by_cases hpe : p = n
    · subst hpe
      rw [fucsSkip, if_neg (fun h => h.1 hterm)]
      exact ⟨le_refl _, Or.inl rfl⟩
    · rw [fucsSkip]
      by_cases hg : buf.getD p 0 ≠ 0 ∧ (buf.getD p 0) &&& 0xC0 = 0x80
      · rw [if_pos hg]
        exact ih (p + 1) (by omega) (by omega)
      · rw [if_neg hg]
        refine ⟨hp, Or.inr ?_⟩
        have := hnz p (by omega)
        tauto

/-- findUtf8CharStart lands at the content end or at a character
boundary. -/
theorem fucs_boundary (buf : List Nat) (n : Nat) (hterm : buf.getD n 0 = 0)
    (hnz : ∀ j, j < n → buf.getD j 0 ≠ 0) (k : Nat) :
    findUtf8CharStart buf k ≤ n ∧
      (findUtf8CharStart buf k = n ∨
        (buf.getD (findUtf8CharStart buf k) 0) &&& 0xC0 ≠ 0x80) := by
  unfold findUtf8CharStart
  have h1 := fucsLoop_bound buf n hterm k n 0 0 (by omega) (by omega)
  exact fucsSkip_bound buf n hterm hnz (n - fucsLoop buf 0 0 k) (fucsLoop buf 0 0 k)
    (le_refl _) h1

/-- append with the whole source fitting below capacity appends it
verbatim and keeps the buffer valid UTF-8. -/
theorem append_fits_valid (buf : List Nat) (maxLen curLen : Nat) (src : List Nat)
    (hcap : maxLen ≤ buf.length) (_hterm : buf.getD curLen 0 = 0)
    (hchunks : Chunks (buf.take curLen)) (hsrc : Chunks src) (hne : src ≠ [])
    (hfit : curLen + src.length < maxLen) :
    validateUtf8 (append buf maxLen curLen src src.length).1 = true ∧
      (append buf maxLen curLen src src.length).2 = curLen + src.length := by
  have hL : 1 ≤ src.length := List.length_pos.mpr hne
  have hcl : curLen < buf.length := by omega
  have hctake : (buf.take curLen).length = curLen := by rw [List.length_take]; omega
  unfold append
  rw [if_neg (by omega)]
  simp only []
  have htc : (if src.length < maxLen - 1 - curLen then src.length
      else maxLen - 1 - curLen) = src.length := by
    split_ifs <;> omega
  rw [htc, if_pos (by omega), List.take_length]
  rw [writeAt_eq src buf curLen (by omega)]
  rw [show curLen + src.length = (buf.take curLen ++ src).length by
    rw [List.length_append, hctake]]
  rw [set_append_len]
  rw [List.drop_eq_getElem_cons (by rw [List.length_append, hctake]; omega)]
  refine ⟨?_, rfl⟩
  show validateUtf8 ((buf.take curLen ++ src) ++
    0 :: List.drop ((buf.take curLen ++ src).length + 1) buf) = true
  exact validate_concat (chunks_append hchunks hsrc)

/-- getD through drop. -/
theorem getD_drop (l : List Nat) (a j : Nat) : (l.drop a).getD j 0 = l.getD (a + j) 0 := by
  by_cases h : a + j < l.length
  · rw [List.getD_eq_getElem _ _ (by rw [List.length_drop]; omega),
      List.getD_eq_getElem _ _ h]
    rw [List.getElem_drop]
  · rw [List.getD_eq_default _ _ (by rw [List.length_drop]; omega),
      List.getD_eq_default _ _ (by omega)]

/-- getD through set. -/
theorem getD_set (l : List Nat) (i j v : Nat) :
    (l.set i v).getD j 0 = if i = j ∧ j < l.length then v else l.getD j 0 := by
  by_cases hj : j < l.length
  · by_cases hij : i = j
    · subst hij
      rw [if_pos ⟨rfl, hj⟩]
      rw [List.getD_eq_getElem _ _ (by rw [List.length_set]; omega)]
      exact List.getElem_set_self _
    · rw [if_neg (by tauto)]
      rw [List.getD_eq_getElem _ _ (by rw [List.length_set]; omega),
        List.getD_eq_getElem _ _ hj]
      exact List.getElem_set_ne hij _
  · rw [if_neg (by tauto)]
    rw [List.getD_eq_default _ _ (by rw [List.length_set]; omega),
      List.getD_eq_default _ _ (by omega)]

/-- getD through an in-bounds writeAt. -/
theorem writeAt_getD (data buf : List Nat) (p i : Nat) (hb : p + data.length ≤ buf.length) :
    (writeAt buf p data).getD i 0 =
      if p ≤ i ∧ i < p + data.length then data.getD (i - p) 0 else buf.getD i 0 := by
  rw [writeAt_eq data buf p hb]
  have hpt : (buf.take p).length = p := by rw [List.length_take]; omega
  by_cases h2 : i < p + data.length
  · rw [List.getD_append _ _ _ _ (by rw [List.length_append, hpt]; omega)]
    by_cases h1 : i < p
    · rw [if_neg (by omega)]
      rw [List.getD_append _ _ _ _ (by rw [hpt]; omega)]
      exact getD_take h1
    · rw [if_pos ⟨by omega, h2⟩]
      rw [List.getD_append_right _ _ _ _ (by rw [hpt]; omega), hpt]
  · rw [if_neg (by omega)]
    rw [List.getD_append_right _ _ _ _ (by rw [List.length_append, hpt]; omega)]
    rw [List.length_append, hpt]
    rw [getD_drop]
    congr 1
    omega

/-- insert with the whole source fitting below capacity splices it at a
character boundary and keeps the buffer valid UTF-8. -/
theorem insert_fits_valid (buf : List Nat) (maxLen curLen charIdx : Nat) (src : List Nat)
    (hcap : maxLen ≤ buf.length) (hterm : buf.getD curLen 0 = 0)
    (hchunks : Chunks (buf.take curLen)) (hsrc : Chunks src) (hne : src ≠ [])
    (hfit : curLen + src.length < maxLen) :
    validateUtf8 (insert buf maxLen curLen charIdx src).1 = true ∧
      (insert buf maxLen curLen charIdx src).2 = curLen + src.length := by
  have hL : 1 ≤ src.length := List.length_pos.mpr hne
  have hcl : curLen < buf.length := by omega
  have hctake : (buf.take curLen).length = curLen := by rw [List.length_take]; omega
  have hnz : ∀ j, j < curLen → buf.getD j 0 ≠ 0 := by
    intro j hj
    have hmem : buf.getD j 0 ∈ buf.take curLen := by
      rw [← getD_take hj]
      rw [List.getD_eq_getElem _ _ (by rw [hctake]; omega)]
      exact List.getElem_mem _
    exact chunks_ne_zero hchunks _ hmem
  have hsrc0 : ¬ src.getD 0 0 = 0 := by
    have hmem : src.getD 0 0 ∈ src := by
      rw [List.getD_eq_getElem _ _ (by omega)]
      exact List.getElem_mem _
    exact chunks_ne_zero hsrc _ hmem
  obtain ⟨hoffle, hoffb⟩ := fucs_boundary buf curLen hterm hnz charIdx
  have hsplit : Chunks ((buf.take curLen).take (findUtf8CharStart buf charIdx)) ∧
      Chunks ((buf.take curLen).drop (findUtf8CharStart buf charIdx)) := by
    apply chunks_split hchunks _ (by omega)
    by_cases he : findUtf8CharStart buf charIdx = curLen
    · left
      rw [hctake, he]
    · right
      rw [getD_take (by omega)]
      rcases hoffb with h | h
      · exact absurd h he
      · exact h
  -- the chunk run of the final content
  have hcks : Chunks ((buf.take curLen).take (findUtf8CharStart buf charIdx) ++
      (src ++ (buf.take curLen).drop (findUtf8CharStart buf charIdx))) :=
    chunks_append hsplit.1 (chunks_append hsrc hsplit.2)
  have hlenc : ((buf.take curLen).take (findUtf8CharStart buf charIdx) ++
      (src ++ (buf.take curLen).drop (findUtf8CharStart buf charIdx))).length =
      curLen + src.length := by
    rw [List.length_append, List.length_append, List.length_take, List.length_drop, hctake]
    omega
  unfold insert
  rw [if_neg hsrc0]
  simp only []
  obtain ⟨off, hoffdef⟩ : ∃ o, o = findUtf8CharStart buf charIdx := ⟨_, rfl⟩
  rw [← hoffdef] at hoffle hoffb ⊢
  rw [if_neg (by omega : ¬ maxLen ≤ curLen + src.length)]
  rw [if_neg (by omega : ¬ src.length = 0)]
  rw [List.take_length]
  have hsplit : Chunks ((buf.take curLen).take off) ∧
      Chunks ((buf.take curLen).drop off) := by
    apply chunks_split hchunks _ (by omega)
    by_cases he : off = curLen
    · left
      rw [hctake, he]
    · right
      rw [getD_take (by omega)]
      rcases hoffb with h | h
      · exact absurd h he
      · exact h
  have hcks : Chunks ((buf.take curLen).take off ++ (src ++ (buf.take curLen).drop off)) :=
    chunks_append hsplit.1 (chunks_append hsrc hsplit.2)
  have hlenc : ((buf.take curLen).take off ++ (src ++ (buf.take curLen).drop off)).length =
      curLen + src.length := by
    rw [List.length_append, List.length_append, List.length_take, List.length_drop, hctake]
    omega
  have hC1len : ((buf.take curLen).take off).length = off := by
    rw [List.length_take, hctake]
    omega
  have hc1 : ∀ j, j < off →
      ((buf.take curLen).take off ++ (src ++ (buf.take curLen).drop off)).getD j 0 =
        buf.getD j 0 := by
    intro j hj
    rw [List.getD_append _ _ _ _ (by rw [hC1len]; omega)]
    rw [getD_take hj, getD_take (by omega : j < curLen)]
  have hc2 : ∀ j, off ≤ j → j < off + src.length →
      ((buf.take curLen).take off ++ (src ++ (buf.take curLen).drop off)).getD j 0 =
        src.getD (j - off) 0 := by
    intro j h1 h2
    rw [List.getD_append_right _ _ _ _ (by rw [hC1len]; omega), hC1len]
    rw [List.getD_append _ _ _ _ (by omega)]
  have hc3 : ∀ j, off + src.length ≤ j → j < curLen + src.length →
      ((buf.take curLen).take off ++ (src ++ (buf.take curLen).drop off)).getD j 0 =
        buf.getD (j - src.length) 0 := by
    intro j h1 h2
    rw [List.getD_append_right _ _ _ _ (by rw [hC1len]; omega), hC1len]
    rw [List.getD_append_right _ _ _ _ (by omega : src.length ≤ j - off)]
    rw [getD_drop]
    rw [getD_take (by omega : off + (j - off - src.length) < curLen)]
    congr 1
    omega
  have hslicelen : (sliceL buf off (curLen + 1)).length = curLen + 1 - off := by
    unfold sliceL
    rw [List.length_drop, List.length_take]
    omega
  have hS : ∀ j, j ≤ curLen - off →
      (sliceL buf off (curLen + 1)).getD j 0 = buf.getD (off + j) 0 := by
    intro j hj
    unfold sliceL
    rw [getD_drop, getD_take (by omega : off + j < curLen + 1)]
  by_cases hlt : off < curLen
  · rw [if_pos hlt]
    have hb1 : off + src.length + (sliceL buf off (curLen + 1)).length ≤ buf.length := by
      rw [hslicelen]
      omega
    have hb2 : off + src.length ≤
        (writeAt buf (off + src.length) (sliceL buf off (curLen + 1))).length := by
      rw [writeAt_length]
      omega
    constructor
    · show validateUtf8
        (writeAt (writeAt buf (off + src.length) (sliceL buf off (curLen + 1))) off src) = true
      unfold validateUtf8
      apply validateLoop_chunks hcks
      · intro j hj
        rw [hlenc] at hj
        rw [Nat.zero_add]
        rw [writeAt_getD src _ off j hb2]
        rw [writeAt_getD (sliceL buf off (curLen + 1)) buf (off + src.length) j hb1]
        rcases Nat.lt_or_ge j off with hj1 | hj1
        · rw [if_neg (by omega), if_neg (by omega), hc1 j hj1]
        · rcases Nat.lt_or_ge j (off + src.length) with hj2 | hj2
          · rw [if_pos ⟨hj1, hj2⟩, hc2 j hj1 hj2]
          · rw [if_neg (by omega), if_pos ⟨hj2, by rw [hslicelen]; omega⟩]
            rw [hS (j - (off + src.length)) (by omega)]
            rw [hc3 j hj2 hj]
            congr 1
            omega
      · rw [hlenc, Nat.zero_add]
        rw [writeAt_getD src _ off _ hb2]
        rw [if_neg (by omega :
          ¬ (off ≤ curLen + src.length ∧ curLen + src.length < off + src.length))]
        rw [writeAt_getD (sliceL buf off (curLen + 1)) buf (off + src.length) _ hb1]
        rw [if_pos ⟨by omega, by rw [hslicelen]; omega⟩]
        rw [hS (curLen + src.length - (off + src.length)) (by omega)]
        rw [show off + (curLen + src.length - (off + src.length)) = curLen by omega]
        exact hterm
    · rfl
  · have he : off = curLen := by omega
    rw [if_neg hlt]
    constructor
    · show validateUtf8 (writeAt (buf.set (curLen + src.length) 0) off src) = true
      unfold validateUtf8
      apply validateLoop_chunks hcks
      · intro j hj
        rw [hlenc] at hj
        rw [Nat.zero_add]
        rw [writeAt_getD src _ off j (by rw [List.length_set]; omega)]
        by_cases hj1 : j < off
        · rw [if_neg (by omega)]
          rw [getD_set]
          rw [if_neg (by omega)]
          exact (hc1 j hj1).symm
        · rw [if_pos ⟨by omega, by omega⟩]
          exact (hc2 j (by omega) (by omega)).symm
      · rw [hlenc, Nat.zero_add]
        rw [writeAt_getD src _ off _ (by rw [List.length_set]; omega)]
        rw [if_neg (by omega :
          ¬ (off ≤ curLen + src.length ∧ curLen + src.length < off + src.length))]
        rw [getD_set]
        rw [if_pos ⟨rfl, by omega⟩]
    · rfl

/-- C2: with a buffer holding valid UTF-8 content and a valid UTF-8 source
that fully fits below capacity, append and insert both keep the buffer
valid UTF-8 (no character is split or corrupted) and advance the tracked
length by the source length.  (When the source does NOT fit, truncation is
byte-granular and can split a multi-byte character; see the
counterexample.) -/
theorem insert_append_keep_utf8 (buf : List Nat) (maxLen curLen charIdx : Nat)
    (src : List Nat) (hcap : maxLen ≤ buf.length) (hterm : buf.getD curLen 0 = 0)
    (hchunks : Chunks (buf.take curLen)) (hsrc : Chunks src) (hne : src ≠ [])
    (hfit : curLen + src.length < maxLen) :
    (validateUtf8 (append buf maxLen curLen src src.length).1 = true ∧
      (append buf maxLen curLen src src.length).2 = curLen + src.length) ∧
    (validateUtf8 (insert buf maxLen curLen charIdx src).1 = true ∧
      (insert buf maxLen curLen charIdx src).2 = curLen + src.length) :=
  ⟨append_fits_valid buf maxLen curLen src hcap hterm hchunks hsrc hne hfit,
   insert_fits_valid buf maxLen curLen charIdx src hcap hterm hchunks hsrc hne hfit⟩

theorem insert_append_keep_utf8_witness :
    (validateUtf8 (append [0,0,0,0,0] 5 0 [195,169] 2).1 = true ∧
      (append [0,0,0,0,0] 5 0 [195,169] 2).2 = 0 + 2) ∧
    (validateUtf8 (insert [0,0,0,0,0] 5 0 0 [195,169]).1 = true ∧
      (insert [0,0,0,0,0] 5 0 0 [195,169]).2 = 0 + 2) :=
  insert_append_keep_utf8 [0,0,0,0,0] 5 0 0 [195,169] (by decide) (by decide)
    Chunks.nil (Chunks.cons (IsSeq.two (by decide) (by decide) (by decide)) Chunks.nil)
    (by decide) (by decide)

/-- Byte-granular truncation splits a multi-byte character: appending the
two-byte sequence C3 A9 to an empty buffer of capacity 2 copies only the
lead byte C3, leaving content that validateUtf8 rejects. -/
theorem append_truncation_splits_char :
    append [0, 0] 2 0 [195, 169] 2 = ([195, 0], 1) ∧
      validateUtf8 [195, 0] = false := by
  constructor
  · rfl
  · simp [validateUtf8, validateLoop, utf8SeqLen]

/-- Pointwise-equal lists of equal length are equal. -/
theorem ext_getD : ∀ (A B : List Nat), A.length = B.length →
    (∀ j, j < A.length → A.getD j 0 = B.getD j 0) → A = B := by
  intro A B hlen h
  apply List.ext_getElem hlen
  intro j h1 h2
  have hj := h j h1
  rwa [List.getD_eq_getElem _ _ h1, List.getD_eq_getElem _ _ h2] at hj

/-- Writing back the byte already present is the identity. -/
theorem set_getD_self (l : List Nat) (i : Nat) : l.set i (l.getD i 0) = l := by
  by_cases h : i < l.length
  · apply ext_getD _ _ (List.length_set _ _ _)
    intro j hj
    rw [List.length_set] at hj
    rw [getD_set]
    split_ifs with hij
    · rw [hij.1]
    · rfl
  · rw [List.set_eq_of_length_le (by omega)]

/-- The byte-copy loop preserves the buffer length. -/
theorem copyBytes_length : ∀ (n : Nat) (buf : List Nat) (src dst : Nat),
    (copyBytes buf src dst n).length = buf.length := by
  intro n
  induction n with
  | zero => intro buf src dst; rfl
  | succ n ih =>
    intro buf src dst
    show (copyBytes (buf.set dst (buf.getD src 0)) (src + 1) (dst + 1) n).length = _
    rw [ih, List.length_set]

/-- Copying a range onto itself changes nothing. -/
theorem copyBytes_self : ∀ (n : Nat) (buf : List Nat) (i : Nat),
    copyBytes buf i i n = buf := by
  intro n
  induction n with
  | zero => intro buf i; rfl
  | succ n ih =>
    intro buf i
    show copyBytes (buf.set i (buf.getD i 0)) (i + 1) (i + 1) n = buf
    rw [set_getD_self, ih]

/-- The byte-copy loop, read pointwise: when the write run does not overtake
a pending read (the write cursor at or behind the read cursor, or the two
ranges disjoint), every copied position holds the source byte and every
other position is untouched. -/
theorem copyBytes_getD : ∀ (n : Nat) (buf : List Nat) (src dst : Nat),
    (dst ≤ src ∨ src + n ≤ dst) → dst + n ≤ buf.length → ∀ i,
    (copyBytes buf src dst n).getD i 0 =
      if dst ≤ i ∧ i < dst + n then buf.getD (src + (i - dst)) 0 else buf.getD i 0 := by
  intro n
  induction n with
  | zero =>
    intro buf src dst _ _ i
    rw [if_neg (by omega)]
    rfl
  | succ n ih =>
    intro buf src dst hd hb i
    show (copyBytes (buf.set dst (buf.getD src 0)) (src + 1) (dst + 1) n).getD i 0 = _
    rw [ih (buf.set dst (buf.getD src 0)) (src + 1) (dst + 1) (by omega)
      (by rw [List.length_set]; omega) i]
    by_cases h1 : dst ≤ i ∧ i < dst + (n + 1)
    · rw [if_pos h1]
      by_cases h2 : i = dst
      · rw [if_neg (by omega)]
        rw [getD_set, if_pos ⟨h2.symm, by omega⟩]
        rw [show src + (i - dst) = src from by omega]
      · rw [if_pos ⟨by omega, by omega⟩]
        rw [getD_set, if_neg (by omega)]
        congr 1
        omega
    · rw [if_neg h1]
      rw [if_neg (by omega)]
      rw [getD_set, if_neg (by omega)]

/-- The replacement-marker write preserves the buffer length. -/
theorem writeRepl_length (buf : List Nat) (dst : Nat) :
    (writeRepl buf dst).length = buf.length := by
  unfold writeRepl
  rw [List.length_set, List.length_set, List.length_set]

/-- A buffer agreeing with an old buffer below dst and with s on the n
positions from dst has take (dst+n) equal to the extended region. -/
theorem take_extend (B buf s : List Nat) (dst n : Nat)
    (hlen : B.length = buf.length) (hd : dst + n ≤ buf.length) (hns : s.length = n)
    (hpre : ∀ j, j < dst → B.getD j 0 = buf.getD j 0)
    (hmid : ∀ j, j < n → B.getD (dst + j) 0 = s.getD j 0) :
    B.take (dst + n) = buf.take dst ++ s := by
  apply ext_getD
  · rw [List.length_take, List.length_append, List.length_take, hlen, hns]
    omega
  · intro j hj
    rw [List.length_take, hlen] at hj
    have hj2 : j < dst + n := by omega
    rw [getD_take hj2]
    by_cases hjd : j < dst
    · rw [List.getD_append _ _ _ _ (by rw [List.length_take]; omega)]
      rw [getD_take hjd]
      exact hpre j hjd
    · rw [List.getD_append_right _ _ _ _ (by rw [List.length_take]; omega)]
      rw [List.length_take]
      rw [show min dst buf.length = dst from by omega]
      have hm := hmid (j - dst) (by omega)
      rw [show dst + (j - dst) = j from by omega] at hm
      exact hm

/-- A continuation byte never begins a sequence for the sanitizer
classifier. -/
theorem cont_sanSeqLen_none {b0 : Nat} (h : b0 &&& 0xC0 = 0x80) (b1 b2 b3 : Nat) :
    sanSeqLen b0 b1 b2 b3 = none := by
  have hge : 0x80 ≤ b0 := by
    rw [← h]
    exact Nat.and_le_left
  have hnl := cont_not_lead h
  unfold sanSeqLen
  repeat rw [if_neg (by omega)]

/-- On the bytes of a valid sequence (trailing window bytes arbitrary) the
sanitizer classifier accepts with the sequence length: the extra nonzero
tests hold because continuation bytes are nonzero. -/
theorem isSeq_sanSeqLen {s : List Nat} (hs : IsSeq s) (x1 x2 x3 : Nat) :
    sanSeqLen (s.getD 0 0) (s.getD 1 x1) (s.getD 2 x2) (s.getD 3 x3) = some s.length := by
  cases hs with
  | @one b h1 h2 =>
    show sanSeqLen b x1 x2 x3 = some 1
    rw [sanSeqLen, if_pos h2]
  | @two b0 b1 h1 h2 h3 =>
    show sanSeqLen b0 b1 x2 x3 = some 2
    rw [sanSeqLen]
    repeat rw [if_neg (by omega)]
    rw [if_pos ⟨h1, h2⟩, if_pos ⟨cont_ne_zero h3, h3⟩]
  | @threeE0 b1 b2 h1 h2 h3 =>
    show sanSeqLen 0xE0 b1 b2 x3 = some 3
    rw [sanSeqLen]
    repeat rw [if_neg (by omega)]
    rw [if_pos rfl,
      if_pos ⟨by omega, cont_ne_zero h3, h1, h2, h3⟩]
  | @threeMid b0 b1 b2 h1 h2 h3 h4 =>
    show sanSeqLen b0 b1 b2 x3 = some 3
    rw [sanSeqLen]
    repeat rw [if_neg (by omega)]
    rw [if_pos ⟨h1, h2⟩, if_pos ⟨cont_ne_zero h3, cont_ne_zero h4, h3, h4⟩]
  | @threeED b1 b2 h1 h2 h3 =>
    show sanSeqLen 0xED b1 b2 x3 = some 3
    rw [sanSeqLen]
    repeat rw [if_neg (by omega)]
    rw [if_pos rfl, if_pos ⟨by omega, cont_ne_zero h3, h1, h2, h3⟩]
  | @threeEE b0 b1 b2 h1 h2 h3 h4 =>
    show sanSeqLen b0 b1 b2 x3 = some 3
    rw [sanSeqLen]
    repeat rw [if_neg (by omega)]
    rw [if_pos ⟨h1, h2⟩,
      if_pos ⟨cont_ne_zero h3, cont_ne_zero h4, h3, h4⟩]
  | @fourF0 b1 b2 b3 h1 h2 h3 h4 =>
    show sanSeqLen 0xF0 b1 b2 b3 = some 4
    rw [sanSeqLen]
    repeat rw [if_neg (by omega)]
    rw [if_pos rfl,
      if_pos ⟨by omega, cont_ne_zero h3, cont_ne_zero h4, h1, h2, h3, h4⟩]
  | @fourMid b0 b1 b2 b3 h1 h2 h3 h4 h5 =>
    show sanSeqLen b0 b1 b2 b3 = some 4
    rw [sanSeqLen]
    repeat rw [if_neg (by omega)]
    rw [if_pos ⟨h1, h2⟩,
      if_pos ⟨cont_ne_zero h3, cont_ne_zero h4, cont_ne_zero h5, h3, h4, h5⟩]
  | @fourF4 b1 b2 b3 h1 h2 h3 h4 =>
    show sanSeqLen 0xF4 b1 b2 b3 = some 4
    rw [sanSeqLen]
    repeat rw [if_neg (by omega)]
    rw [if_pos rfl,
      if_pos ⟨by omega, cont_ne_zero h3, cont_ne_zero h4, h1, h2, h3, h4⟩]

/-- When the sanitizer classifier accepts a nonzero first byte, the
accepted window prefix is a valid sequence of the returned length. -/
theorem sanSeqLen_spec (b0 b1 b2 b3 m : Nat) (h0 : b0 ≠ 0)
    (h : sanSeqLen b0 b1 b2 b3 = some m) :
    (m = 1 ∧ IsSeq [b0]) ∨ (m = 2 ∧ IsSeq [b0, b1]) ∨
      (m = 3 ∧ IsSeq [b0, b1, b2]) ∨ (m = 4 ∧ IsSeq [b0, b1, b2, b3]) := by
  unfold sanSeqLen at h
  by_cases g1 : b0 ≤ 0x7F
  · rw [if_pos g1, Option.some.injEq] at h
    exact Or.inl ⟨by omega, IsSeq.one (by omega) g1⟩
  rw [if_neg g1] at h
  by_cases g2 : 0xC2 ≤ b0 ∧ b0 ≤ 0xDF
  · rw [if_pos g2] at h
    by_cases g3 : b1 ≠ 0 ∧ b1 &&& 0xC0 = 0x80
    · rw [if_pos g3, Option.some.injEq] at h
      exact Or.inr (Or.inl ⟨by omega, IsSeq.two g2.1 g2.2 g3.2⟩)
    · rw [if_neg g3] at h
      exact absurd h (by simp)
  rw [if_neg g2] at h
  by_cases g4 : b0 = 0xE0
  · rw [if_pos g4] at h
    by_cases g5 : b1 ≠ 0 ∧ b2 ≠ 0 ∧ 0xA0 ≤ b1 ∧ b1 ≤ 0xBF ∧ b2 &&& 0xC0 = 0x80
    · rw [if_pos g5, Option.some.injEq] at h
      rw [g4]
      exact Or.inr (Or.inr (Or.inl ⟨by omega,
        IsSeq.threeE0 g5.2.2.1 g5.2.2.2.1 g5.2.2.2.2⟩))
    · rw [if_neg g5] at h
      exact absurd h (by simp)
  rw [if_neg g4] at h
  by_cases g6 : 0xE1 ≤ b0 ∧ b0 ≤ 0xEC
  · rw [if_pos g6] at h
    by_cases g7 : b1 ≠ 0 ∧ b2 ≠ 0 ∧ b1 &&& 0xC0 = 0x80 ∧ b2 &&& 0xC0 = 0x80
    · rw [if_pos g7, Option.some.injEq] at h
      exact Or.inr (Or.inr (Or.inl ⟨by omega,
        IsSeq.threeMid g6.1 g6.2 g7.2.2.1 g7.2.2.2⟩))
    · rw [if_neg g7] at h
      exact absurd h (by simp)
  rw [if_neg g6] at h
  by_cases g8 : b0 = 0xED
  · rw [if_pos g8] at h
    by_cases g9 : b1 ≠ 0 ∧ b2 ≠ 0 ∧ 0x80 ≤ b1 ∧ b1 ≤ 0x9F ∧ b2 &&& 0xC0 = 0x80
    · rw [if_pos g9, Option.some.injEq] at h
      rw [g8]
      exact Or.inr (Or.inr (Or.inl ⟨by omega,
        IsSeq.threeED g9.2.2.1 g9.2.2.2.1 g9.2.2.2.2⟩))
    · rw [if_neg g9] at h
      exact absurd h (by simp)
  rw [if_neg g8] at h
  by_cases g10 : 0xEE ≤ b0 ∧ b0 ≤ 0xEF
  · rw [if_pos g10] at h
    by_cases g11 : b1 ≠ 0 ∧ b2 ≠ 0 ∧ b1 &&& 0xC0 = 0x80 ∧ b2 &&& 0xC0 = 0x80
    · rw [if_pos g11, Option.some.injEq] at h
      exact Or.inr (Or.inr (Or.inl ⟨by omega,
        IsSeq.threeEE g10.1 g10.2 g11.2.2.1 g11.2.2.2⟩))
    · rw [if_neg g11] at h
      exact absurd h (by simp)
  rw [if_neg g10] at h
  by_cases g12 : b0 = 0xF0
  · rw [if_pos g12] at h
    by_cases g13 : b1 ≠ 0 ∧ b2 ≠ 0 ∧ b3 ≠ 0 ∧ 0x90 ≤ b1 ∧ b1 ≤ 0xBF ∧
        b2 &&& 0xC0 = 0x80 ∧ b3 &&& 0xC0 = 0x80
    · rw [if_pos g13, Option.some.injEq] at h
      rw [g12]
      exact Or.inr (Or.inr (Or.inr ⟨by omega,
        IsSeq.fourF0 g13.2.2.2.1 g13.2.2.2.2.1 g13.2.2.2.2.2.1 g13.2.2.2.2.2.2⟩))
    · rw [if_neg g13] at h
      exact absurd h (by simp)
  rw [if_neg g12] at h
  by_cases g14 : 0xF1 ≤ b0 ∧ b0 ≤ 0xF3
  · rw [if_pos g14] at h
    by_cases g15 : b1 ≠ 0 ∧ b2 ≠ 0 ∧ b3 ≠ 0 ∧ b1 &&& 0xC0 = 0x80 ∧
        b2 &&& 0xC0 = 0x80 ∧ b3 &&& 0xC0 = 0x80
    · rw [if_pos g15, Option.some.injEq] at h
      exact Or.inr (Or.inr (Or.inr ⟨by omega,
        IsSeq.fourMid g14.1 g14.2 g15.2.2.2.1 g15.2.2.2.2.1 g15.2.2.2.2.2⟩))
    · rw [if_neg g15] at h
      exact absurd h (by simp)
  rw [if_neg g14] at h
  by_cases g16 : b0 = 0xF4
  · rw [if_pos g16] at h
    by_cases g17 : b1 ≠ 0 ∧ b2 ≠ 0 ∧ b3 ≠ 0 ∧ 0x80 ≤ b1 ∧ b1 ≤ 0x8F ∧
        b2 &&& 0xC0 = 0x80 ∧ b3 &&& 0xC0 = 0x80
    · rw [if_pos g17, Option.some.injEq] at h
      rw [g16]
      exact Or.inr (Or.inr (Or.inr ⟨by omega,
        IsSeq.fourF4 g17.2.2.2.1 g17.2.2.2.2.1 g17.2.2.2.2.2.1 g17.2.2.2.2.2.2⟩))
    · rw [if_neg g17] at h
      exact absurd h (by simp)
  rw [if_neg g16] at h
  exact absurd h (by simp)

/-- Every position inside a chunk run lies within one chunk of the run. -/
theorem chunks_locate : ∀ {c : List Nat}, Chunks c → ∀ p, p < c.length →
    ∃ c1 s c2, c = c1 ++ (s ++ c2) ∧ Chunks c1 ∧ IsSeq s ∧ Chunks c2 ∧
      c1.length ≤ p ∧ p < c1.length + s.length := by
  intro c hc
  induction hc with
  | nil =>
    intro p hp
    simp at hp
  | @cons s t hs ht ih =>
    intro p hp
    by_cases hps : p < s.length
    · exact ⟨[], s, t, rfl, Chunks.nil, hs, ht, by simp, by simpa using hps⟩
    · rw [List.length_append] at hp
      obtain ⟨c1, sm, c2, he, h1, h2, h3, h4, h5⟩ := ih (p - s.length) (by omega)
      refine ⟨s ++ c1, sm, c2, ?_, chunks_append (chunks_single hs) h1, h2, h3, ?_, ?_⟩
      · rw [he, List.append_assoc]
      · rw [List.length_append]
        omega
      · rw [List.length_append]
        omega

/-- The finishing step of sanitizeUtf8, under the loop invariant: the
terminator lands at dst, the chunk region is untouched, dst is the final
length and is below capacity. -/
theorem sanFin_post (maxLen : Nat) (buf : List Nat) (dst : Nat)
    (hdm : dst < maxLen) (hmb : maxLen ≤ buf.length) (hck : Chunks (buf.take dst)) :
    Chunks ((sanFin maxLen buf dst).1.take (sanFin maxLen buf dst).2) ∧
      (sanFin maxLen buf dst).1.getD (sanFin maxLen buf dst).2 0 = 0 ∧
      (sanFin maxLen buf dst).2 < maxLen ∧
      (sanFin maxLen buf dst).1.length = buf.length := by
  unfold sanFin
  rw [if_pos hdm]
  refine ⟨?_, ?_, hdm, List.length_set _ _ _⟩
  · show Chunks ((buf.set dst 0).take dst)
    rw [take_set_of_le _ _ (le_refl dst)]
    exact hck
  · show (buf.set dst 0).getD dst 0 = 0
    rw [getD_set, if_pos ⟨rfl, by omega⟩]

/-- The rewriting-loop invariant of sanitizeUtf8: from a chunk region
[0, dst) with the read cursor at or ahead of the write cursor and room
below capacity, the loop ends with a chunk region [0, fl), a terminator at
fl, fl below capacity, and the buffer length unchanged.  The read cursor
may point inside the already-written region: there it sees either a chunk
start (the classifier then accepts exactly that chunk, and the copy reads
strictly behind the writes) or a continuation byte (classified invalid). -/
theorem sanLoop_post : ∀ (f maxLen : Nat) (buf : List Nat) (src dst : Nat),
    maxLen - dst ≤ f → src ≤ dst → dst < maxLen → maxLen ≤ buf.length →
    Chunks (buf.take dst) →
    Chunks ((sanLoop maxLen buf src dst).1.take (sanLoop maxLen buf src dst).2) ∧
      (sanLoop maxLen buf src dst).1.getD (sanLoop maxLen buf src dst).2 0 = 0 ∧
      (sanLoop maxLen buf src dst).2 < maxLen ∧
      (sanLoop maxLen buf src dst).1.length = buf.length := by
  intro f
  induction f with
  | zero =>
    intro maxLen buf src dst h1 _ h3 _ _
    omega
  | succ f ih =>
    intro maxLen buf src dst hf hsd hdm hmb hck
    by_cases hz : buf.getD src 0 = 0
    · have heq : sanLoop maxLen buf src dst = sanFin maxLen buf dst := by
        rw [sanLoop, dif_pos hz]
      rw [heq]
      exact sanFin_post maxLen buf dst hdm hmb hck
    · rcases hcl : sanSeqLen (buf.getD src 0) (buf.getD (src+1) 0) (buf.getD (src+2) 0)
          (buf.getD (src+3) 0) with _ | m
      · have heq : sanLoop maxLen buf src dst =
            (if dst + 3 < maxLen then sanLoop maxLen (writeRepl buf dst) (src + 1) (dst + 3)
             else if dst < maxLen - 1 then
               sanLoop maxLen (buf.set dst 0x3F) (src + 1) (dst + 1)
             else sanFin maxLen buf dst) := by
          rw [sanLoop, dif_neg hz, hcl]
        rw [heq]
        split_ifs with hr1 hr2
        · have htk : (writeRepl buf dst).take (dst + 3) =
              buf.take dst ++ [0xEF, 0xBF, 0xBD] := by
            apply take_extend (writeRepl buf dst) buf [0xEF, 0xBF, 0xBD] dst 3
              (writeRepl_length buf dst) (by omega) rfl
            · intro j hj
              unfold writeRepl
              rw [getD_set, if_neg (by omega), getD_set, if_neg (by omega),
                getD_set, if_neg (by omega)]
            · intro j hj
              interval_cases j
              · show (writeRepl buf dst).getD (dst + 0) 0 = 0xEF
                unfold writeRepl
                rw [getD_set, if_neg (by omega), getD_set, if_neg (by omega),
                  getD_set, if_pos ⟨by omega, by omega⟩]
              · show (writeRepl buf dst).getD (dst + 1) 0 = 0xBF
                unfold writeRepl
                rw [getD_set, if_neg (by omega), getD_set,
                  if_pos ⟨rfl, by rw [List.length_set]; omega⟩]
              · show (writeRepl buf dst).getD (dst + 2) 0 = 0xBD
                unfold writeRepl
                rw [getD_set,
                  if_pos ⟨rfl, by rw [List.length_set, List.length_set]; omega⟩]
          obtain ⟨p1, p2, p3, p4⟩ := ih maxLen (writeRepl buf dst) (src + 1) (dst + 3)
            (by omega) (by omega) hr1 (by rw [writeRepl_length]; omega)
            (by rw [htk]
                exact chunks_append hck (chunks_single
                  (IsSeq.threeEE (by omega) (by omega) (by decide) (by decide))))
          exact ⟨p1, p2, p3, by rw [p4, writeRepl_length]⟩
        · have htk : (buf.set dst 0x3F).take (dst + 1) = buf.take dst ++ [0x3F] := by
            apply take_extend (buf.set dst 0x3F) buf [0x3F] dst 1
              (List.length_set _ _ _) (by omega) rfl
            · intro j hj
              rw [getD_set, if_neg (by omega)]
            · intro j hj
              interval_cases j
              show (buf.set dst 0x3F).getD (dst + 0) 0 = 0x3F
              rw [getD_set, if_pos ⟨by omega, by omega⟩]
          obtain ⟨p1, p2, p3, p4⟩ := ih maxLen (buf.set dst 0x3F) (src + 1) (dst + 1)
            (by omega) (by omega) (by omega) (by rw [List.length_set]; omega)
            (by rw [htk]
                exact chunks_append hck (chunks_single (IsSeq.one (by omega) (by omega))))
          exact ⟨p1, p2, p3, by rw [p4, List.length_set]⟩
        · exact sanFin_post maxLen buf dst hdm hmb hck
      · rcases m with _ | k
        · have heq : sanLoop maxLen buf src dst = sanFin maxLen buf dst := by
            rw [sanLoop, dif_neg hz, hcl]
          rw [heq]
          exact sanFin_post maxLen buf dst hdm hmb hck
        · have heq : sanLoop maxLen buf src dst =
              (if maxLen ≤ dst + (k + 1) then sanFin maxLen buf dst
               else sanLoop maxLen (copyBytes buf src dst (k + 1))
                 (src + (k + 1)) (dst + (k + 1))) := by
            rw [sanLoop, dif_neg hz, hcl]
          rw [heq]
          split_ifs with hcap
          · exact sanFin_post maxLen buf dst hdm hmb hck
          · have hsall : ∃ s : List Nat, IsSeq s ∧ s.length = k + 1 ∧
                (∀ j, j < k + 1 → buf.getD (src + j) 0 = s.getD j 0) ∧
                (dst ≤ src ∨ src + (k + 1) ≤ dst) := by
              by_cases hse : src < dst
              · obtain ⟨c1, s, c2, hreg, hc1, hs, hc2, hp1, hp2⟩ :=
                  chunks_locate hck src (by rw [List.length_take]; omega)
              
                have hrl : (buf.take dst).length = dst := by rw [List.length_take]; omega
                have hsum : c1.length + (s.length + c2.length) = dst := by
                  rw [← hrl, hreg, List.length_append, List.length_append]
                have hbyte : ∀ j, j < s.length →
                    buf.getD (c1.length + j) 0 = s.getD j 0 := by
                  intro j hj
                  rw [← getD_take (show c1.length + j < dst from by omega)]
                  rw [hreg]
                  rw [List.getD_append_right _ _ _ _ (by omega)]
                  rw [show c1.length + j - c1.length = j from by omega]
                  exact List.getD_append _ _ _ _ hj
                by_cases hin : c1.length < src
                · exfalso
                  have hcont : (buf.getD src 0) &&& 0xC0 = 0x80 := by
                    have hb := hbyte (src - c1.length) (by omega)
                    rw [show c1.length + (src - c1.length) = src from by omega] at hb
                    rw [hb]
                    exact isSeq_tail_cont hs (src - c1.length) (by omega) (by omega)
                  rw [cont_sanSeqLen_none hcont (buf.getD (src+1) 0) (buf.getD (src+2) 0)
                    (buf.getD (src+3) 0)] at hcl
                  exact Option.noConfusion hcl
                · have hsrc_eq : c1.length = src := by omega
                  have hsl4 := isSeq_length hs
                  have g0 : buf.getD src 0 = s.getD 0 0 := by
                    have hb := hbyte 0 (by omega)
                    rwa [Nat.add_zero, hsrc_eq] at hb
                  have gj : ∀ j, 1 ≤ j → j ≤ 3 →
                      buf.getD (src + j) 0 = s.getD j (buf.getD (src + j) 0) := by
                    intro j _ _
                    by_cases hjs : j < s.length
                    · have hb := hbyte j hjs
                      rw [hsrc_eq] at hb
                      rw [hb, List.getD_eq_getElem _ _ hjs, List.getD_eq_getElem _ _ hjs]
                    · rw [List.getD_eq_default _ _ (Nat.le_of_not_lt hjs)]
                  have hcls : sanSeqLen (buf.getD src 0) (buf.getD (src+1) 0)
                      (buf.getD (src+2) 0) (buf.getD (src+3) 0) = some s.length := by
                    rw [gj 1 (by omega) (by omega), gj 2 (by omega) (by omega),
                      gj 3 (by omega) (by omega), g0]
                    exact isSeq_sanSeqLen hs _ _ _
                  rw [hcl] at hcls
                  have hk1 : k + 1 = s.length := by injection hcls
                  refine ⟨s, hs, hk1.symm, ?_, Or.inr (by omega)⟩
                  intro j hj
                  have hb := hbyte j (by omega)
                  rwa [hsrc_eq] at hb
              · have hse2 : src = dst := by omega
                rcases sanSeqLen_spec _ _ _ _ (k+1) hz hcl with
                  ⟨hm, hseq⟩ | ⟨hm, hseq⟩ | ⟨hm, hseq⟩ | ⟨hm, hseq⟩
                · refine ⟨[buf.getD src 0], hseq, by simp; omega, ?_, Or.inl (by omega)⟩
                  intro j hj
                  have hj0 : j = 0 := by omega
                  subst hj0
                  rfl
                · refine ⟨[buf.getD src 0, buf.getD (src+1) 0], hseq, by simp; omega,
                    ?_, Or.inl (by omega)⟩
                  intro j hj
                  have hj2 : j < 2 := by omega
                  interval_cases j
                  · rfl
                  · rfl
                · refine ⟨[buf.getD src 0, buf.getD (src+1) 0, buf.getD (src+2) 0], hseq,
                    by simp; omega, ?_, Or.inl (by omega)⟩
                  intro j hj
                  have hj2 : j < 3 := by omega
                  interval_cases j
                  · rfl
                  · rfl
                  · rfl
                · refine ⟨[buf.getD src 0, buf.getD (src+1) 0, buf.getD (src+2) 0,
                    buf.getD (src+3) 0], hseq, by simp; omega, ?_, Or.inl (by omega)⟩
                  intro j hj
                  have hj2 : j < 4 := by omega
                  interval_cases j
                  · rfl
                  · rfl
                  · rfl
                  · rfl
            obtain ⟨s, hs, hslen, hbv, hdisj⟩ := hsall
            have hble : dst + (k + 1) ≤ buf.length := by omega
            have htk : (copyBytes buf src dst (k + 1)).take (dst + (k + 1)) =
                buf.take dst ++ s := by
              apply take_extend (copyBytes buf src dst (k + 1)) buf s dst (k + 1)
                (copyBytes_length _ _ _ _) hble hslen
              · intro j hj
                rw [copyBytes_getD (k + 1) buf src dst hdisj hble j, if_neg (by omega)]
              · intro j hj
                rw [copyBytes_getD (k + 1) buf src dst hdisj hble (dst + j),
                  if_pos ⟨by omega, by omega⟩]
                rw [show src + (dst + j - dst) = src + j from by omega]
                exact hbv j hj
            obtain ⟨p1, p2, p3, p4⟩ := ih maxLen (copyBytes buf src dst (k + 1))
              (src + (k + 1)) (dst + (k + 1)) (by omega) (by omega) (by omega)
              (by rw [copyBytes_length]; omega)
              (by rw [htk]; exact chunks_append hck (chunks_single hs))
            exact ⟨p1, p2, p3, by rw [p4, copyBytes_length]⟩

/-- A second sanitizing pass over a chunk region is the identity: with the
read and write cursors aligned at position i over a chunk run followed by
a terminator, the loop copies every chunk onto itself and re-writes the
terminator in place. -/
theorem sanLoop_chunks_id : ∀ {c : List Nat}, Chunks c →
    ∀ (out : List Nat) (i maxLen : Nat),
    (∀ j, j < c.length → out.getD (i + j) 0 = c.getD j 0) →
    out.getD (i + c.length) 0 = 0 → i + c.length < maxLen →
    sanLoop maxLen out i i = (out.set (i + c.length) 0, i + c.length) := by
  intro c hc
  induction hc with
  | nil =>
    intro out i maxLen _ hz hb
    rw [sanLoop, dif_pos (by simpa using hz)]
    unfold sanFin
    rw [if_pos (by omega)]
    simp
  | @cons s t hs ht ih =>
    intro out i maxLen hpt hz hb
    have hsl := isSeq_length hs
    have hcl : (s ++ t).length = s.length + t.length := List.length_append s t
    have g0 : out.getD i 0 = s.getD 0 0 := by
      have h1 := hpt 0 (by omega)
      rw [show i + 0 = i from rfl] at h1
      rw [h1, List.getD_append _ _ _ _ (by omega)]
    have gj : ∀ j, 1 ≤ j → j ≤ 3 →
        out.getD (i + j) 0 = s.getD j (out.getD (i + j) 0) := by
      intro j _ _
      by_cases hjs : j < s.length
      · have h1 := hpt j (by omega)
        rw [h1, List.getD_append _ _ _ _ hjs]
        rw [List.getD_eq_getElem _ _ hjs, List.getD_eq_getElem _ _ hjs]
      · rw [List.getD_eq_default _ _ (Nat.le_of_not_lt hjs)]
    have hne : out.getD i 0 ≠ 0 := by
      rw [g0]
      have hmem : s.getD 0 0 ∈ s := by
        rw [List.getD_eq_getElem _ _ (by omega)]
        exact List.getElem_mem _
      exact isSeq_ne_zero hs _ hmem
    have hcls : sanSeqLen (out.getD i 0) (out.getD (i+1) 0) (out.getD (i+2) 0)
        (out.getD (i+3) 0) = some s.length := by
      rw [gj 1 (by omega) (by omega), gj 2 (by omega) (by omega),
        gj 3 (by omega) (by omega), g0]
      exact isSeq_sanSeqLen hs _ _ _
    obtain ⟨k, hk⟩ : ∃ k, s.length = k + 1 := ⟨s.length - 1, by omega⟩
    rw [sanLoop, dif_neg hne, hcls, hk]
    show (if maxLen ≤ i + (k + 1) then sanFin maxLen out i
      else sanLoop maxLen (copyBytes out i i (k + 1)) (i + (k + 1)) (i + (k + 1))) =
        (out.set (i + (s ++ t).length) 0, i + (s ++ t).length)
    rw [if_neg (by rw [hcl] at hb; omega)]
    rw [copyBytes_self]
    have hrec := ih out (i + (k + 1)) maxLen
      (by
        intro j hj
        have h1 := hpt (s.length + j) (by omega)
        rw [List.getD_append_right _ _ _ _ (by omega)] at h1
        rw [show s.length + j - s.length = j from by omega] at h1
        rw [← h1]
        congr 1
        omega)
      (by
        rw [show i + (k + 1) + t.length = i + (s ++ t).length from by rw [hcl]; omega]
        exact hz)
      (by rw [hcl] at hb; omega)
    rw [hrec]
    rw [show i + (k + 1) + t.length = i + (s ++ t).length from by rw [hcl]; omega]

/-- C1: on any buffer with at least maxLen bytes and positive capacity,
sanitizeUtf8 produces valid UTF-8, is idempotent (a second pass returns
the identical buffer and length), and respects capacity (the final length
leaves room for the terminator). -/
theorem sanitize_valid_idempotent (buf : List Nat) (maxLen : Nat)
    (h1 : 0 < maxLen) (h2 : maxLen ≤ buf.length) :
    validateUtf8 (sanitizeUtf8 buf maxLen).1 = true ∧
      sanitizeUtf8 (sanitizeUtf8 buf maxLen).1 maxLen = sanitizeUtf8 buf maxLen ∧
      (sanitizeUtf8 buf maxLen).2 + 1 ≤ maxLen := by
  unfold sanitizeUtf8
  rw [if_neg (by omega)]
  obtain ⟨p1, p2, p3, p4⟩ := sanLoop_post maxLen maxLen buf 0 0 (by omega) (by omega)
    (by omega) h2 Chunks.nil
  have hfl : ((sanLoop maxLen buf 0 0).1.take (sanLoop maxLen buf 0 0).2).length =
      (sanLoop maxLen buf 0 0).2 := by
    rw [List.length_take]
    omega
  refine ⟨?_, ?_, by omega⟩
  · unfold validateUtf8
    apply validateLoop_chunks p1
    · intro j hj
      rw [hfl] at hj
      rw [Nat.zero_add]
      exact (getD_take hj).symm
    · rw [Nat.zero_add, hfl]
      exact p2
  · rw [if_neg (by omega)]
    have hid := sanLoop_chunks_id p1 (sanLoop maxLen buf 0 0).1 0 maxLen
      (by
        intro j hj
        rw [hfl] at hj
        rw [Nat.zero_add]
        exact (getD_take hj).symm)
      (by rw [Nat.zero_add, hfl]; exact p2)
      (by rw [Nat.zero_add, hfl]; omega)
    rw [hid, Nat.zero_add, hfl]
    have hset := set_getD_self (sanLoop maxLen buf 0 0).1 (sanLoop maxLen buf 0 0).2
    rw [p2] at hset
    rw [hset]

theorem sanitize_valid_idempotent_witness :
    validateUtf8 (sanitizeUtf8 [72, 195, 169, 0xC3, 0, 55] 6).1 = true ∧
      sanitizeUtf8 (sanitizeUtf8 [72, 195, 169, 0xC3, 0, 55] 6).1 6 =
        sanitizeUtf8 [72, 195, 169, 0xC3, 0, 55] 6 ∧
      (sanitizeUtf8 [72, 195, 169, 0xC3, 0, 55] 6).2 + 1 ≤ 6 :=
  sanitize_valid_idempotent [72, 195, 169, 0xC3, 0, 55] 6 (by decide) (by decide)

/-- Case folding maps zero to zero. -/
theorem toLower_zero : toLower 0 = 0 := by
  unfold toLower
  rw [if_neg (by omega)]

/-- Case folding never maps a nonzero byte to zero. -/
theorem toLower_ne_zero {b : Nat} (h : b ≠ 0) : toLower b ≠ 0 := by
  unfold toLower
  split_ifs <;> omega

/-- On a zero-free list, a default read is zero exactly past the end. -/
theorem zf_getD (l : List Nat) (h0 : ∀ b ∈ l, b ≠ 0) (i : Nat) :
    l.getD i 0 = 0 ↔ l.length ≤ i := by
  constructor
  · intro h
    by_contra hcon
    have hi : i < l.length := by omega
    apply h0 (l.getD i 0) _ h
    rw [List.getD_eq_getElem _ _ hi]
    exact List.getElem_mem _
  · intro h
    exact List.getD_eq_default _ _ h

/-- A fold-match of a zero-free pattern fits inside the zero-free
haystack. -/
theorem matchAt_bound {hay pat : List Nat} (hh : ∀ b ∈ hay, b ≠ 0)
    (hp : ∀ b ∈ pat, b ≠ 0) (hm : 1 ≤ pat.length) {t : Nat}
    (h : matchAt hay pat t) : t + pat.length ≤ hay.length := by
  have hx := h (pat.length - 1) (by omega)
  have hpb : pat.getD (pat.length - 1) 0 ≠ 0 := by
    rw [ne_eq, zf_getD pat hp]
    omega
  have hhb : hay.getD (t + (pat.length - 1)) 0 ≠ 0 := by
    intro hz
    rw [hz, toLower_zero] at hx
    exact toLower_ne_zero hpb hx.symm
  rw [ne_eq, zf_getD hay hh] at hhb
  omega

/-- The leftmost-match characterization determines the result. -/
theorem searchSpecP_unique {hay pat : List Nat} {s : Nat} {o1 o2 : Option Nat}
    (h1 : searchSpecP hay pat s o1) (h2 : searchSpecP hay pat s o2) : o1 = o2 := by
  cases o1 with
  | none =>
    cases o2 with
    | none => rfl
    | some r2 => exact absurd h2.2.1 (h1 r2 h2.1)
  | some r1 =>
    cases o2 with
    | none => exact absurd h1.2.1 (h2 r1 h1.1)
    | some r2 =>
      rcases Nat.lt_trichotomy r1 r2 with h | h | h
      · exact absurd h1.2.1 (h2.2.2 r1 h1.1 h)
      · rw [h]
      · exact absurd h2.2.1 (h1.2.2 r2 h2.1 h)

/-- A border of a border is a border. -/
theorem borderP_trans {pat : List Nat} {q l k : Nat}
    (h1 : borderP pat q l) (h2 : borderP pat l k) : borderP pat q k := by
  obtain ⟨hl, he1⟩ := h1
  obtain ⟨hk, he2⟩ := h2
  refine ⟨by omega, ?_⟩
  intro x hx
  rw [he2 x hx]
  have h3 := he1 (l - k + x) (by omega)
  rw [show q - l + (l - k + x) = q - k + x from by omega] at h3
  rw [← h3]

/-- A shorter border is a border of a longer border of the same prefix. -/
theorem borderP_sub {pat : List Nat} {q a b : Nat}
    (ha : borderP pat q a) (hb : borderP pat q b) (hab : a < b) : borderP pat b a := by
  obtain ⟨ha1, ha2⟩ := ha
  obtain ⟨hb1, hb2⟩ := hb
  refine ⟨hab, ?_⟩
  intro x hx
  rw [ha2 x hx]
  have h3 := hb2 (b - a + x) (by omega)
  rw [show q - b + (b - a + x) = q - a + x from by omega] at h3
  rw [← h3]

/-- A border extends by one matching byte. -/
theorem borderP_ext {pat : List Nat} {q l : Nat} (h : borderP pat q l)
    (he : toLower (pat.getD l 0) = toLower (pat.getD q 0)) :
    borderP pat (q + 1) (l + 1) := by
  obtain ⟨h1, h2⟩ := h
  refine ⟨by omega, ?_⟩
  intro x hx
  by_cases hxl : x < l
  · have h3 := h2 x hxl
    rw [show q + 1 - (l + 1) + x = q - l + x from by omega]
    exact h3
  · have hxe : x = l := by omega
    subst hxe
    rw [show q + 1 - (x + 1) + x = q from by omega]
    exact he

/-- A nonempty border decomposes into one shorter border plus a matching
byte. -/
theorem borderP_dec {pat : List Nat} {q b : Nat} (h : borderP pat (q + 1) (b + 1)) :
    borderP pat q b ∧ toLower (pat.getD b 0) = toLower (pat.getD q 0) := by
  obtain ⟨h1, h2⟩ := h
  constructor
  · refine ⟨by omega, ?_⟩
    intro x hx
    have h3 := h2 x (by omega)
    rw [show q + 1 - (b + 1) + x = q - b + x from by omega] at h3
    exact h3
  · have h3 := h2 b (by omega)
    rw [show q + 1 - (b + 1) + b = q from by omega] at h3
    exact h3

/-- Invariant proof of the computeLPS while loop: len is a border of the
prefix ending at i, no border of the next prefix exceeds len+1, the table
below i holds longest borders, and the supplied fuel (bounded through the
classic 2i - len potential) suffices to finish; on exit every table entry
is the longest proper fold-border of its prefix. -/
theorem computeLPSLoop_spec (pat : List Nat) (m : Nat) :
    ∀ (fuel : Nat) (lps : List Nat) (len i : Nat),
    1 ≤ i → i ≤ m → len < i → lps.length = m →
    borderP pat i len →
    (∀ b, borderP pat (i + 1) b → b ≤ len + 1) →
    (∀ q, q < i → isLB pat (q + 1) (lps.getD q 0)) →
    2 * (m - i) + len + 1 ≤ fuel →
    ∀ q, q < m → isLB pat (q + 1) ((computeLPSLoop pat m fuel lps len i).getD q 0) := by
  intro fuel
  induction fuel with
  | zero =>
    intro lps len i h1 h2 h3 h4 h5 h6 h7 hf
    omega
  | succ fuel ih =>
    intro lps len i h1 h2 h3 h4 h5 h6 h7 hf
    by_cases him : i < m
    · show ∀ q, q < m → isLB pat (q + 1)
        ((if i < m then
            if toLower (pat.getD i 0) = toLower (pat.getD len 0) then
              computeLPSLoop pat m fuel (lps.set i (len + 1)) (len + 1) (i + 1)
            else if len ≠ 0 then
              computeLPSLoop pat m fuel lps (lps.getD (len - 1) 0) i
            else
              computeLPSLoop pat m fuel (lps.set i 0) len (i + 1)
          else lps).getD q 0)
      rw [if_pos him]
      by_cases hfold : toLower (pat.getD i 0) = toLower (pat.getD len 0)
      · rw [if_pos hfold]
        have hbext : borderP pat (i + 1) (len + 1) := borderP_ext h5 hfold.symm
        have htab : ∀ q, q < i + 1 → isLB pat (q + 1) ((lps.set i (len + 1)).getD q 0) := by
          intro q hq
          by_cases hqi : q = i
          · subst hqi
            rw [getD_set, if_pos ⟨rfl, by omega⟩]
            exact ⟨hbext, h6⟩
          · rw [getD_set, if_neg (by omega)]
            exact h7 q (by omega)
        apply ih (lps.set i (len + 1)) (len + 1) (i + 1) (by omega) (by omega) (by omega)
          (by rw [List.length_set]; omega) hbext ?_ htab (by omega)
        intro b hb
        rcases b with _ | b
        · omega
        · obtain ⟨hb1, hb2⟩ := borderP_dec hb
          have := h6 b hb1
          omega
      · rw [if_neg hfold]
        by_cases hlen0 : len ≠ 0
        · rw [if_pos hlen0]
          obtain ⟨hLb, hLub⟩ := h7 (len - 1) (by omega)
          rw [show len - 1 + 1 = len from by omega] at hLb hLub
          apply ih lps (lps.getD (len - 1) 0) i h1 h2 (by have := hLb.1; omega) h4
            (borderP_trans h5 hLb) ?_ h7 (by have := hLb.1; omega)
          intro b hb
          rcases b with _ | b
          · omega
          · obtain ⟨hb1, hb2⟩ := borderP_dec hb
            have hble : b ≤ len := by have := h6 (b + 1) hb; omega
            by_cases hbl : b = len
            · subst hbl
              exact absurd (hb2.trans rfl).symm hfold
            · have hblt : b < len := by omega
              rcases Nat.eq_zero_or_pos b with hb0 | hb0
              · have := hLb.1
                omega
              · have hsub := borderP_sub hb1 h5 hblt
                have := hLub b hsub
                omega
        · rw [if_neg hlen0]
          have hlz : len = 0 := by omega
          have hone : ∀ l, borderP pat (i + 1) l → l ≤ 0 := by
            intro l hl
            rcases l with _ | l
            · omega
            · obtain ⟨hl1, hl2⟩ := borderP_dec hl
              have hle : l ≤ len := by have := h6 (l + 1) hl; omega
              have hl0 : l = 0 := by omega
              subst hl0
              rw [hlz] at hfold
              exact absurd hl2.symm hfold
          have htab : ∀ q, q < i + 1 → isLB pat (q + 1) ((lps.set i 0).getD q 0) := by
            intro q hq
            by_cases hqi : q = i
            · subst hqi
              rw [getD_set, if_pos ⟨rfl, by omega⟩]
              exact ⟨⟨by omega, by omega⟩, hone⟩
            · rw [getD_set, if_neg (by omega)]
              exact h7 q (by omega)
          apply ih (lps.set i 0) len (i + 1) (by omega) (by omega) (by omega)
            (by rw [List.length_set]; omega) ⟨by omega, by omega⟩ ?_ htab (by omega)
          intro b hb
          rcases b with _ | b
          · omega
          · obtain ⟨hb1, hb2⟩ := borderP_dec hb
            have := hone b hb1
            omega
    · show ∀ q, q < m → isLB pat (q + 1)
        ((if i < m then
            if toLower (pat.getD i 0) = toLower (pat.getD len 0) then
              computeLPSLoop pat m fuel (lps.set i (len + 1)) (len + 1) (i + 1)
            else if len ≠ 0 then
              computeLPSLoop pat m fuel lps (lps.getD (len - 1) 0) i
            else
              computeLPSLoop pat m fuel (lps.set i 0) len (i + 1)
          else lps).getD q 0)
      rw [if_neg him]
      intro q hq
      exact h7 q (by omega)

/-- The table computeLPS builds holds, for every pattern prefix, the
length of its longest proper case-folded border. -/
theorem computeLPS_spec (pat : List Nat) (m : Nat) (hm : 1 ≤ m) :
    ∀ q, q < m → isLB pat (q + 1) ((computeLPS pat m).getD q 0) := by
  unfold computeLPS
  apply computeLPSLoop_spec pat m (2 * m) _ 0 1 (by omega) (by omega) (by omega)
    (by rw [List.length_set, List.length_replicate]) ⟨by omega, by omega⟩ ?_ ?_ (by omega)
  · intro b hb
    have := hb.1
    omega
  · intro q hq
    have hq0 : q = 0 := by omega
    subst hq0
    have hv : ((List.replicate m 0).set 0 0).getD 0 0 = 0 := by
      rw [getD_set, if_pos ⟨rfl, by rw [List.length_replicate]; omega⟩]
    rw [hv]
    refine ⟨⟨by omega, by omega⟩, ?_⟩
    intro l hl
    have := hl.1
    omega

/-- The inner loop of the naive fallback, characterized: every needle
index passed over fold-matched against the haystack, and the stopping
index fails the loop guard. -/
theorem naiveInner_spec (hay pat : List Nat) : ∀ (fue hi ni : Nat),
    hay.length - hi ≤ fue →
    ni ≤ naiveInner hay pat hi ni ∧
    (∀ x, ni ≤ x → x < naiveInner hay pat hi ni →
      hay.getD (hi + (x - ni)) 0 ≠ 0 ∧ pat.getD x 0 ≠ 0 ∧
        toLower (hay.getD (hi + (x - ni)) 0) = toLower (pat.getD x 0)) ∧
    ¬(hay.getD (hi + (naiveInner hay pat hi ni - ni)) 0 ≠ 0 ∧
      pat.getD (naiveInner hay pat hi ni) 0 ≠ 0 ∧
      toLower (hay.getD (hi + (naiveInner hay pat hi ni - ni)) 0) =
        toLower (pat.getD (naiveInner hay pat hi ni) 0)) := by
  intro fue
  induction fue with
  | zero =>
    intro hi ni hf
    have hz : hay.getD hi 0 = 0 := List.getD_eq_default _ _ (by omega)
    have hstop : naiveInner hay pat hi ni = ni := by
      rw [naiveInner, if_neg (fun hg => hg.1 hz)]
    rw [hstop]
    refine ⟨le_refl _, by omega, ?_⟩
    rw [show ni - ni = 0 from by omega, Nat.add_zero]
    intro hg
    exact hg.1 hz
  | succ fue ih =>
    intro hi ni hf
    by_cases hg : hay.getD hi 0 ≠ 0 ∧ pat.getD ni 0 ≠ 0 ∧
        toLower (hay.getD hi 0) = toLower (pat.getD ni 0)
    · have hstep : naiveInner hay pat hi ni = naiveInner hay pat (hi + 1) (ni + 1) := by
        rw [naiveInner, if_pos hg]
      have hhi : hi < hay.length := by
        by_contra hcon
        exact hg.1 (List.getD_eq_default _ _ (by omega))
      obtain ⟨p1, p2, p3⟩ := ih (hi + 1) (ni + 1) (by omega)
      rw [hstep]
      refine ⟨by omega, ?_, ?_⟩
      · intro x hx1 hx2
        by_cases hxe : x = ni
        · subst hxe
          rw [show x - x = 0 from by omega, Nat.add_zero]
          exact hg
        · have hp := p2 x (by omega) hx2
          rw [show hi + 1 + (x - (ni + 1)) = hi + (x - ni) from by omega] at hp
          exact hp
      · rw [show hi + (naiveInner hay pat (hi + 1) (ni + 1) - ni) =
          hi + 1 + (naiveInner hay pat (hi + 1) (ni + 1) - (ni + 1)) from by omega]
        exact p3
    · have hstop : naiveInner hay pat hi ni = ni := by
        rw [naiveInner, if_neg hg]
      rw [hstop]
      refine ⟨le_refl _, by omega, ?_⟩
      rw [show ni - ni = 0 from by omega, Nat.add_zero]
      exact hg

/-- The naive first-byte-filtered scan returns exactly the leftmost
fold-match at or after its start offset. -/
theorem naiveLoop_spec (hay pat : List Nat) (hh : ∀ b ∈ hay, b ≠ 0)
    (hp : ∀ b ∈ pat, b ≠ 0) (hm : 1 ≤ pat.length) :
    ∀ (fue s : Nat), hay.length - s ≤ fue →
      searchSpecP hay pat s (naiveLoop hay pat s) := by
  intro fue
  induction fue with
  | zero =>
    intro s hf
    have hz : hay.getD s 0 = 0 := List.getD_eq_default _ _ (by omega)
    have hstop : naiveLoop hay pat s = none := by
      rw [naiveLoop, if_neg (by simpa using hz)]
    rw [hstop]
    intro t ht hmt
    have hb := matchAt_bound hh hp hm hmt
    omega
  | succ fue ih =>
    intro s hf
    by_cases hgs : hay.getD s 0 = 0
    · have hstop : naiveLoop hay pat s = none := by
        rw [naiveLoop, if_neg (by simpa using hgs)]
      rw [hstop]
      intro t ht hmt
      have hb := matchAt_bound hh hp hm hmt
      rw [zf_getD hay hh] at hgs
      omega
    · have hs : s < hay.length := by
        by_contra hcon
        exact hgs (List.getD_eq_default _ _ (by omega))
      by_cases hfirst : toLower (hay.getD s 0) = toLower (pat.getD 0 0)
      · obtain ⟨p1, p2, p3⟩ := naiveInner_spec hay pat (hay.length - s) (s + 1) 1
          (by omega)
        by_cases hni : pat.getD (naiveInner hay pat (s + 1) 1) 0 = 0
        · have hres : naiveLoop hay pat s = some s := by
            rw [naiveLoop, if_pos hgs, if_pos hfirst]
            simp only []
            rw [if_pos hni]
          rw [hres]
          refine ⟨le_refl _, ?_, by omega⟩
          have hnim : pat.length ≤ naiveInner hay pat (s + 1) 1 := by
            rw [zf_getD pat hp] at hni
            exact hni
          intro x hx
          by_cases hx0 : x = 0
          · subst hx0
            rw [Nat.add_zero]
            exact hfirst
          · have hpx := p2 x (by omega) (by omega)
            rw [show s + 1 + (x - 1) = s + x from by omega] at hpx
            exact hpx.2.2
        · have hres : naiveLoop hay pat s = naiveLoop hay pat (s + 1) := by
            rw [naiveLoop, if_pos hgs, if_pos hfirst]
            simp only []
            rw [if_neg hni]
          have hnm : ¬ matchAt hay pat s := by
            intro hmt
            have hnilt : naiveInner hay pat (s + 1) 1 < pat.length := by
              by_contra hcon
              rw [zf_getD pat hp] at hni
              omega
            apply p3
            refine ⟨?_, hni, ?_⟩
            · have hb := matchAt_bound hh hp hm hmt
              rw [ne_eq, zf_getD hay hh]
              omega
            · have hx := hmt (naiveInner hay pat (s + 1) 1) hnilt
              rw [show s + 1 + (naiveInner hay pat (s + 1) 1 - 1) =
                s + naiveInner hay pat (s + 1) 1 from by omega]
              exact hx
          have hrec := ih (s + 1) (by omega)
          rw [hres]
          rcases hcase : naiveLoop hay pat (s + 1) with _ | r
          · rw [hcase] at hrec
            intro t ht
            by_cases hts : t = s
            · subst hts
              exact hnm
            · exact hrec t (by omega)
          · rw [hcase] at hrec
            refine ⟨le_trans (by omega) hrec.1, hrec.2.1, ?_⟩
            intro t ht1 ht2
            by_cases hts : t = s
            · subst hts
              exact hnm
            · exact hrec.2.2 t (by omega) ht2
      · have hres : naiveLoop hay pat s = naiveLoop hay pat (s + 1) := by
          rw [naiveLoop, if_pos hgs, if_neg hfirst]
        have hnm : ¬ matchAt hay pat s := by
          intro hmt
          have hx := hmt 0 (by omega)
          rw [Nat.add_zero] at hx
          exact hfirst hx
        have hrec := ih (s + 1) (by omega)
        rw [hres]
        rcases hcase : naiveLoop hay pat (s + 1) with _ | r
        · rw [hcase] at hrec
          intro t ht
          by_cases hts : t = s
          · subst hts
            exact hnm
          · exact hrec t (by omega)
        · rw [hcase] at hrec
          refine ⟨le_trans (by omega) hrec.1, hrec.2.1, ?_⟩
          intro t ht1 ht2
          by_cases hts : t = s
          · subst hts
            exact hnm
          · exact hrec.2.2 t (by omega) ht2

/-- The KMP scan of strcasestr returns exactly the leftmost fold-match:
invariant proof over the scan state (i, j) — the j bytes before i match
the pattern prefix, no match starts before i - j, and on a mismatch the
longest-border table both preserves the matched prefix and rules out any
skipped start position. -/
theorem kmpLoop_spec (hay pat : List Nat) (hh : ∀ b ∈ hay, b ≠ 0)
    (hp : ∀ b ∈ pat, b ≠ 0) (hm1 : 1 ≤ pat.length)
    (lps : List Nat) (hlps : ∀ q, q < pat.length → isLB pat (q + 1) (lps.getD q 0)) :
    ∀ (fuel i j : Nat),
      j ≤ i → j < pat.length → i ≤ hay.length →
      2 * hay.length - (2 * i - j) < fuel →
      (∀ x, x < j → toLower (hay.getD (i - j + x) 0) = toLower (pat.getD x 0)) →
      (∀ t, t < i - j → ¬ matchAt hay pat t) →
      searchSpecP hay pat 0 (kmpLoop hay pat pat.length lps fuel i j) := by
  intro fuel
  induction fuel with
  | zero =>
    intro i j h1 h2 h3 hfu hB hC
    omega
  | succ fuel ih =>
    intro i j hji hjm hiL hfu hB hC
    by_cases hgi : hay.getD i 0 = 0
    · have heq : kmpLoop hay pat pat.length lps (fuel + 1) i j = none := by
        rw [kmpLoop, if_neg (by simpa using hgi)]
      rw [heq]
      intro t _ hmt
      have hiL2 : hay.length ≤ i := by
        rw [← zf_getD hay hh]
        exact hgi
      by_cases hti : t < i - j
      · exact hC t hti hmt
      · have hb := matchAt_bound hh hp hm1 hmt
        omega
    · have hiL2 : i < hay.length := by
        by_contra hcon
        exact hgi (List.getD_eq_default _ _ (by omega))
      by_cases hfold : toLower (hay.getD i 0) = toLower (pat.getD j 0)
      · have hB1 : ∀ x, x < j + 1 →
            toLower (hay.getD (i + 1 - (j + 1) + x) 0) = toLower (pat.getD x 0) := by
          intro x hx
          by_cases hxj : x < j
          · have hb := hB x hxj
            rw [show i + 1 - (j + 1) + x = i - j + x from by omega]
            exact hb
          · have hxe : x = j := by omega
            subst hxe
            rw [show i + 1 - (x + 1) + x = i from by omega]
            exact hfold
        by_cases hjm1 : j + 1 = pat.length
        · have heq : kmpLoop hay pat pat.length lps (fuel + 1) i j =
              some (i + 1 - pat.length) := by
            rw [kmpLoop, if_pos hgi, if_pos hfold]
            simp only []
            rw [if_pos hjm1]
          rw [heq]
          refine ⟨by omega, ?_, ?_⟩
          · intro x hx
            have hb := hB1 x (by omega)
            rw [show i + 1 - pat.length + x = i + 1 - (j + 1) + x from by omega]
            exact hb
          · intro t _ ht2
            apply hC t
            omega
        · by_cases hnext : hay.getD (i + 1) 0 ≠ 0 ∧
              toLower (hay.getD (i + 1) 0) ≠ toLower (pat.getD (j + 1) 0)
          · have heq : kmpLoop hay pat pat.length lps (fuel + 1) i j =
                kmpLoop hay pat pat.length lps fuel (i + 1) (lps.getD j 0) := by
              rw [kmpLoop, if_pos hgi, if_pos hfold]
              simp only []
              rw [if_neg hjm1, if_pos hnext, if_pos (by omega : ¬ j + 1 = 0),
                Nat.add_sub_cancel]
            rw [heq]
            obtain ⟨hLb, hLub⟩ := hlps j hjm
            have hj'lt : lps.getD j 0 < j + 1 := hLb.1
            apply ih (i + 1) (lps.getD j 0) (by omega) (by omega) (by omega) (by omega)
            · intro x hx
              have h1 := hB1 ((j + 1) - lps.getD j 0 + x) (by omega)
              rw [show i + 1 - (j + 1) + ((j + 1) - lps.getD j 0 + x) =
                i + 1 - lps.getD j 0 + x from by omega] at h1
              rw [h1]
              exact (hLb.2 x hx).symm
            · intro t ht hmt
              by_cases ht1 : t < i - j
              · exact hC t ht1 hmt
              · by_cases hte : t = i - j
                · subst hte
                  have hx := hmt (j + 1) (by omega)
                  rw [show i - j + (j + 1) = i + 1 from by omega] at hx
                  exact hnext.2 hx
                · have hbord : borderP pat (j + 1) (i + 1 - t) := by
                    refine ⟨by omega, ?_⟩
                    intro x hx
                    have h1 := hmt x (by omega)
                    have h2 := hB1 ((j + 1) - (i + 1 - t) + x) (by omega)
                    rw [show i + 1 - (j + 1) + ((j + 1) - (i + 1 - t) + x) =
                      t + x from by omega] at h2
                    exact h1.symm.trans h2
                  have := hLub _ hbord
                  omega
          · have heq : kmpLoop hay pat pat.length lps (fuel + 1) i j =
                kmpLoop hay pat pat.length lps fuel (i + 1) (j + 1) := by
              rw [kmpLoop, if_pos hgi, if_pos hfold]
              simp only []
              rw [if_neg hjm1, if_neg hnext]
            rw [heq]
            apply ih (i + 1) (j + 1) (by omega) (by omega) (by omega) (by omega) hB1
            intro t ht
            exact hC t (by omega)
      · by_cases hj0 : j = 0
        · subst hj0
          have heq : kmpLoop hay pat pat.length lps (fuel + 1) i 0 =
              kmpLoop hay pat pat.length lps fuel (i + 1) 0 := by
            rw [kmpLoop, if_pos hgi, if_neg hfold]
            simp only []
            rw [if_neg (by omega : ¬ (0 : Nat) = pat.length), if_pos ⟨hgi, hfold⟩,
              if_neg (by omega : ¬ (0 : Nat) ≠ 0)]
          rw [heq]
          apply ih (i + 1) 0 (by omega) (by omega) (by omega) (by omega) (by omega)
          intro t ht hmt
          by_cases hti : t < i
          · exact hC t (by omega) hmt
          · have hte : t = i := by omega
            subst hte
            have hx := hmt 0 hm1
            rw [Nat.add_zero] at hx
            exact hfold hx
        · have heq : kmpLoop hay pat pat.length lps (fuel + 1) i j =
              kmpLoop hay pat pat.length lps fuel i (lps.getD (j - 1) 0) := by
            rw [kmpLoop, if_pos hgi, if_neg hfold]
            simp only []
            rw [if_neg (by omega : ¬ j = pat.length), if_pos ⟨hgi, hfold⟩, if_pos hj0]
          rw [heq]
          obtain ⟨hLb, hLub⟩ := hlps (j - 1) (by omega)
          rw [show j - 1 + 1 = j from by omega] at hLb hLub
          have hj'lt : lps.getD (j - 1) 0 < j := hLb.1
          apply ih i (lps.getD (j - 1) 0) (by omega) (by omega) (by omega) (by omega)
          · intro x hx
            have h1 := hB (j - lps.getD (j - 1) 0 + x) (by omega)
            rw [show i - j + (j - lps.getD (j - 1) 0 + x) =
              i - lps.getD (j - 1) 0 + x from by omega] at h1
            rw [h1]
            exact (hLb.2 x hx).symm
          · intro t ht hmt
            by_cases ht1 : t < i - j
            · exact hC t ht1 hmt
            · by_cases hte : t = i - j
              · subst hte
                have hx := hmt j hjm
                rw [show i - j + j = i from by omega] at hx
                exact hfold hx
              · have hbord : borderP pat j (i - t) := by
                  refine ⟨by omega, ?_⟩
                  intro x hx
                  have h1 := hmt x (by omega)
                  have h2 := hB (j - (i - t) + x) (by omega)
                  rw [show i - j + (j - (i - t) + x) = t + x from by omega] at h2
                  exact h1.symm.trans h2
                have := hLub _ hbord
                omega

/-- C5: for every zero-free haystack and every zero-free needle of length
between 1 and 64 bytes, the KMP path that strcasestr takes (failure table
over the folded pattern plus the KMP scan) returns exactly what the naive
first-byte-filtered case-insensitive scan returns: both compute the
leftmost case-folded match position. -/
theorem strcasestr_kmp_eq_naive (hay pat : List Nat)
    (hh : ∀ b ∈ hay, b ≠ 0) (hp : ∀ b ∈ pat, b ≠ 0)
    (hm1 : 1 ≤ pat.length) (hm64 : pat.length ≤ 64) :
    strcasestr hay pat = naiveLoop hay pat 0 := by
  have hp0 : ¬ pat.getD 0 0 = 0 := by
    rw [zf_getD pat hp]
    omega
  unfold strcasestr
  rw [if_neg hp0]
  simp only []
  rw [if_pos hm64]
  exact searchSpecP_unique
    (kmpLoop_spec hay pat hh hp hm1 (computeLPS pat pat.length)
      (computeLPS_spec pat pat.length hm1) (2 * hay.length + 1) 0 0
      (by omega) (by omega) (by omega) (by omega) (by omega) (by omega))
    (naiveLoop_spec hay pat hh hp hm1 hay.length 0 (by omega))

theorem strcasestr_kmp_eq_naive_witness :
    strcasestr [97, 66, 65] [98, 97] = naiveLoop [97, 66, 65] [98, 97] 0 :=
  strcasestr_kmp_eq_naive [97, 66, 65] [98, 97] (by decide) (by decide)
    (by decide) (by decide)

/-- The leftmost byte-exact characterization determines the result. -/
theorem searchSpecE_unique {hay pat : List Nat} {s : Nat} {o1 o2 : Option Nat}
    (h1 : searchSpecE hay pat s o1) (h2 : searchSpecE hay pat s o2) : o1 = o2 := by
  cases o1 with
  | none =>
    cases o2 with
    | none => rfl
    | some r2 => exact absurd h2.2.1 (h1 r2 h2.1)
  | some r1 =>
    cases o2 with
    | none => exact absurd h1.2.1 (h2 r1 h1.1)
    | some r2 =>
      rcases Nat.lt_trichotomy r1 r2 with h | h | h
      · exact absurd h1.2.1 (h2.2.2 r1 h1.1 h)
      · rw [h]
      · exact absurd h2.2.1 (h1.2.2 r2 h2.1 h)

/-- Fold-matching in a dropped suffix is fold-matching at the shifted
offset. -/
theorem matchAt_drop (c pat : List Nat) (pos t : Nat) :
    matchAt (c.drop pos) pat t ↔ matchAt c pat (pos + t) := by
  unfold matchAt
  constructor
  · intro h x hx
    have h1 := h x hx
    rw [getD_drop] at h1
    rw [show pos + t + x = pos + (t + x) from by omega]
    exact h1
  · intro h x hx
    have h1 := h x hx
    rw [getD_drop]
    rw [show pos + (t + x) = pos + t + x from by omega]
    exact h1

/-- Exact matching in a dropped suffix is exact matching at the shifted
offset. -/
theorem matchAtE_drop (c pat : List Nat) (hm : 1 ≤ pat.length) (pos t : Nat) :
    matchAtE (c.drop pos) pat t ↔ matchAtE c pat (pos + t) := by
  unfold matchAtE
  rw [List.length_drop]
  constructor
  · intro ⟨hb, h⟩
    refine ⟨by omega, ?_⟩
    intro x hx
    have h1 := h x hx
    rw [getD_drop] at h1
    rw [show pos + t + x = pos + (t + x) from by omega]
    exact h1
  · intro ⟨hb, h⟩
    refine ⟨by omega, ?_⟩
    intro x hx
    have h1 := h x hx
    rw [getD_drop]
    rw [show pos + (t + x) = pos + t + x from by omega]
    exact h1

/-- A leftmost fold-search over the suffix at pos is the leftmost
fold-search from pos, shifted. -/
theorem searchSpecP_lift {c pat : List Nat} {pos : Nat} {o : Option Nat}
    (h : searchSpecP (c.drop pos) pat 0 o) :
    searchSpecP c pat pos (o.map (fun off => pos + off)) := by
  cases o with
  | none =>
    intro t ht hmt
    apply h (t - pos) (by omega)
    rw [matchAt_drop, show pos + (t - pos) = t from by omega]
    exact hmt
  | some off =>
    show searchSpecP c pat pos (some (pos + off))
    refine ⟨by omega, ?_, ?_⟩
    · rw [← matchAt_drop]
      exact h.2.1
    · intro t ht1 ht2 hmt
      apply h.2.2 (t - pos) (by omega) (by omega)
      rw [matchAt_drop, show pos + (t - pos) = t from by omega]
      exact hmt

/-- A leftmost exact search over the suffix at pos is the leftmost exact
search from pos, shifted. -/
theorem searchSpecE_lift {c pat : List Nat} (hm : 1 ≤ pat.length) {pos : Nat}
    {o : Option Nat} (h : searchSpecE (c.drop pos) pat 0 o) :
    searchSpecE c pat pos (o.map (fun off => pos + off)) := by
  cases o with
  | none =>
    intro t ht hmt
    apply h (t - pos) (by omega)
    rw [matchAtE_drop c pat hm, show pos + (t - pos) = t from by omega]
    exact hmt
  | some off =>
    show searchSpecE c pat pos (some (pos + off))
    refine ⟨by omega, ?_, ?_⟩
    · rw [← matchAtE_drop c pat hm]
      exact h.2.1
    · intro t ht1 ht2 hmt
      apply h.2.2 (t - pos) (by omega) (by omega)
      rw [matchAtE_drop c pat hm, show pos + (t - pos) = t from by omega]
      exact hmt

/-- strcasestr (either path) returns the leftmost fold-match. -/
theorem strcasestr_searchSpec (hay pat : List Nat) (hh : ∀ b ∈ hay, b ≠ 0)
    (hp : ∀ b ∈ pat, b ≠ 0) (hm1 : 1 ≤ pat.length) :
    searchSpecP hay pat 0 (strcasestr hay pat) := by
  have hp0 : ¬ pat.getD 0 0 = 0 := by
    rw [zf_getD pat hp]
    omega
  unfold strcasestr
  rw [if_neg hp0]
  simp only []
  by_cases h64 : pat.length ≤ 64
  · rw [if_pos h64]
    exact kmpLoop_spec hay pat hh hp hm1 (computeLPS pat pat.length)
      (computeLPS_spec pat pat.length hm1) (2 * hay.length + 1) 0 0
      (by omega) (by omega) (by omega) (by omega) (by omega) (by omega)
  · rw [if_neg h64]
    exact naiveLoop_spec hay pat hh hp hm1 hay.length 0 (by omega)

/-- The modelled strstr scan returns the leftmost exact match at or after
its start offset. -/
theorem strstrLoop_spec (hay pat : List Nat) :
    ∀ (fue s : Nat), hay.length + 1 - s ≤ fue →
      searchSpecE hay pat s (strstrLoop hay pat s) := by
  intro fue
  induction fue with
  | zero =>
    intro s hf
    have heq : strstrLoop hay pat s = none := by
      rw [strstrLoop, if_neg (by omega)]
    rw [heq]
    intro t ht hmt
    have hb := hmt.1
    omega
  | succ fue ih =>
    intro s hf
    by_cases hg : s + pat.length ≤ hay.length
    · by_cases hpre : pat.isPrefixOf (hay.drop s)
      · have heq : strstrLoop hay pat s = some s := by
          rw [strstrLoop, if_pos hg, if_pos hpre]
        rw [heq]
        refine ⟨le_refl _, ⟨hg, ?_⟩, by omega⟩
        have hpfx : pat <+: hay.drop s := List.isPrefixOf_iff_prefix.mp hpre
        have htake : (hay.drop s).take pat.length = pat :=
          (List.prefix_iff_eq_take.mp hpfx).symm
        intro x hx
        have h1 : ((hay.drop s).take pat.length).getD x 0 = pat.getD x 0 := by
          rw [htake]
        rw [getD_take hx, getD_drop] at h1
        exact h1
      · have heq : strstrLoop hay pat s = strstrLoop hay pat (s + 1) := by
          rw [strstrLoop, if_pos hg, if_neg hpre]
        rw [heq]
        have hnm : ¬ matchAtE hay pat s := by
          intro hmt
          apply hpre
          rw [List.isPrefixOf_iff_prefix]
          rw [List.prefix_iff_eq_take]
          apply ext_getD
          · rw [List.length_take, List.length_drop]
            omega
          · intro j hj
            have hj2 : j < pat.length := by omega
            rw [getD_take hj2, getD_drop]
            exact (hmt.2 j hj2).symm
        have hrec := ih (s + 1) (by omega)
        rcases hcase : strstrLoop hay pat (s + 1) with _ | r
        · rw [hcase] at hrec
          intro t ht
          by_cases hts : t = s
          · subst hts
            exact hnm
          · exact hrec t (by omega)
        · rw [hcase] at hrec
          refine ⟨le_trans (by omega) hrec.1, hrec.2.1, ?_⟩
          intro t ht1 ht2
          by_cases hts : t = s
          · subst hts
            exact hnm
          · exact hrec.2.2 t (by omega) ht2
    · have heq : strstrLoop hay pat s = none := by
        rw [strstrLoop, if_neg hg]
      rw [heq]
      intro t ht hmt
      have hb := hmt.1
      omega

/-- The modelled strchr scan returns the leftmost occurrence of its byte,
i.e. the leftmost exact match of the one-byte pattern. -/
theorem strchrLoop_spec (hay : List Nat) (pat : List Nat) (c : Nat)
    (hpl : pat.length = 1) (hpc : pat.getD 0 0 = c) :
    ∀ (fue s : Nat), hay.length - s ≤ fue →
      searchSpecE hay pat s (strchrLoop hay c s) := by
  intro fue
  induction fue with
  | zero =>
    intro s hf
    have heq : strchrLoop hay c s = none := by
      rw [strchrLoop, if_neg (by omega)]
    rw [heq]
    intro t ht hmt
    have hb := hmt.1
    omega
  | succ fue ih =>
    intro s hf
    by_cases hg : s < hay.length
    · by_cases hc : hay.getD s 0 = c
      · have heq : strchrLoop hay c s = some s := by
          rw [strchrLoop, if_pos hg, if_pos hc]
        rw [heq]
        refine ⟨le_refl _, ⟨by omega, ?_⟩, by omega⟩
        intro x hx
        have hx0 : x = 0 := by omega
        subst hx0
        rw [Nat.add_zero, hpc]
        exact hc
      · have heq : strchrLoop hay c s = strchrLoop hay c (s + 1) := by
          rw [strchrLoop, if_pos hg, if_neg hc]
        rw [heq]
        have hnm : ¬ matchAtE hay pat s := by
          intro hmt
          have h1 := hmt.2 0 (by omega)
          rw [Nat.add_zero, hpc] at h1
          exact hc h1
        have hrec := ih (s + 1) (by omega)
        rcases hcase : strchrLoop hay c (s + 1) with _ | r
        · rw [hcase] at hrec
          intro t ht
          by_cases hts : t = s
          · subst hts
            exact hnm
          · exact hrec t (by omega)
        · rw [hcase] at hrec
          refine ⟨le_trans (by omega) hrec.1, hrec.2.1, ?_⟩
          intro t ht1 ht2
          by_cases hts : t = s
          · subst hts
            exact hnm
          · exact hrec.2.2 t (by omega) ht2
    · have heq : strchrLoop hay c s = none := by
        rw [strchrLoop, if_neg hg]
      rw [heq]
      intro t ht hmt
      have hb := hmt.1
      omega

/-- getD through map toLower, in range. -/
theorem map_toLower_getD (l : List Nat) (j : Nat) (hj : j < l.length) :
    (l.map toLower).getD j 0 = toLower (l.getD j 0) := by
  rw [List.getD_eq_getElem _ _ (by rw [List.length_map]; omega),
    List.getD_eq_getElem _ _ hj, List.getElem_map]

/-- One unfolding of the spec-worded search, case-insensitive. -/
theorem specSearch_true (hay pat : List Nat) (pos : Nat) :
    specSearch true hay pat pos =
      if pos + pat.length ≤ hay.length then
        (if ((hay.drop pos).take pat.length).map toLower = pat.map toLower
         then some pos else specSearch true hay pat (pos + 1))
      else none := by
  rw [specSearch]
  simp only [eq_self_iff_true, if_true]

/-- One unfolding of the spec-worded search, case-sensitive. -/
theorem specSearch_false (hay pat : List Nat) (pos : Nat) :
    specSearch false hay pat pos =
      if pos + pat.length ≤ hay.length then
        (if (hay.drop pos).take pat.length = pat
         then some pos else specSearch false hay pat (pos + 1))
      else none := by
  rw [specSearch]
  simp only [Bool.false_eq_true, if_false]

/-- The spec-worded case-insensitive search returns the leftmost
fold-match at or after pos (zero-free inputs). -/
theorem specSearch_specP (hay pat : List Nat) (hh : ∀ b ∈ hay, b ≠ 0)
    (hp : ∀ b ∈ pat, b ≠ 0) (hm : 1 ≤ pat.length) :
    ∀ (fue pos : Nat), hay.length + 1 - pos ≤ fue →
      searchSpecP hay pat pos (specSearch true hay pat pos) := by
  intro fue
  induction fue with
  | zero =>
    intro pos hf
    rw [specSearch_true, if_neg (by omega)]
    intro t ht hmt
    have hb := matchAt_bound hh hp hm hmt
    omega
  | succ fue ih =>
    intro pos hf
    by_cases hg : pos + pat.length ≤ hay.length
    · by_cases hcond : ((hay.drop pos).take pat.length).map toLower = pat.map toLower
      · rw [specSearch_true, if_pos hg, if_pos hcond]
        refine ⟨le_refl _, ?_, by omega⟩
        intro x hx
        have h1 : (((hay.drop pos).take pat.length).map toLower).getD x 0 =
            (pat.map toLower).getD x 0 := by
          rw [hcond]
        rw [map_toLower_getD _ _ (by rw [List.length_take, List.length_drop]; omega),
          map_toLower_getD _ _ (by omega), getD_take hx, getD_drop] at h1
        exact h1
      · rw [specSearch_true, if_pos hg, if_neg hcond]
        have hnm : ¬ matchAt hay pat pos := by
          intro hmt
          apply hcond
          apply ext_getD
          · rw [List.length_map, List.length_map, List.length_take, List.length_drop]
            omega
          · intro j hj
            rw [List.length_map, List.length_take, List.length_drop] at hj
            have hj2 : j < pat.length := by omega
            rw [map_toLower_getD _ _ (by rw [List.length_take, List.length_drop]; omega),
              map_toLower_getD _ _ hj2, getD_take hj2, getD_drop]
            exact hmt j hj2
        have hrec := ih (pos + 1) (by omega)
        rcases hcase : specSearch true hay pat (pos + 1) with _ | r
        · rw [hcase] at hrec
          intro t ht
          by_cases hts : t = pos
          · subst hts
            exact hnm
          · exact hrec t (by omega)
        · rw [hcase] at hrec
          refine ⟨le_trans (by omega) hrec.1, hrec.2.1, ?_⟩
          intro t ht1 ht2
          by_cases hts : t = pos
          · subst hts
            exact hnm
          · exact hrec.2.2 t (by omega) ht2
    · rw [specSearch_true, if_neg hg]
      intro t ht hmt
      have hb := matchAt_bound hh hp hm hmt
      omega

/-- The spec-worded case-sensitive search returns the leftmost exact match
at or after pos. -/
theorem specSearch_specE (hay pat : List Nat) :
    ∀ (fue pos : Nat), hay.length + 1 - pos ≤ fue →
      searchSpecE hay pat pos (specSearch false hay pat pos) := by
  intro fue
  induction fue with
  | zero =>
    intro pos hf
    rw [specSearch_false, if_neg (by omega)]
    intro t ht hmt
    have hb := hmt.1
    omega
  | succ fue ih =>
    intro pos hf
    by_cases hg : pos + pat.length ≤ hay.length
    · by_cases hcond : (hay.drop pos).take pat.length = pat
      · rw [specSearch_false, if_pos hg, if_pos hcond]
        refine ⟨le_refl _, ⟨hg, ?_⟩, by omega⟩
        intro x hx
        have h1 : ((hay.drop pos).take pat.length).getD x 0 = pat.getD x 0 := by
          rw [hcond]
        rw [getD_take hx, getD_drop] at h1
        exact h1
      · rw [specSearch_false, if_pos hg, if_neg hcond]
        have hnm : ¬ matchAtE hay pat pos := by
          intro hmt
          apply hcond
          apply ext_getD
          · rw [List.length_take, List.length_drop]
            omega
          · intro j hj
            rw [List.length_take, List.length_drop] at hj
            have hj2 : j < pat.length := by omega
            rw [getD_take hj2, getD_drop]
            exact hmt.2 j hj2
        have hrec := ih (pos + 1) (by omega)
        rcases hcase : specSearch false hay pat (pos + 1) with _ | r
        · rw [hcase] at hrec
          intro t ht
          by_cases hts : t = pos
          · subst hts
            exact hnm
          · exact hrec t (by omega)
        · rw [hcase] at hrec
          refine ⟨le_trans (by omega) hrec.1, hrec.2.1, ?_⟩
          intro t ht1 ht2
          by_cases hts : t = pos
          · subst hts
            exact hnm
          · exact hrec.2.2 t (by omega) ht2
    · rw [specSearch_false, if_neg hg]
      intro t ht hmt
      have hb := hmt.1
      omega

/-- The memmove-then-memcpy replacement step of replace, content-level:
moving the tail (terminator included) to q + toLen and copying toStr at q
turns the content slice [0, len) into the spec splice, re-terminates at
the new length, keeps the content zero-free, and preserves the buffer. -/
theorem replace_splice (arr fromStr toStr : List Nat) (len q : Nat)
    (hq : q + fromStr.length ≤ len) (hlen1 : len + 1 ≤ arr.length)
    (hbound : q + toStr.length + (len + 1 - (q + fromStr.length)) ≤ arr.length)
    (hterm : arr.getD len 0 = 0) (hzf : ∀ j, j < len → arr.getD j 0 ≠ 0)
    (htz : ∀ b ∈ toStr, b ≠ 0) :
    (writeAt (writeAt arr (q + toStr.length)
        (sliceL arr (q + fromStr.length) (len + 1))) q toStr).take
        (q + toStr.length + (len - (q + fromStr.length))) =
      (arr.take len).take q ++ toStr ++ (arr.take len).drop (q + fromStr.length) ∧
    (writeAt (writeAt arr (q + toStr.length)
        (sliceL arr (q + fromStr.length) (len + 1))) q toStr).getD
        (q + toStr.length + (len - (q + fromStr.length))) 0 = 0 ∧
    (∀ j, j < q + toStr.length + (len - (q + fromStr.length)) →
      (writeAt (writeAt arr (q + toStr.length)
        (sliceL arr (q + fromStr.length) (len + 1))) q toStr).getD j 0 ≠ 0) ∧
    (writeAt (writeAt arr (q + toStr.length)
        (sliceL arr (q + fromStr.length) (len + 1))) q toStr).length = arr.length := by
  have hslen : (sliceL arr (q + fromStr.length) (len + 1)).length =
      len + 1 - (q + fromStr.length) := by
    unfold sliceL
    rw [List.length_drop, List.length_take]
    omega
  have hb1 : q + toStr.length + (sliceL arr (q + fromStr.length) (len + 1)).length ≤
      arr.length := by
    rw [hslen]
    omega
  have hlenw : (writeAt arr (q + toStr.length)
      (sliceL arr (q + fromStr.length) (len + 1))).length = arr.length :=
    writeAt_length _ _ _
  have hlenw2 : (writeAt (writeAt arr (q + toStr.length)
      (sliceL arr (q + fromStr.length) (len + 1))) q toStr).length = arr.length := by
    rw [writeAt_length, hlenw]
  have hSget : ∀ j, j ≤ len - (q + fromStr.length) →
      (sliceL arr (q + fromStr.length) (len + 1)).getD j 0 =
        arr.getD (q + fromStr.length + j) 0 := by
    intro j hj
    unfold sliceL
    rw [getD_drop, getD_take (by omega)]
  have hE : ∀ i, (writeAt (writeAt arr (q + toStr.length)
      (sliceL arr (q + fromStr.length) (len + 1))) q toStr).getD i 0 =
      if q ≤ i ∧ i < q + toStr.length then toStr.getD (i - q) 0
      else if q + toStr.length ≤ i ∧
          i < q + toStr.length + (sliceL arr (q + fromStr.length) (len + 1)).length then
        (sliceL arr (q + fromStr.length) (len + 1)).getD (i - (q + toStr.length)) 0
      else arr.getD i 0 := by
    intro i
    rw [writeAt_getD toStr _ q i (by rw [hlenw]; omega)]
    rw [writeAt_getD (sliceL arr (q + fromStr.length) (len + 1)) arr (q + toStr.length) i hb1]
  have hctake : (arr.take len).length = len := by
    rw [List.length_take]
    omega
  have hAlen : ((arr.take len).take q).length = q := by
    rw [List.length_take, hctake]
    omega
  refine ⟨?_, ?_, ?_, hlenw2⟩
  · apply ext_getD
    · rw [List.length_take, hlenw2, List.length_append, List.length_append, hAlen,
        List.length_drop, hctake]
      omega
    · intro j hj
      rw [List.length_take, hlenw2] at hj
      have hjL : j < q + toStr.length + (len - (q + fromStr.length)) := by omega
      rw [getD_take hjL, hE j]
      rcases Nat.lt_or_ge j q with h1 | h1
      · rw [if_neg (by omega), if_neg (by omega)]
        rw [List.getD_append _ _ _ _ (by rw [List.length_append, hAlen]; omega)]
        rw [List.getD_append _ _ _ _ (by rw [hAlen]; omega)]
        rw [getD_take h1, getD_take (by omega : j < len)]
      · rcases Nat.lt_or_ge j (q + toStr.length) with h2 | h2
        · rw [if_pos ⟨h1, h2⟩]
          rw [List.getD_append _ _ _ _ (by rw [List.length_append, hAlen]; omega)]
          rw [List.getD_append_right _ _ _ _ (by rw [hAlen]; omega), hAlen]
        · rw [if_neg (by omega), if_pos ⟨h2, by rw [hslen]; omega⟩]
          rw [hSget (j - (q + toStr.length)) (by omega)]
          rw [List.getD_append_right _ _ _ _
            (by rw [List.length_append, hAlen]; omega)]
          rw [List.length_append, hAlen]
          rw [getD_drop]
          rw [getD_take (by omega : q + fromStr.length + (j - (q + toStr.length)) < len)]
  · rw [hE]
    rw [if_neg (by omega), if_pos ⟨by omega, by rw [hslen]; omega⟩]
    rw [hSget (q + toStr.length + (len - (q + fromStr.length)) - (q + toStr.length))
      (by omega)]
    rw [show q + fromStr.length +
      (q + toStr.length + (len - (q + fromStr.length)) - (q + toStr.length)) = len
      from by omega]
    exact hterm
  · intro j hj
    rw [hE j]
    rcases Nat.lt_or_ge j q with h1 | h1
    · rw [if_neg (by omega), if_neg (by omega)]
      exact hzf j (by omega)
    · rcases Nat.lt_or_ge j (q + toStr.length) with h2 | h2
      · rw [if_pos ⟨h1, h2⟩]
        have hmem : toStr.getD (j - q) 0 ∈ toStr := by
          rw [List.getD_eq_getElem _ _ (by omega)]
          exact List.getElem_mem _
        exact htz _ hmem
      · rw [if_neg (by omega), if_pos ⟨h2, by rw [hslen]; omega⟩]
        rw [hSget (j - (q + toStr.length)) (by omega)]
        exact hzf _ (by omega)

/-- The in-place replacement step when the lengths agree: a single memcpy
of toStr at q. -/
theorem replace_splice_eq (arr fromStr toStr : List Nat) (len q : Nat)
    (hq : q + fromStr.length ≤ len) (hlen1 : len + 1 ≤ arr.length)
    (hfl : fromStr.length = toStr.length)
    (hterm : arr.getD len 0 = 0) (hzf : ∀ j, j < len → arr.getD j 0 ≠ 0)
    (htz : ∀ b ∈ toStr, b ≠ 0) :
    (writeAt arr q toStr).take len =
      (arr.take len).take q ++ toStr ++ (arr.take len).drop (q + fromStr.length) ∧
    (writeAt arr q toStr).getD len 0 = 0 ∧
    (∀ j, j < len → (writeAt arr q toStr).getD j 0 ≠ 0) ∧
    (writeAt arr q toStr).length = arr.length := by
  have hE : ∀ i, (writeAt arr q toStr).getD i 0 =
      if q ≤ i ∧ i < q + toStr.length then toStr.getD (i - q) 0 else arr.getD i 0 := by
    intro i
    rw [writeAt_getD toStr arr q i (by omega)]
  have hctake : (arr.take len).length = len := by
    rw [List.length_take]
    omega
  have hAlen : ((arr.take len).take q).length = q := by
    rw [List.length_take, hctake]
    omega
  refine ⟨?_, ?_, ?_, writeAt_length _ _ _⟩
  · apply ext_getD
    · rw [List.length_take, writeAt_length, List.length_append, List.length_append,
        hAlen, List.length_drop, hctake]
      omega
    · intro j hj
      rw [List.length_take, writeAt_length] at hj
      have hjL : j < len := by omega
      rw [getD_take hjL, hE j]
      rcases Nat.lt_or_ge j q with h1 | h1
      · rw [if_neg (by omega)]
        rw [List.getD_append _ _ _ _ (by rw [List.length_append, hAlen]; omega)]
        rw [List.getD_append _ _ _ _ (by rw [hAlen]; omega)]
        rw [getD_take h1, getD_take (by omega : j < len)]
      · rcases Nat.lt_or_ge j (q + toStr.length) with h2 | h2
        · rw [if_pos ⟨h1, h2⟩]
          rw [List.getD_append _ _ _ _ (by rw [List.length_append, hAlen]; omega)]
          rw [List.getD_append_right _ _ _ _ (by rw [hAlen]; omega), hAlen]
        · rw [if_neg (by omega)]
          rw [List.getD_append_right _ _ _ _
            (by rw [List.length_append, hAlen]; omega)]
          rw [List.length_append, hAlen]
          rw [getD_drop]
          rw [getD_take (by omega : q + fromStr.length + (j - (q + toStr.length)) < len)]
          congr 1
          omega
  · rw [hE]
    rw [if_neg (by omega)]
    exact hterm
  · intro j hj
    rw [hE j]
    rcases Nat.lt_or_ge j q with h1 | h1
    · rw [if_neg (by omega)]
      exact hzf j hj
    · rcases Nat.lt_or_ge j (q + toStr.length) with h2 | h2
      · rw [if_pos ⟨h1, h2⟩]
        have hmem : toStr.getD (j - q) 0 ∈ toStr := by
          rw [List.getD_eq_getElem _ _ (by omega)]
          exact List.getElem_mem _
        exact htz _ hmem
      · rw [if_neg (by omega)]
        exact hzf j hj

/-- Zero-freeness restricts to a taken prefix. -/
theorem zf_take (arr : List Nat) (len : Nat) (hcap : len ≤ arr.length)
    (hzf : ∀ j, j < len → arr.getD j 0 ≠ 0) : ∀ b ∈ arr.take len, b ≠ 0 := by
  intro b hb
  obtain ⟨j, hj, hbe⟩ := List.mem_iff_getElem.mp hb
  rw [List.length_take] at hj
  have hj2 : j < len := by omega
  have : (arr.take len)[j] = arr.getD j 0 := by
    rw [List.getD_eq_getElem _ _ (by omega), List.getElem_take]
  rw [← hbe, this]
  exact hzf j hj2

/-- Zero-freeness survives dropping a prefix. -/
theorem zf_drop (l : List Nat) (h : ∀ b ∈ l, b ≠ 0) (pos : Nat) :
    ∀ b ∈ l.drop pos, b ≠ 0 := by
  intro b hb
  obtain ⟨j, hj, hbe⟩ := List.mem_iff_getElem.mp hb
  apply h b
  rw [← hbe, List.getElem_drop]
  exact List.getElem_mem _

/-- The search replace performs at the cursor (strcasestr, strchr or
strstr over the C string at p) agrees with the spec-worded leftmost search
over the content from that cursor: same result, shifted by the cursor, and
any hit leaves the occurrence inside the content. -/
theorem replace_search_corr (ic : Bool) (arr fromStr : List Nat) (len pos : Nat)
    (hcap : len ≤ arr.length) (hpos : pos ≤ len)
    (hzf : ∀ j, j < len → arr.getD j 0 ≠ 0)
    (hfz : ∀ b ∈ fromStr, b ≠ 0) (hfne : fromStr ≠ []) :
    specSearch ic (arr.take len) fromStr pos =
      (if ic then strcasestr (sliceL arr pos len) fromStr
       else if fromStr.length = 1 then strchrM (sliceL arr pos len) (fromStr.getD 0 0)
       else strstrM (sliceL arr pos len) fromStr).map (fun off => pos + off) ∧
    (∀ off, (if ic then strcasestr (sliceL arr pos len) fromStr
       else if fromStr.length = 1 then strchrM (sliceL arr pos len) (fromStr.getD 0 0)
       else strstrM (sliceL arr pos len) fromStr) = some off →
      pos + off + fromStr.length ≤ len) := by
  have hm1 : 1 ≤ fromStr.length := List.length_pos.mpr hfne
  have hctake : (arr.take len).length = len := by
    rw [List.length_take]
    omega
  have hczf : ∀ b ∈ arr.take len, b ≠ 0 := zf_take arr len hcap hzf
  have hszf : ∀ b ∈ (arr.take len).drop pos, b ≠ 0 := zf_drop _ hczf pos
  have hslice : sliceL arr pos len = (arr.take len).drop pos := rfl
  have hsufl : ((arr.take len).drop pos).length = len - pos := by
    rw [List.length_drop, hctake]
  cases ic with
  | true =>
    simp only [eq_self_iff_true, if_true, hslice]
    have hchar := strcasestr_searchSpec ((arr.take len).drop pos) fromStr hszf hfz hm1
    constructor
    · exact searchSpecP_unique
        (specSearch_specP (arr.take len) fromStr hczf hfz hm1
          ((arr.take len).length + 1) pos (by omega))
        (searchSpecP_lift hchar)
    · intro off hoff
      rw [hoff] at hchar
      have hb := matchAt_bound hszf hfz hm1 hchar.2.1
      rw [hsufl] at hb
      omega
  | false =>
    simp only [Bool.false_eq_true, if_false, hslice]
    by_cases hfl1 : fromStr.length = 1
    · rw [if_pos hfl1]
      have hchar := strchrLoop_spec ((arr.take len).drop pos) fromStr (fromStr.getD 0 0)
        hfl1 rfl (((arr.take len).drop pos).length) 0 (by omega)
      constructor
      · exact searchSpecE_unique
          (specSearch_specE (arr.take len) fromStr ((arr.take len).length + 1) pos
            (by omega))
          (searchSpecE_lift hm1 hchar)
      · intro off hoff
        show pos + off + fromStr.length ≤ len
        rw [show strchrM ((arr.take len).drop pos) (fromStr.getD 0 0) =
          strchrLoop ((arr.take len).drop pos) (fromStr.getD 0 0) 0 from rfl] at hoff
        rw [hoff] at hchar
        have hb := hchar.2.1.1
        rw [hsufl] at hb
        omega
    · rw [if_neg hfl1]
      have hchar := strstrLoop_spec ((arr.take len).drop pos) fromStr
        (((arr.take len).drop pos).length + 1) 0 (by omega)
      constructor
      · exact searchSpecE_unique
          (specSearch_specE (arr.take len) fromStr ((arr.take len).length + 1) pos
            (by omega))
          (searchSpecE_lift hm1 hchar)
      · intro off hoff
        show pos + off + fromStr.length ≤ len
        rw [show strstrM ((arr.take len).drop pos) fromStr =
          strstrLoop ((arr.take len).drop pos) fromStr 0 from rfl] at hoff
        rw [hoff] at hchar
        have hb := hchar.2.1.1
        rw [hsufl] at hb
        omega

/-- The rewriting loop of replace refines the spec-worded content-level
loop: same truncation flag, and the array's content slice tracks the spec
content exactly, re-terminated, zero-free, below capacity, with the buffer
length unchanged. -/
theorem replaceLoop_refines (maxLen : Nat) (fromStr toStr : List Nat) (ic : Bool)
    (hfz : ∀ b ∈ fromStr, b ≠ 0) (htz : ∀ b ∈ toStr, b ≠ 0) (hfne : fromStr ≠ []) :
    ∀ (fuel : Nat) (arr : List Nat) (len pos : Nat),
    maxLen ≤ arr.length → len < maxLen → pos ≤ len →
    arr.getD len 0 = 0 → (∀ j, j < len → arr.getD j 0 ≠ 0) →
    (replaceLoop maxLen fromStr toStr ic fuel arr len pos).2.2 =
        (replaceSpecLoop maxLen fromStr toStr ic fuel (arr.take len) pos).2 ∧
      (replaceLoop maxLen fromStr toStr ic fuel arr len pos).2.1 =
        (replaceSpecLoop maxLen fromStr toStr ic fuel (arr.take len) pos).1.length ∧
      (replaceLoop maxLen fromStr toStr ic fuel arr len pos).1.take
          (replaceLoop maxLen fromStr toStr ic fuel arr len pos).2.1 =
        (replaceSpecLoop maxLen fromStr toStr ic fuel (arr.take len) pos).1 ∧
      (replaceLoop maxLen fromStr toStr ic fuel arr len pos).1.getD
          (replaceLoop maxLen fromStr toStr ic fuel arr len pos).2.1 0 = 0 ∧
      (∀ j, j < (replaceLoop maxLen fromStr toStr ic fuel arr len pos).2.1 →
        (replaceLoop maxLen fromStr toStr ic fuel arr len pos).1.getD j 0 ≠ 0) ∧
      (replaceLoop maxLen fromStr toStr ic fuel arr len pos).2.1 < maxLen ∧
      (replaceLoop maxLen fromStr toStr ic fuel arr len pos).1.length = arr.length := by
  intro fuel
  induction fuel with
  | zero =>
    intro arr len pos hcap hlen hpos hterm hzf
    refine ⟨rfl, ?_, rfl, hterm, hzf, hlen, rfl⟩
    show len = (arr.take len).length
    rw [List.length_take]
    omega
  | succ fuel ih =>
    intro arr len pos hcap hlen hpos hterm hzf
    obtain ⟨hcorr1, hcorr2⟩ := replace_search_corr ic arr fromStr len pos (by omega)
      hpos hzf hfz hfne
    rcases hs : (if ic then strcasestr (sliceL arr pos len) fromStr
        else if fromStr.length = 1 then strchrM (sliceL arr pos len) (fromStr.getD 0 0)
        else strstrM (sliceL arr pos len) fromStr) with _ | off
    · rw [hs] at hcorr1
      have hspecs : specSearch ic (arr.take len) fromStr pos = none := hcorr1
      have heq1 : replaceLoop maxLen fromStr toStr ic (fuel + 1) arr len pos =
          (arr, len, false) := by
        rw [replaceLoop]
        simp only []
        rw [hs]
      have heq2 : replaceSpecLoop maxLen fromStr toStr ic (fuel + 1) (arr.take len) pos =
          (arr.take len, false) := by
        rw [replaceSpecLoop]
        rw [hspecs]
      rw [heq1, heq2]
      refine ⟨rfl, ?_, rfl, hterm, hzf, hlen, rfl⟩
      show len = (arr.take len).length
      rw [List.length_take]
      omega
    · have hqb : pos + off + fromStr.length ≤ len := hcorr2 off hs
      rw [hs] at hcorr1
      have hspecs : specSearch ic (arr.take len) fromStr pos = some (pos + off) := hcorr1
      have heq1a : replaceLoop maxLen fromStr toStr ic (fuel + 1) arr len pos =
          (if fromStr.length < toStr.length then
            (if maxLen ≤ len + (toStr.length - fromStr.length) then (arr, len, true)
             else replaceLoop maxLen fromStr toStr ic fuel
               (writeAt (writeAt arr (pos + off + toStr.length)
                 (sliceL arr (pos + off + fromStr.length) (len + 1))) (pos + off) toStr)
               (len + (toStr.length - fromStr.length)) (pos + off + toStr.length))
          else if toStr.length < fromStr.length then
            replaceLoop maxLen fromStr toStr ic fuel
              (writeAt (writeAt arr (pos + off + toStr.length)
                (sliceL arr (pos + off + fromStr.length) (len + 1))) (pos + off) toStr)
              (len - (fromStr.length - toStr.length)) (pos + off + toStr.length)
          else replaceLoop maxLen fromStr toStr ic fuel (writeAt arr (pos + off) toStr)
            len (pos + off + toStr.length)) := by
        rw [replaceLoop]
        simp only []
        rw [hs]
      have heq2a : replaceSpecLoop maxLen fromStr toStr ic (fuel + 1) (arr.take len) pos =
          (if fromStr.length < toStr.length ∧
              maxLen ≤ (arr.take len).length + (toStr.length - fromStr.length)
           then (arr.take len, true)
           else replaceSpecLoop maxLen fromStr toStr ic fuel
             ((arr.take len).take (pos + off) ++ toStr ++
               (arr.take len).drop (pos + off + fromStr.length))
             (pos + off + toStr.length)) := by
        rw [replaceSpecLoop]
        rw [hspecs]
      rw [heq1a, heq2a]
      by_cases hg1 : fromStr.length < toStr.length
      · by_cases hg2 : maxLen ≤ len + (toStr.length - fromStr.length)
        · rw [if_pos hg1, if_pos hg2,
            if_pos ⟨hg1, by rw [List.length_take]; omega⟩]
          refine ⟨rfl, ?_, rfl, hterm, hzf, hlen, rfl⟩
          show len = (arr.take len).length
          rw [List.length_take]
          omega
        · rw [if_pos hg1, if_neg hg2,
            if_neg (by
              intro hand
              apply hg2
              have hand2 := hand.2
              rw [List.length_take] at hand2
              omega)]
          obtain ⟨s1, s2, s3, s4⟩ := replace_splice arr fromStr toStr len (pos + off)
            hqb (by omega) (by omega) hterm hzf htz
          have hlen'eq : pos + off + toStr.length + (len - (pos + off + fromStr.length)) =
              len + (toStr.length - fromStr.length) := by omega
          rw [hlen'eq] at s1 s2 s3
          obtain ⟨p1, p2, p3, p4, p5, p6, p7⟩ := ih
            (writeAt (writeAt arr (pos + off + toStr.length)
              (sliceL arr (pos + off + fromStr.length) (len + 1))) (pos + off) toStr)
            (len + (toStr.length - fromStr.length)) (pos + off + toStr.length)
            (by rw [s4]; omega) (by omega) (by omega) s2 s3
          rw [← s1]
          exact ⟨p1, p2, p3, p4, p5, p6, by rw [p7, s4]⟩
      · by_cases hg3 : toStr.length < fromStr.length
        · rw [if_neg hg1, if_pos hg3,
            if_neg (by intro hand; exact absurd hand.1 hg1)]
          obtain ⟨s1, s2, s3, s4⟩ := replace_splice arr fromStr toStr len (pos + off)
            hqb (by omega) (by omega) hterm hzf htz
          have hlen'eq : pos + off + toStr.length + (len - (pos + off + fromStr.length)) =
              len - (fromStr.length - toStr.length) := by omega
          rw [hlen'eq] at s1 s2 s3
          obtain ⟨p1, p2, p3, p4, p5, p6, p7⟩ := ih
            (writeAt (writeAt arr (pos + off + toStr.length)
              (sliceL arr (pos + off + fromStr.length) (len + 1))) (pos + off) toStr)
            (len - (fromStr.length - toStr.length)) (pos + off + toStr.length)
            (by rw [s4]; omega) (by omega) (by omega) s2 s3
          rw [← s1]
          exact ⟨p1, p2, p3, p4, p5, p6, by rw [p7, s4]⟩
        · have hfleq : fromStr.length = toStr.length := by omega
          rw [if_neg hg1, if_neg hg3,
            if_neg (by intro hand; exact absurd hand.1 hg1)]
          obtain ⟨s1, s2, s3, s4⟩ := replace_splice_eq arr fromStr toStr len (pos + off)
            hqb (by omega) hfleq hterm hzf htz
          obtain ⟨p1, p2, p3, p4, p5, p6, p7⟩ := ih (writeAt arr (pos + off) toStr)
            len (pos + off + toStr.length)
            (by rw [s4]; omega) (by omega) (by omega) s2 s3
          rw [← s1]
          exact ⟨p1, p2, p3, p4, p5, p6, by rw [p7, s4]⟩

/-- One sanitizing pass yields valid UTF-8 within capacity (helper shared
by the sanitizer and replace developments). -/
theorem sanitize_post (buf : List Nat) (maxLen : Nat)
    (h1 : 0 < maxLen) (h2 : maxLen ≤ buf.length) :
    validateUtf8 (sanitizeUtf8 buf maxLen).1 = true ∧
      (sanitizeUtf8 buf maxLen).2 + 1 ≤ maxLen := by
  unfold sanitizeUtf8
  rw [if_neg (by omega)]
  obtain ⟨p1, p2, p3, p4⟩ := sanLoop_post maxLen maxLen buf 0 0 (by omega) (by omega)
    (by omega) h2 Chunks.nil
  have hfl : ((sanLoop maxLen buf 0 0).1.take (sanLoop maxLen buf 0 0).2).length =
      (sanLoop maxLen buf 0 0).2 := by
    rw [List.length_take]
    omega
  refine ⟨?_, by omega⟩
  unfold validateUtf8
  apply validateLoop_chunks p1
  · intro j hj
    rw [hfl] at hj
    rw [Nat.zero_add]
    exact (getD_take hj).symm
  · rw [Nat.zero_add, hfl]
    exact p2

/-- C4: replace refines the spec-worded left-to-right substitution.  When
the spec run does not truncate, replace returns the spec content verbatim
(same length, same bytes) with no sanitize pass; when the spec run
truncates (a growing replacement would exceed capacity), replace keeps
exactly the replacements already made and finalizes that partial result by
one pass of sanitizeUtf8, so the result is valid UTF-8 within capacity. -/
theorem replace_refines_spec (arr : List Nat) (maxLen curLen : Nat)
    (fromStr toStr : List Nat) (ic : Bool)
    (hcap : maxLen ≤ arr.length) (hlen : curLen < maxLen)
    (hterm : arr.getD curLen 0 = 0) (hzf : ∀ j, j < curLen → arr.getD j 0 ≠ 0)
    (hfz : ∀ b ∈ fromStr, b ≠ 0) (htz : ∀ b ∈ toStr, b ≠ 0) (hfne : fromStr ≠ []) :
    ((replaceSpec (arr.take curLen) maxLen fromStr toStr ic).2 = false →
      (replace arr maxLen curLen fromStr toStr ic).2 =
          (replaceSpec (arr.take curLen) maxLen fromStr toStr ic).1.length ∧
        (replace arr maxLen curLen fromStr toStr ic).1.take
            (replace arr maxLen curLen fromStr toStr ic).2 =
          (replaceSpec (arr.take curLen) maxLen fromStr toStr ic).1) ∧
    ((replaceSpec (arr.take curLen) maxLen fromStr toStr ic).2 = true →
      replace arr maxLen curLen fromStr toStr ic =
          sanitizeUtf8 (replaceLoop maxLen fromStr toStr ic (curLen + 1) arr curLen 0).1
            maxLen ∧
        (replaceLoop maxLen fromStr toStr ic (curLen + 1) arr curLen 0).1.take
            (replaceLoop maxLen fromStr toStr ic (curLen + 1) arr curLen 0).2.1 =
          (replaceSpec (arr.take curLen) maxLen fromStr toStr ic).1 ∧
        validateUtf8 (replace arr maxLen curLen fromStr toStr ic).1 = true ∧
        (replace arr maxLen curLen fromStr toStr ic).2 + 1 ≤ maxLen) := by
  have hm1 : 1 ≤ fromStr.length := List.length_pos.mpr hfne
  have hp0 : ¬ fromStr.getD 0 0 = 0 := by
    rw [zf_getD fromStr hfz]
    omega
  have hctl : (arr.take curLen).length = curLen := by
    rw [List.length_take]
    omega
  unfold replace replaceSpec
  rw [if_neg hp0, if_neg hfne, hctl]
  simp only []
  obtain ⟨p1, p2, p3, p4, p5, p6, p7⟩ := replaceLoop_refines maxLen fromStr toStr ic
    hfz htz hfne (curLen + 1) arr curLen 0 hcap hlen (by omega) hterm hzf
  constructor
  · intro hff
    rw [p1, hff]
    simp only [Bool.false_eq_true, if_false]
    exact ⟨p2, p3⟩
  · intro hft
    rw [p1, hft]
    simp only [eq_self_iff_true, if_true]
    obtain ⟨v1, v2⟩ := sanitize_post
      (replaceLoop maxLen fromStr toStr ic (curLen + 1) arr curLen 0).1 maxLen
      (by omega) (by rw [p7]; exact hcap)
    exact ⟨trivial, p3, v1, v2⟩

theorem replace_refines_spec_witness :
    ((replaceSpec ([97, 98, 99, 0].take 3) 4 [98] [66] false).2 = false →
      (replace [97, 98, 99, 0] 4 3 [98] [66] false).2 =
          (replaceSpec ([97, 98, 99, 0].take 3) 4 [98] [66] false).1.length ∧
        (replace [97, 98, 99, 0] 4 3 [98] [66] false).1.take
            (replace [97, 98, 99, 0] 4 3 [98] [66] false).2 =
          (replaceSpec ([97, 98, 99, 0].take 3) 4 [98] [66] false).1) ∧
    ((replaceSpec ([97, 98, 99, 0].take 3) 4 [98] [66] false).2 = true →
      replace [97, 98, 99, 0] 4 3 [98] [66] false =
          sanitizeUtf8 (replaceLoop 4 [98] [66] false 4 [97, 98, 99, 0] 3 0).1 4 ∧
        (replaceLoop 4 [98] [66] false 4 [97, 98, 99, 0] 3 0).1.take
            (replaceLoop 4 [98] [66] false 4 [97, 98, 99, 0] 3 0).2.1 =
          (replaceSpec ([97, 98, 99, 0].take 3) 4 [98] [66] false).1 ∧
        validateUtf8 (replace [97, 98, 99, 0] 4 3 [98] [66] false).1 = true ∧
        (replace [97, 98, 99, 0] 4 3 [98] [66] false).2 + 1 ≤ 4) :=
  replace_refines_spec [97, 98, 99, 0] 4 3 [98] [66] false (by decide) (by decide)
    (by decide) (by decide) (by decide) (by decide) (by decide)

/-- C8: the Token (non-destructive) split does not fold the remainder into
the final token: splitting a:b:c on the colon with two slots stops at the
second delimiter and returns the one-byte token b, dropping ":c", although
the claim (and the comment in the source) promise the remainder is kept.
The destructive variant and the three-token scenario are unaffected. -/
theorem splitToken_cuts_final_token :
    splitToken [97, 58, 98, 58, 99] 58 2 = [(0, 1), (2, 1)] ∧
    splitToken [83, 83, 73, 68, 58, 77, 121, 72, 111, 109, 101, 58, 87, 80, 65, 50] 58 3 =
      [(0, 4), (5, 6), (12, 4)] := by
  constructor
  · simp [splitToken, splitTokLoop]
  · simp [splitToken, splitTokLoop]

end cms
